import Mathlib

/-!
# A shallow embedding of `queue.c` (lab0-c)

The queue of `queue.c` is a singly linked list of heap cells with a header
(`queue_t`) that caches `head`, `tail` and `size`.  The embedding keeps the
pointer structure: a heap maps addresses to list elements, a pointer is an
optional address (`none` is `NULL`), and every function of the source is a
function on the heap and the header.

* A dereference of `NULL` or of an address that is not live has no defined
  behaviour in C; the embedded function then returns `none`.
* Loops and the recursion of `mergeSortList` take a `fuel` argument; running
  out of fuel also returns `none`.  The theorems give the fuel that suffices.
* `malloc` is outside the repository: its outcome is an argument of the
  functions that call it.
* A C string is the list of its bytes before the terminating NUL.
* The counter `size` is a C `int`: the functions that write it reduce the new
  value to the range of `int` (`int_wrap`), and `q_size` returns an `int`.
-/

namespace LabQueue

/-! ## Data model -/

/-- A pointer to a list element: `none` is `NULL`. -/
abbrev Ptr := Option Nat

/-- The element of `queue.h`: an owned string and the link to the successor. -/
structure list_ele_t where
  value : List Nat
  next : Ptr
deriving DecidableEq, Repr

/-- Modelled from the spec: `queue.h` is not among the sources; the header
holds "a count of elements, a reference to the first element (head) and a
reference to the last element (tail)".  The count is the C `int` that
`q_size` returns: every write of `size` reduces the value to the range of
`int` (`int_wrap`). -/
structure queue_t where
  head : Ptr
  tail : Ptr
  size : Int
deriving DecidableEq, Repr

/-- The value of an integer as a C `int` of 32 bits: reduced modulo `2 ^ 32`
into the range from `-2 ^ 31` to `2 ^ 31 - 1`.  An increment at `INT_MAX`
overflows, which the C standard leaves undefined; the embedding takes the
two's-complement result, -2147483648. -/
def int_wrap (x : Int) : Int := (x + 2147483648) % 4294967296 - 2147483648

/-- The heap of list elements: the cell at a live address, `none` elsewhere. -/
abbrev Heap := Nat → Option list_ele_t

/-- What a caller holds: its queue pointer (`none` is `NULL`) and the heap. -/
structure State where
  q : Option queue_t
  mem : Heap

/-- The heap with nothing allocated. -/
def emptyHeap : Heap := fun _ => none

/-- Overwrite one cell of the heap. -/
def setCell (m : Heap) (a : Nat) (c : Option list_ele_t) : Heap :=
  fun x => if x = a then c else m x

/-- The effect of `free(p)` on a list element. -/
def free (m : Heap) (a : Nat) : Heap := setCell m a none

/-- The read `p->next`; undefined when `p` is not live. -/
def getNext (m : Heap) (a : Nat) : Option Ptr :=
  match m a with
  | none => none
  | some e => some e.next

/-- The write `p->next = n`; undefined when `p` is not live. -/
def setNext (m : Heap) (a : Nat) (n : Ptr) : Option Heap :=
  match m a with
  | none => none
  | some e => some (setCell m a (some (list_ele_t.mk e.value n)))

/-- The string stored at an address (empty when the address is not live). -/
def valueAt (m : Heap) (a : Nat) : List Nat :=
  match m a with
  | none => []
  | some e => e.value

/-- The libc function `malloc`, as far as a caller sees it: the environment
offers an address or refuses (`choice`); an offer of an address that is still
live is not a behaviour of `malloc` and counts as a refusal. -/
def malloc (m : Heap) (choice : Option Nat) : Option Nat :=
  match choice with
  | none => none
  | some a => if (m a).isNone then some a else none

/-! ## libc string functions -/

/-- The comparison of libc `strcmp`: the difference of the first pair of bytes
that differ, the end of a string reading as the NUL byte; the comparison stops
at a NUL byte. -/
def strcmp : List Nat → List Nat → Int
  | [], [] => 0
  | [], b :: _ => 0 - (b : Int)
  | a :: _, [] => (a : Int)
  | a :: s, b :: t =>
    if a = b then (if a = 0 then 0 else strcmp s t) else (a : Int) - (b : Int)

/-- The writes of `strncpy(dst, src, n)` as (index, byte) pairs in order: the
bytes of `src`, then NUL bytes up to `n` bytes in all. -/
def strncpy_writes (src : List Nat) (n : Nat) : List (Nat × Nat) :=
  (List.range n).map (fun i => (i, src.getD i 0))

/-- One byte stored into a buffer; undefined outside the buffer. -/
def store (buf : List Nat) (w : Nat × Nat) : Option (List Nat) :=
  if w.1 < buf.length then some (buf.set w.1 w.2) else none

/-- A sequence of byte stores. -/
def stores (buf : List Nat) : List (Nat × Nat) → Option (List Nat)
  | [] => some buf
  | w :: ws =>
    match store buf w with
    | none => none
    | some b => stores b ws

/-- The C string held in a buffer: its bytes before the first NUL. -/
def cstring (buf : List Nat) : List Nat := buf.takeWhile (fun b => b != 0)

/-- The modulus of `size_t` arithmetic. -/
def SIZE_MOD : Nat := 2 ^ 64

/-- The difference `a - b` in `size_t`: it wraps around modulo `SIZE_MOD`. -/
def size_sub (a b : Nat) : Nat := (((a : Int) - (b : Int)) % (SIZE_MOD : Int)).toNat

/-! ## The queue operations -/

/-- The function `q_new`; `ok` is the outcome of its `malloc`. -/
def q_new (m : Heap) (ok : Bool) : State :=
  if ok then State.mk (some (queue_t.mk none none 0)) m else State.mk none m

/-- The function `q_insert_head`; `node` and `str` are the outcomes of the two
calls of `malloc`. -/
def q_insert_head (st : State) (s : List Nat) (node : Option Nat) (str : Bool) :
    Option (Bool × State) :=
  match st.q with
  | none => some (false, st)
  | some q =>
    match malloc st.mem node with
    | none => some (false, st)
    | some newh =>
      if str then
        let m1 := setCell st.mem newh (some (list_ele_t.mk s q.head))
        let tail1 := match q.tail with
          | none => some newh
          | some t => some t
        some (true, State.mk (some (queue_t.mk (some newh) tail1 (int_wrap (q.size + 1)))) m1)
      else some (false, st)

/-- The function `q_insert_tail`; `node` and `str` are the outcomes of the two
calls of `malloc`. -/
def q_insert_tail (st : State) (s : List Nat) (node : Option Nat) (str : Bool) :
    Option (Bool × State) :=
  match st.q with
  | none => some (false, st)
  | some q =>
    match malloc st.mem node with
    | none => some (false, st)
    | some newt =>
      if str then
        let m1 := setCell st.mem newt (some (list_ele_t.mk s none))
        match q.head with
        | none =>
          some (true,
            State.mk (some (queue_t.mk (some newt) (some newt) (int_wrap (q.size + 1)))) m1)
        | some h =>
          match q.tail with
          | none => none
          | some t =>
            match setNext m1 t (some newt) with
            | none => none
            | some m2 =>
              some (true,
                State.mk (some (queue_t.mk (some h) (some newt) (int_wrap (q.size + 1)))) m2)
      else some (false, st)

/-- The byte stores of `q_remove_head` into `sp`, in order: those of
`strncpy(sp, value, bufsize - 1)`, then `sp[bufsize - 1] = 0`, with
`bufsize - 1` computed in `size_t`. -/
def q_remove_head_writes (value : List Nat) (bufsize : Nat) : List (Nat × Nat) :=
  strncpy_writes value (size_sub bufsize 1) ++ [(size_sub bufsize 1, 0)]

/-- The function `q_remove_head`; `sp` is the content of the caller's buffer
(`none` for `NULL`), returned as the call leaves it. -/
def q_remove_head (st : State) (sp : Option (List Nat)) (bufsize : Nat) :
    Option (Bool × State × Option (List Nat)) :=
  match st.q with
  | none => some (false, st, sp)
  | some q =>
    match q.head with
    | none => some (false, st, sp)
    | some rh =>
      match st.mem rh with
      | none => none
      | some e =>
        match sp with
        | none =>
          some (true,
            State.mk (some (queue_t.mk e.next q.tail (int_wrap (q.size - 1)))) (free st.mem rh),
            none)
        | some buf =>
          match stores buf (q_remove_head_writes e.value bufsize) with
          | none => none
          | some buf1 =>
            some (true,
              State.mk (some (queue_t.mk e.next q.tail (int_wrap (q.size - 1)))) (free st.mem rh),
              some buf1)

/-- The function `q_size`; the value it returns is an `int`. -/
def q_size (st : State) : Int :=
  match st.q with
  | none => 0
  | some q => int_wrap q.size

/-- The loop of `q_reverse` on `iter`, `prev` and `next`; returns the heap and
`next` at the exit. -/
def q_reverse_loop : Nat → Heap → Ptr → Ptr → Ptr → Option (Heap × Ptr)
  | 0, _, _, _, _ => none
  | fuel + 1, m, iter, prev, next =>
    match iter with
    | none => some (m, next)
    | some a =>
      match m a with
      | none => none
      | some e =>
        q_reverse_loop fuel (setCell m a (some (list_ele_t.mk e.value prev))) e.next
          (some a) (some a)

/-- The function `q_reverse`. -/
def q_reverse (fuel : Nat) (st : State) : Option State :=
  match st.q with
  | none => some st
  | some q =>
    if q.size = 1 then some st
    else
      match q_reverse_loop fuel st.mem q.head none none with
      | none => none
      | some (m, next) => some (State.mk (some (queue_t.mk next q.head q.size)) m)

/-- The first loop of `merge`, `while (l1 && l2)`; returns the heap and
`l1`, `l2`, `tmp`, `head` at the exit. -/
def merge_loop1 : Nat → Heap → Ptr → Ptr → Ptr → Ptr → Option (Heap × Ptr × Ptr × Ptr × Ptr)
  | 0, _, _, _, _, _ => none
  | fuel + 1, m, l1, l2, tmp, head =>
    match l1, l2 with
    | some a1, some a2 =>
      match m a1, m a2 with
      | some e1, some e2 =>
        if strcmp e1.value e2.value < 0 then
          match tmp with
          | none => merge_loop1 fuel m e1.next l2 (some a1) (some a1)
          | some t =>
            match setNext m t (some a1) with
            | none => none
            | some m1 =>
              match getNext m1 a1, getNext m1 t with
              | some n1, some nt => merge_loop1 fuel m1 n1 l2 nt head
              | _, _ => none
        else
          match tmp with
          | none => merge_loop1 fuel m l1 e2.next (some a2) (some a2)
          | some t =>
            match setNext m t (some a2) with
            | none => none
            | some m1 =>
              match getNext m1 a2, getNext m1 t with
              | some n2, some nt => merge_loop1 fuel m1 l1 n2 nt head
              | _, _ => none
      | _, _ => none
    | _, _ => some (m, l1, l2, tmp, head)

/-- The second loop of `merge`, `while (l1 || l2)`; returns the heap at the
exit. -/
def merge_loop2 : Nat → Heap → Ptr → Ptr → Ptr → Option Heap
  | 0, _, _, _, _ => none
  | fuel + 1, m, l1, l2, tmp =>
    match l1, l2 with
    | none, none => some m
    | some a1, _ =>
      match tmp with
      | none => none
      | some t =>
        match setNext m t (some a1) with
        | none => none
        | some m1 =>
          match getNext m1 a1, getNext m1 t with
          | some n1, some nt => merge_loop2 fuel m1 n1 l2 nt
          | _, _ => none
    | none, some a2 =>
      match tmp with
      | none => none
      | some t =>
        match setNext m t (some a2) with
        | none => none
        | some m1 =>
          match getNext m1 a2, getNext m1 t with
          | some n2, some nt => merge_loop2 fuel m1 none n2 nt
          | _, _ => none

/-- The function `merge`; returns the heap and the returned pointer. -/
def merge (fuel : Nat) (m : Heap) (l1 l2 : Ptr) : Option (Heap × Ptr) :=
  match l1, l2 with
  | none, _ => some (m, l2)
  | some _, none => some (m, l1)
  | some _, some _ =>
    match merge_loop1 fuel m l1 l2 none none with
    | none => none
    | some (m1, k1, k2, tmp, head) =>
      match merge_loop2 fuel m1 k1 k2 tmp with
      | none => none
      | some m2 => some (m2, head)

/-- The slow/fast loop of `mergeSortList`, `while (fast && fast->next)`;
returns `slow` at the exit. -/
def split_loop : Nat → Heap → Ptr → Ptr → Option Ptr
  | 0, _, _, _ => none
  | fuel + 1, m, fast, slow =>
    match fast with
    | none => some slow
    | some f =>
      match getNext m f with
      | none => none
      | some none => some slow
      | some (some f1) =>
        match slow with
        | none => none
        | some s =>
          match getNext m s, getNext m f1 with
          | some s1, some f2 => split_loop fuel m f2 s1
          | _, _ => none

/-- The function `mergeSortList`; returns the heap and the returned pointer. -/
def mergeSortList : Nat → Heap → Ptr → Option (Heap × Ptr)
  | 0, _, _ => none
  | fuel + 1, m, head =>
    match head with
    | none => some (m, head)
    | some h =>
      match getNext m h with
      | none => none
      | some none => some (m, head)
      | some (some f) =>
        match split_loop fuel m (some f) (some h) with
        | some (some s) =>
          match getNext m s, setNext m s none with
          | some fast, some m1 =>
            match mergeSortList fuel m1 head with
            | none => none
            | some (m2, l1) =>
              match mergeSortList fuel m2 fast with
              | none => none
              | some (m3, l2) => merge fuel m3 l1 l2
          | _, _ => none
        | _ => none

/-- The loop of `q_sort`, `while (result->next)`; returns `result` at the
exit. -/
def q_sort_walk : Nat → Heap → Nat → Option Nat
  | 0, _, _ => none
  | fuel + 1, m, result =>
    match getNext m result with
    | none => none
    | some none => some result
    | some (some n) => q_sort_walk fuel m n

/-- The function `q_sort`. -/
def q_sort (fuel : Nat) (st : State) : Option State :=
  match st.q with
  | none => some st
  | some q =>
    if q.size = 1 then some st
    else
      match q.head with
      | none => some st
      | some _ =>
        match mergeSortList fuel st.mem q.head with
        | none => none
        | some (_, none) => none
        | some (m1, some r) =>
          match q_sort_walk fuel m1 r with
          | none => none
          | some t => some (State.mk (some (queue_t.mk (some r) (some t) q.size)) m1)

/-! ## Sequences of calls -/

/-- One call of the public interface, with the outcomes of its allocations. -/
inductive Op where
  | insert_head (s : List Nat) (node : Option Nat) (str : Bool)
  | insert_tail (s : List Nat) (node : Option Nat) (str : Bool)
  | remove_head (sp : Option (List Nat)) (bufsize : Nat)
  | reverse
  | sort
deriving DecidableEq, Repr

/-- What a call hands back: its boolean result (`true` for the two `void`
functions) and the caller's buffer after a `q_remove_head`. -/
structure Ret where
  ok : Bool
  buf : Option (List Nat)
deriving DecidableEq, Repr

/-- One call on a state. -/
def step (fuel : Nat) (st : State) : Op → Option (State × Ret)
  | Op.insert_head s node str =>
    match q_insert_head st s node str with
    | none => none
    | some (b, st1) => some (st1, Ret.mk b none)
  | Op.insert_tail s node str =>
    match q_insert_tail st s node str with
    | none => none
    | some (b, st1) => some (st1, Ret.mk b none)
  | Op.remove_head sp bufsize =>
    match q_remove_head st sp bufsize with
    | none => none
    | some (b, st1, sp1) => some (st1, Ret.mk b sp1)
  | Op.reverse =>
    match q_reverse fuel st with
    | none => none
    | some st1 => some (st1, Ret.mk true none)
  | Op.sort =>
    match q_sort fuel st with
    | none => none
    | some st1 => some (st1, Ret.mk true none)

/-- A sequence of calls, in order, with what each handed back. -/
def run (fuel : Nat) : State → List Op → Option (State × List Ret)
  | st, [] => some (st, [])
  | st, op :: ops =>
    match step fuel st op with
    | none => none
    | some (st1, r) =>
      match run fuel st1 ops with
      | none => none
      | some (st2, rs) => some (st2, r :: rs)

/-! ## Reading a queue -/

/-- The addresses met from `p` by following next-links up to `NULL`, every one
of them live. -/
def Chain (m : Heap) : Ptr → List Nat → Prop
  | p, [] => p = none
  | p, a :: l => p = some a ∧ ∃ e, m a = some e ∧ Chain m e.next l

/-- The walk from `p` along next-links, as a program: the addresses met up to
`NULL`. -/
def elements : Nat → Heap → Ptr → Option (List Nat)
  | 0, _, _ => none
  | _ + 1, _, none => some []
  | fuel + 1, m, some a =>
    match m a with
    | none => none
    | some e =>
      match elements fuel m e.next with
      | none => none
      | some l => some (a :: l)

/-- The strings stored at a list of addresses. -/
def values (m : Heap) (l : List Nat) : List (List Nat) := l.map (valueAt m)

/-- The data-model invariants of the spec for a present queue whose elements
are `l`: the chain from head is `l` (so it is acyclic and ends after
`l.length` steps), `size` is its length, and `tail` is its last element
(`NULL` when there is none). -/
def WellFormed (st : State) (l : List Nat) : Prop :=
  ∃ q, st.q = some q ∧ Chain st.mem q.head l ∧ q.size = (l.length : Int) ∧ q.tail = l.getLast?

/-- The order of strings by `strcmp`. -/
def StrLe (x y : List Nat) : Prop := strcmp x y ≤ 0

/-! ## The list-level reading of the sort -/

/-- What `merge` builds from two chains, on their lists of addresses, `v`
giving the string at an address: the first list's head is taken when it
compares below the second list's head, else the second list's head. -/
def mergeL (v : Nat → List Nat) : List Nat → List Nat → List Nat
  | [], l2 => l2
  | a :: r1, [] => a :: r1
  | a :: r1, b :: r2 =>
    if strcmp (v a) (v b) < 0 then a :: mergeL v r1 (b :: r2)
    else b :: mergeL v (a :: r1) r2
termination_by l1 l2 => l1.length + l2.length

/-- What `mergeSortList` builds from a chain, on its list of addresses: the
list is cut after its first `(n + 1) / 2` elements, both parts are sorted and
merged. -/
def msortL (v : Nat → List Nat) (l : List Nat) : List Nat :=
  if l.length < 2 then l
  else mergeL v (msortL v (l.take ((l.length + 1) / 2))) (msortL v (l.drop ((l.length + 1) / 2)))
termination_by l.length
decreasing_by
  all_goals simp_wf
  all_goals omega

/-- Two heaps with the same live addresses and the same string at each. -/
def SameValues (m m' : Heap) : Prop :=
  ∀ x, (m' x).map list_ele_t.value = (m x).map list_ele_t.value

/-- A list of bytes that is a C string: no NUL byte inside. -/
def IsCString (s : List Nat) : Prop := ∀ b ∈ s, b ≠ 0

instance (s : List Nat) : Decidable (IsCString s) := by
  unfold IsCString
  infer_instance

/-- The `head` field of the caller's queue (`NULL` for an absent queue). -/
def State.head (st : State) : Ptr :=
  match st.q with
  | none => none
  | some q => q.head

/-- The `tail` field of the caller's queue (`NULL` for an absent queue). -/
def State.tail (st : State) : Ptr :=
  match st.q with
  | none => none
  | some q => q.tail

/-- The `size` field of the caller's queue as it is stored (0 for an absent
queue). -/
def State.size (st : State) : Int :=
  match st.q with
  | none => 0
  | some q => q.size

/-- A present queue whose chain from head is `l` and whose `tail` is the last
element of `l` (`NULL` when there is none): the data-model invariants without
the one on `size`. -/
def Linked (st : State) (l : List Nat) : Prop :=
  ∃ q, st.q = some q ∧ Chain st.mem q.head l ∧ q.tail = l.getLast?

/-- What a caller sees of a `q_remove_head` call: the boolean result and the C
string in its buffer afterwards. -/
def Ret.seen (r : Ret) : Bool × Option (List Nat) := (r.ok, r.buf.map cstring)

/-- The calls `q_insert_tail(q, s)` for a list of strings, each with the
outcomes of its two allocations. -/
def insert_tail_calls (calls : List (List Nat × Option Nat × Bool)) : List Op :=
  calls.map (fun c => Op.insert_tail c.1 c.2.1 c.2.2)

/-- The call `q_remove_head(q, sp, bufsize)` repeated `k` times with the same
buffer content and capacity. -/
def remove_head_calls (k : Nat) (buf : List Nat) (bufsize : Nat) : List Op :=
  List.replicate k (Op.remove_head (some buf) bufsize)

/-! ## Strings and states of the scenarios -/

/-- The bytes of "banana". -/
def banana : List Nat := [98, 97, 110, 97, 110, 97]

/-- The bytes of "apple". -/
def apple : List Nat := [97, 112, 112, 108, 101]

/-- The bytes of "cherry". -/
def cherry : List Nat := [99, 104, 101, 114, 114, 121]

/-- The bytes of "hello". -/
def hello : List Nat := [104, 101, 108, 108, 111]

/-- A fresh queue on an empty heap. -/
def fresh : State := q_new emptyHeap true

/-- The queue banana, apple, cherry with its elements at addresses 1, 2, 3. -/
def fruit : State :=
  State.mk (some (queue_t.mk (some 1) (some 3) 3))
    (setCell (setCell (setCell emptyHeap 1 (some (list_ele_t.mk banana (some 2))))
      2 (some (list_ele_t.mk apple (some 3)))) 3 (some (list_ele_t.mk cherry none)))

/-- A queue of two elements, at addresses 1 and 2 in this order, that hold the
same string "a". -/
def twins : State :=
  State.mk (some (queue_t.mk (some 1) (some 2) 2))
    (setCell (setCell emptyHeap 1 (some (list_ele_t.mk [97] (some 2))))
      2 (some (list_ele_t.mk [97] none)))

/-- The queue with the one element "hello" at address 1. -/
def single : State :=
  State.mk (some (queue_t.mk (some 1) (some 1) 1))
    (setCell emptyHeap 1 (some (list_ele_t.mk hello none)))

/-- Two separate one-element lists, at addresses 1 and 2, that hold the same
string "a". -/
def twins_apart : Heap :=
  setCell (setCell emptyHeap 1 (some (list_ele_t.mk [97] none)))
    2 (some (list_ele_t.mk [97] none))

/-- The scenario of the spec: banana, apple, cherry inserted at the tail, the
queue sorted, three elements removed with a buffer of 8 bytes. -/
def fruit_calls : List Op :=
  [Op.insert_tail banana (some 1) true, Op.insert_tail apple (some 2) true,
   Op.insert_tail cherry (some 3) true, Op.sort,
   Op.remove_head (some (List.replicate 8 0)) 8, Op.remove_head (some (List.replicate 8 0)) 8,
   Op.remove_head (some (List.replicate 8 0)) 8]

/-- A run in which `malloc` hands the address of the freed first element out
again: "a" is inserted at address 1 and removed, "b" is inserted at the head at
address 2, "c" at the head at address 1, "d" at the tail at address 3. -/
def reuse_calls : List Op :=
  [Op.insert_head [97] (some 1) true, Op.remove_head none 0,
   Op.insert_head [98] (some 2) true, Op.insert_head [99] (some 1) true,
   Op.insert_tail [100] (some 3) true]

/-- A run with fresh addresses only: "a" is inserted at address 1 and removed,
"b" is inserted at the head at address 2, "c" at the tail at address 3. -/
def stale_calls : List Op :=
  [Op.insert_head [97] (some 1) true, Op.remove_head none 0,
   Op.insert_head [98] (some 2) true, Op.insert_tail [99] (some 3) true]

/-- A queue is emptied by `q_remove_head`, then "b" is inserted at the head at
a fresh address. -/
def refill_calls : List Op :=
  [Op.insert_head [97] (some 1) true, Op.remove_head none 0,
   Op.insert_head [98] (some 2) true]

/-- The scenario of the spec: "a", "b", "c" inserted at the tail at addresses
1, 2, 3. -/
def abc_calls : List (List Nat × Option Nat × Bool) :=
  [([97], some 1, true), ([98], some 2, true), ([99], some 3, true)]

/-- The queue "a", "b", "c" with its elements at addresses 1, 2, 3. -/
def abc : State :=
  State.mk (some (queue_t.mk (some 1) (some 3) 3))
    (setCell (setCell (setCell emptyHeap 1 (some (list_ele_t.mk [97] (some 2))))
      2 (some (list_ele_t.mk [98] (some 3)))) 3 (some (list_ele_t.mk [99] none)))

/-- The calls that build the queue `twins` from a fresh queue. -/
def twins_calls : List Op :=
  [Op.insert_tail [97] (some 1) true, Op.insert_tail [97] (some 2) true]

/-! ## Parts of the code the later claims speak about -/

/-- The lines of `mergeSortList` between its early `return` and its recursive
calls, for a `head` at `h` whose `next` is `f`: the slow/fast walk, then
`fast = slow->next` and `slow->next = NULL`; returns the heap and `fast`, the
head of the second half. -/
def mergeSortList_split (fuel : Nat) (m : Heap) (h f : Nat) : Option (Heap × Ptr) :=
  match split_loop fuel m (some f) (some h) with
  | some (some s) =>
    match getNext m s, setNext m s none with
    | some fast, some m1 => some (m1, fast)
    | _, _ => none
  | _ => none

/-- The number of insertions of a run that returned `true`. -/
def inserted : List Op → List Ret → Nat
  | Op.insert_head _ _ _ :: ops, r :: rs => (if r.ok then 1 else 0) + inserted ops rs
  | Op.insert_tail _ _ _ :: ops, r :: rs => (if r.ok then 1 else 0) + inserted ops rs
  | _ :: ops, _ :: rs => inserted ops rs
  | _, _ => 0

/-- The number of `q_remove_head` calls of a run that returned `true`. -/
def removed : List Op → List Ret → Nat
  | Op.remove_head _ _ :: ops, r :: rs => (if r.ok then 1 else 0) + removed ops rs
  | _ :: ops, _ :: rs => removed ops rs
  | _, _ => 0

/-- The run `reuse_calls` followed by three `q_remove_head` calls. -/
def drain_calls : List Op :=
  reuse_calls ++ [Op.remove_head none 0, Op.remove_head none 0, Op.remove_head (some [7, 7]) 2]

/-- A run with insertions at both ends, one of them refused by `malloc`, a
reversal, a sort and removals, the last of them on the empty queue. -/
def mixed_calls : List Op :=
  [Op.insert_tail [98] (some 1) true, Op.insert_head [97] none true,
   Op.insert_head [99] (some 2) true, Op.insert_tail [97] (some 3) false,
   Op.reverse, Op.sort, Op.remove_head none 0, Op.remove_head (some [7, 7]) 2,
   Op.remove_head none 0]

/-- The queue "c", "b", "a": the queue `abc` reversed, with the same elements
at the same addresses. -/
def cba : State :=
  State.mk (some (queue_t.mk (some 3) (some 1) 3))
    (setCell (setCell (setCell emptyHeap 1 (some (list_ele_t.mk [97] none)))
      2 (some (list_ele_t.mk [98] (some 1)))) 3 (some (list_ele_t.mk [99] (some 2))))

/-- Two sorted lists on one heap: "a", "c" at addresses 1, 2 and "b", "d" at
addresses 3, 4. -/
def ladders : Heap :=
  setCell (setCell (setCell (setCell emptyHeap 1 (some (list_ele_t.mk [97] (some 2))))
    2 (some (list_ele_t.mk [99] none))) 3 (some (list_ele_t.mk [98] (some 4))))
    4 (some (list_ele_t.mk [100] none))

/-- The calls without defined behaviour that a run from `q_new` can meet: a
`q_insert_tail` on a queue with a head whose `tail` is not a live element, and
a `q_remove_head` with a buffer that has no room for `bufsize` bytes, or with
a `bufsize` of 0 or beyond `size_t`. -/
def Stuck (st : State) : Op → Prop
  | Op.insert_tail _ _ _ => st.head ≠ none ∧ ∀ t e, st.tail = some t → st.mem t ≠ some e
  | Op.remove_head (some buf) c => ¬ (1 ≤ c ∧ c < SIZE_MOD ∧ c ≤ buf.length)
  | _ => False

/-! ## States and runs of the counterexamples -/

/-- A header whose `size` field is 1 over the chain "b", "a" at addresses
1, 2, with `tail` at the first element. -/
def mis_sized : State :=
  State.mk (some (queue_t.mk (some 1) (some 1) 1))
    (setCell (setCell emptyHeap 1 (some (list_ele_t.mk [98] (some 2))))
      2 (some (list_ele_t.mk [97] none)))

/-- The queue "a", "b" with its elements at addresses 1, 2 and `size` 2. -/
def ab : State :=
  State.mk (some (queue_t.mk (some 1) (some 2) 2))
    (setCell (setCell emptyHeap 1 (some (list_ele_t.mk [97] (some 2))))
      2 (some (list_ele_t.mk [98] none)))

/-- The state the run `refill_calls` leaves: "b" at address 2 is the only
element, `tail` holds the freed address 1. -/
def stale : State :=
  State.mk (some (queue_t.mk (some 2) (some 1) 1))
    (setCell emptyHeap 2 (some (list_ele_t.mk [98] none)))

/-- A run that leaves one element reachable under a header of `size` 2: "a"
is inserted at address 1 and removed, "b" is inserted at the head at address
2, and "c" at the tail at the freed address 1, which `tail` still held. -/
def loop_calls : List Op :=
  [Op.insert_head [97] (some 1) true, Op.remove_head none 0,
   Op.insert_head [98] (some 2) true, Op.insert_tail [99] (some 1) true]

/-- The calls `q_insert_tail(q, "")` with the fresh addresses `0`, ..., `n - 1`
and every allocation granted. -/
def many_calls (n : Nat) : List (List Nat × Option Nat × Bool) :=
  (List.range' 0 n).map (fun i => ([], some i, true))

end LabQueue

namespace LabQueue

/-! ## The `int` counter -/

theorem int_wrap_idem (x : Int) : int_wrap (int_wrap x) = int_wrap x := by
  unfold int_wrap; omega

theorem int_wrap_add (x y : Int) : int_wrap (int_wrap x + y) = int_wrap (x + y) := by
  unfold int_wrap; omega

theorem int_wrap_sub (x y : Int) : int_wrap (int_wrap x - y) = int_wrap (x - y) := by
  unfold int_wrap; omega

theorem int_wrap_small (x : Int) (h1 : -2147483648 ≤ x) (h2 : x ≤ 2147483647) :
    int_wrap x = x := by
  unfold int_wrap; omega

theorem int_wrap_zero : int_wrap 0 = 0 := by decide

/-! ## Heap and chain lemmas -/

theorem setCell_same (m : Heap) (a : Nat) (c : Option list_ele_t) : setCell m a c a = c := by
  simp [setCell]

theorem setCell_other (m : Heap) (a x : Nat) (c : Option list_ele_t) (h : x ≠ a) :
    setCell m a c x = m x := by
  simp [setCell, h]

theorem setCell_cancel (m : Heap) (a : Nat) (c : Option list_ele_t) (h : m a = none) :
    setCell (setCell m a c) a none = m := by
  funext x
  by_cases hx : x = a
  · subst hx; simp [setCell, h]
  · simp [setCell, hx]

theorem setCell_id (m : Heap) (a : Nat) (c : Option list_ele_t) (h : m a = c) :
    setCell m a c = m := by
  funext x
  by_cases hx : x = a
  · subst hx; simp [setCell, h]
  · simp [setCell, hx]

theorem chain_nil (m : Heap) (p : Ptr) : Chain m p [] ↔ p = none := by
  simp [Chain]

theorem chain_cons (m : Heap) (p : Ptr) (a : Nat) (l : List Nat) :
    Chain m p (a :: l) ↔ p = some a ∧ ∃ e, m a = some e ∧ Chain m e.next l := by
  simp [Chain]

theorem chain_unique (m : Heap) (p : Ptr) (l1 l2 : List Nat)
    (h1 : Chain m p l1) (h2 : Chain m p l2) : l1 = l2 := by
  induction l1 generalizing p l2 with
  | nil =>
    cases l2 with
    | nil => rfl
    | cons b r =>
      rw [chain_nil] at h1
      rw [chain_cons] at h2
      rw [h1] at h2
      exact absurd h2.1 (by simp)
  | cons a r ih =>
    cases l2 with
    | nil =>
      rw [chain_nil] at h2
      rw [chain_cons] at h1
      rw [h2] at h1
      exact absurd h1.1 (by simp)
    | cons b r2 =>
      rw [chain_cons] at h1 h2
      obtain ⟨hp1, e1, he1, hc1⟩ := h1
      obtain ⟨hp2, e2, he2, hc2⟩ := h2
      have hab : a = b := by
        rw [hp1] at hp2
        exact Option.some.inj hp2
      subst hab
      rw [he1] at he2
      have hee : e1 = e2 := Option.some.inj he2
      subst hee
      rw [ih e1.next r2 hc1 hc2]

theorem chain_congr (m m' : Heap) (p : Ptr) (l : List Nat)
    (h : Chain m p l) (hm : ∀ a ∈ l, m' a = m a) : Chain m' p l := by
  induction l generalizing p with
  | nil => rw [chain_nil] at h ⊢; exact h
  | cons a r ih =>
    rw [chain_cons] at h ⊢
    obtain ⟨hp, e, he, hc⟩ := h
    refine ⟨hp, e, ?_, ih e.next hc (fun x hx => hm x (List.mem_cons_of_mem a hx))⟩
    rw [hm a (List.mem_cons_self a r)]
    exact he

theorem chain_live (m : Heap) (p : Ptr) (l : List Nat) (h : Chain m p l) :
    ∀ a ∈ l, ∃ e, m a = some e := by
  induction l generalizing p with
  | nil => intro a ha; simp at ha
  | cons b r ih =>
    rw [chain_cons] at h
    obtain ⟨_, e, he, hc⟩ := h
    intro a ha
    rcases List.mem_cons.mp ha with hab | har
    · subst hab; exact ⟨e, he⟩
    · exact ih e.next hc a har

theorem chain_append (m : Heap) (p : Ptr) (l1 l2 : List Nat) (h : Chain m p (l1 ++ l2)) :
    ∃ p2, Chain m p2 l2 ∧
      (l1 = [] → p2 = p) ∧ (∀ a, l1.getLast? = some a → getNext m a = some p2) := by
  induction l1 generalizing p with
  | nil => exact ⟨p, h, fun _ => rfl, fun a ha => by simp at ha⟩
  | cons b r ih =>
    rw [List.cons_append, chain_cons] at h
    obtain ⟨_, e, he, hc⟩ := h
    obtain ⟨p2, hc2, hnil, hlast⟩ := ih e.next hc
    refine ⟨p2, hc2, fun hne => by simp at hne, ?_⟩
    intro a ha
    cases r with
    | nil =>
      simp at ha
      subst ha
      simp [getNext, he, hnil rfl]
    | cons c r2 =>
      rw [List.getLast?_cons_cons] at ha
      exact hlast a ha

theorem chain_suffix (m : Heap) (p : Ptr) (l1 l2 : List Nat) (a : Nat)
    (h : Chain m p (l1 ++ a :: l2)) : Chain m (some a) (a :: l2) := by
  obtain ⟨p2, hc2, _, _⟩ := chain_append m p l1 (a :: l2) h
  have hp2 := hc2
  rw [chain_cons] at hp2
  rw [← hp2.1]
  exact hc2

theorem chain_head_notin (m : Heap) (p : Ptr) (a : Nat) (l : List Nat)
    (h : Chain m p (a :: l)) : a ∉ l := by
  intro ha
  obtain ⟨l1, l2, hl⟩ := List.append_of_mem ha
  have h1 : Chain m (some a) (a :: l) := by
    have hp := h
    rw [chain_cons] at hp
    rw [← hp.1]
    exact h
  have h2 : Chain m (some a) (a :: l2) := by
    have h3 : Chain m p ((a :: l1) ++ a :: l2) := by
      rw [List.cons_append, ← hl]
      exact h
    exact chain_suffix m p (a :: l1) l2 a h3
  have hlen := congrArg List.length (chain_unique m (some a) _ _ h1 h2)
  rw [hl] at hlen
  simp at hlen
  omega

theorem chain_tail (m : Heap) (p : Ptr) (a : Nat) (l : List Nat) (h : Chain m p (a :: l)) :
    ∃ e, m a = some e ∧ Chain m e.next l := by
  rw [chain_cons] at h
  exact h.2

theorem chain_nodup (m : Heap) (p : Ptr) (l : List Nat) (h : Chain m p l) : l.Nodup := by
  induction l generalizing p with
  | nil => exact List.nodup_nil
  | cons a r ih =>
    have hn := chain_head_notin m p a r h
    obtain ⟨e, _, hc⟩ := chain_tail m p a r h
    exact List.nodup_cons.mpr ⟨hn, ih e.next hc⟩

theorem chain_elements (m : Heap) (p : Ptr) (l : List Nat) (h : Chain m p l)
    (fuel : Nat) (hf : l.length < fuel) : elements fuel m p = some l := by
  induction l generalizing p fuel with
  | nil =>
    rw [chain_nil] at h
    subst h
    cases fuel with
    | zero => simp at hf
    | succ n => simp [elements]
  | cons a r ih =>
    rw [chain_cons] at h
    obtain ⟨hp, e, he, hc⟩ := h
    subst hp
    cases fuel with
    | zero => simp at hf
    | succ n =>
      have hr : r.length < n := by simp at hf; omega
      simp [elements, he, ih e.next hc n hr]

theorem elements_chain (m : Heap) (p : Ptr) (l : List Nat) (fuel : Nat)
    (h : elements fuel m p = some l) : Chain m p l := by
  induction fuel generalizing p l with
  | zero => simp [elements] at h
  | succ n ih =>
    cases p with
    | none =>
      simp [elements] at h
      subst h
      simp [Chain]
    | some a =>
      simp only [elements] at h
      cases he : m a with
      | none => simp [he] at h
      | some e =>
        simp only [he] at h
        cases hr : elements n m e.next with
        | none => simp [hr] at h
        | some r =>
          simp only [hr] at h
          have hl : a :: r = l := Option.some.inj h
          subst hl
          rw [chain_cons]
          exact ⟨rfl, e, he, ih e.next r hr⟩

end LabQueue

namespace LabQueue

/-! ## The two loops of `merge` -/

theorem sameValues_refl (m : Heap) : SameValues m m := fun _ => rfl

theorem sameValues_trans (m1 m2 m3 : Heap) (h12 : SameValues m1 m2) (h23 : SameValues m2 m3) :
    SameValues m1 m3 := fun x => (h23 x).trans (h12 x)

theorem sameValues_setCell (m : Heap) (t : Nat) (e : list_ele_t) (n : Ptr) (h : m t = some e) :
    SameValues m (setCell m t (some (list_ele_t.mk e.value n))) := by
  intro x
  by_cases hx : x = t
  · subst hx; simp [setCell, h]
  · simp [setCell, hx]

theorem sameValues_valueAt (m m' : Heap) (h : SameValues m m') : valueAt m' = valueAt m := by
  funext x
  have hx := h x
  unfold valueAt
  cases h1 : m' x <;> cases h2 : m x <;> simp [h1, h2] at hx ⊢
  exact hx

theorem sameValues_live (m m' : Heap) (h : SameValues m m') (x : Nat) (e : list_ele_t)
    (hx : m x = some e) : ∃ e', m' x = some e' ∧ e'.value = e.value := by
  have h1 := h x
  rw [hx] at h1
  cases h2 : m' x with
  | none => simp [h2] at h1
  | some e' =>
    simp [h2] at h1
    exact ⟨e', rfl, h1⟩

theorem setNext_live (m : Heap) (t : Nat) (e : list_ele_t) (n : Ptr) (h : m t = some e) :
    setNext m t n = some (setCell m t (some (list_ele_t.mk e.value n))) := by
  simp [setNext, h]

theorem getNext_live (m : Heap) (a : Nat) (e : list_ele_t) (h : m a = some e) :
    getNext m a = some e.next := by
  simp [getNext, h]

theorem merge_loop2_left (r1 : List Nat) :
    ∀ (fuel : Nat) (m : Heap) (p1 : Ptr) (t : Nat) (et : list_ele_t),
      Chain m p1 r1 → r1 ≠ [] → m t = some et → t ∉ r1 → r1.length < fuel →
      merge_loop2 fuel m p1 none (some t) =
        some (setCell m t (some (list_ele_t.mk et.value p1))) := by
  induction r1 with
  | nil => intro fuel m p1 t et _ hne; exact absurd rfl hne
  | cons a r ih =>
    intro fuel m p1 t et hc _ ht htn hf
    have hnot := chain_head_notin m p1 a r hc
    rw [chain_cons] at hc
    obtain ⟨hp, ea, hea, hcr⟩ := hc
    subst hp
    have hta : t ≠ a := fun h => htn (h ▸ List.mem_cons_self a r)
    have htr : t ∉ r := fun h => htn (List.mem_cons_of_mem a h)
    cases fuel with
    | zero => simp at hf
    | succ k =>
      have hm1a : setCell m t (some (list_ele_t.mk et.value (some a))) a = some ea := by
        rw [setCell_other _ _ _ _ (Ne.symm hta)]; exact hea
      have hstep : merge_loop2 (k + 1) m (some a) none (some t) =
          merge_loop2 k (setCell m t (some (list_ele_t.mk et.value (some a)))) ea.next none
            (some a) := by
        simp only [merge_loop2, setNext_live m t et (some a) ht,
          getNext_live _ a ea hm1a, getNext_live _ t _ (setCell_same m t _)]
      rw [hstep]
      have hcr1 : Chain (setCell m t (some (list_ele_t.mk et.value (some a)))) ea.next r :=
        chain_congr m _ ea.next r hcr (fun x hx =>
          setCell_other m t x _ (fun h => htr (h ▸ hx)))
      cases r with
      | nil =>
        rw [chain_nil] at hcr
        rw [hcr]
        cases k with
        | zero => simp at hf
        | succ j => simp [merge_loop2]
      | cons b r2 =>
        have hk : (b :: r2).length < k := by simp at hf ⊢; omega
        rw [ih k _ ea.next a ea hcr1 (by simp) hm1a hnot hk]
        rw [setCell_id _ a _ hm1a]

theorem merge_loop2_right (r2 : List Nat) :
    ∀ (fuel : Nat) (m : Heap) (p2 : Ptr) (t : Nat) (et : list_ele_t),
      Chain m p2 r2 → r2 ≠ [] → m t = some et → t ∉ r2 → r2.length < fuel →
      merge_loop2 fuel m none p2 (some t) =
        some (setCell m t (some (list_ele_t.mk et.value p2))) := by
  induction r2 with
  | nil => intro fuel m p2 t et _ hne; exact absurd rfl hne
  | cons a r ih =>
    intro fuel m p2 t et hc _ ht htn hf
    have hnot := chain_head_notin m p2 a r hc
    rw [chain_cons] at hc
    obtain ⟨hp, ea, hea, hcr⟩ := hc
    subst hp
    have hta : t ≠ a := fun h => htn (h ▸ List.mem_cons_self a r)
    have htr : t ∉ r := fun h => htn (List.mem_cons_of_mem a h)
    cases fuel with
    | zero => simp at hf
    | succ k =>
      have hm1a : setCell m t (some (list_ele_t.mk et.value (some a))) a = some ea := by
        rw [setCell_other _ _ _ _ (Ne.symm hta)]; exact hea
      have hstep : merge_loop2 (k + 1) m none (some a) (some t) =
          merge_loop2 k (setCell m t (some (list_ele_t.mk et.value (some a)))) none ea.next
            (some a) := by
        simp only [merge_loop2, setNext_live m t et (some a) ht,
          getNext_live _ a ea hm1a, getNext_live _ t _ (setCell_same m t _)]
      rw [hstep]
      have hcr1 : Chain (setCell m t (some (list_ele_t.mk et.value (some a)))) ea.next r :=
        chain_congr m _ ea.next r hcr (fun x hx =>
          setCell_other m t x _ (fun h => htr (h ▸ hx)))
      cases r with
      | nil =>
        rw [chain_nil] at hcr
        rw [hcr]
        cases k with
        | zero => simp at hf
        | succ j => simp [merge_loop2]
      | cons b r2 =>
        have hk : (b :: r2).length < k := by simp at hf ⊢; omega
        rw [ih k _ ea.next a ea hcr1 (by simp) hm1a hnot hk]
        rw [setCell_id _ a _ hm1a]

end LabQueue

namespace LabQueue

theorem mergeL_nil_left (v : Nat → List Nat) (l : List Nat) : mergeL v [] l = l := by
  simp [mergeL]

theorem mergeL_nil_right (v : Nat → List Nat) (l : List Nat) : mergeL v l [] = l := by
  cases l <;> simp [mergeL]

theorem mergeL_cons_lt (v : Nat → List Nat) (a b : Nat) (r1 r2 : List Nat)
    (h : strcmp (v a) (v b) < 0) :
    mergeL v (a :: r1) (b :: r2) = a :: mergeL v r1 (b :: r2) := by
  rw [mergeL]; simp [h]

theorem mergeL_cons_ge (v : Nat → List Nat) (a b : Nat) (r1 r2 : List Nat)
    (h : ¬ strcmp (v a) (v b) < 0) :
    mergeL v (a :: r1) (b :: r2) = b :: mergeL v (a :: r1) r2 := by
  rw [mergeL]; simp [h]

theorem valueAt_live (m : Heap) (a : Nat) (e : list_ele_t) (h : m a = some e) :
    valueAt m a = e.value := by
  simp [valueAt, h]

/-- Both loops of `merge`, entered with `tmp` at a live element `t` outside the
two chains: they run to the end and leave the merged chain hanging from `t`. -/
theorem merge_loops (n : Nat) :
    ∀ (r1 r2 : List Nat) (fuel1 fuel2 : Nat) (m : Heap) (p1 p2 : Ptr) (t : Nat)
      (et : list_ele_t) (hd : Ptr),
      r1.length + r2.length = n →
      Chain m p1 r1 → Chain m p2 r2 → (∀ a ∈ r1, a ∉ r2) →
      m t = some et → t ∉ r1 → t ∉ r2 → (r1 ≠ [] ∨ r2 ≠ []) →
      n < fuel1 → n < fuel2 →
      ∃ m1 k1 k2 tmp m2,
        merge_loop1 fuel1 m p1 p2 (some t) hd = some (m1, k1, k2, tmp, hd) ∧
        merge_loop2 fuel2 m1 k1 k2 tmp = some m2 ∧
        Chain m2 (some t) (t :: mergeL (valueAt m) r1 r2) ∧
        SameValues m m2 ∧
        (∀ x, x ≠ t → x ∉ r1 → x ∉ r2 → m2 x = m x) := by
  induction n with
  | zero =>
    intro r1 r2 fuel1 fuel2 m p1 p2 t et hd hn _ _ _ _ _ _ hne
    have h1 : r1 = [] := List.length_eq_zero.mp (by omega)
    have h2 : r2 = [] := List.length_eq_zero.mp (by omega)
    rcases hne with h | h
    · exact absurd h1 h
    · exact absurd h2 h
  | succ n ih =>
    intro r1 r2 fuel1 fuel2 m p1 p2 t et hd hn hc1 hc2 hdisj ht ht1 ht2 _ hf1 hf2
    cases fuel1 with
    | zero => omega
    | succ k =>
    cases r1 with
    | nil =>
      rw [chain_nil] at hc1
      subst hc1
      cases r2 with
      | nil => simp at hn
      | cons b r2 =>
        have hl : (b :: r2).length < fuel2 := by simp at hn ⊢; omega
        refine ⟨m, none, p2, some t, _, ?_, merge_loop2_right (b :: r2) fuel2 m p2 t et hc2
          (by simp) ht ht2 hl, ?_, sameValues_setCell m t et p2 ht, ?_⟩
        · simp [merge_loop1]
        · rw [mergeL_nil_left, chain_cons]
          refine ⟨rfl, _, setCell_same m t _, ?_⟩
          exact chain_congr m _ p2 (b :: r2) hc2 (fun x hx =>
            setCell_other m t x _ (fun h => ht2 (h ▸ hx)))
        · intro x hx _ _
          exact setCell_other m t x _ hx
    | cons a r1 =>
      cases r2 with
      | nil =>
        rw [chain_nil] at hc2
        subst hc2
        have hl : (a :: r1).length < fuel2 := by simp at hn ⊢; omega
        refine ⟨m, p1, none, some t, _, ?_, merge_loop2_left (a :: r1) fuel2 m p1 t et hc1
          (by simp) ht ht1 hl, ?_, sameValues_setCell m t et p1 ht, ?_⟩
        · have hp := hc1
          rw [chain_cons] at hp
          rw [hp.1]
          simp [merge_loop1]
        · rw [mergeL_nil_right, chain_cons]
          refine ⟨rfl, _, setCell_same m t _, ?_⟩
          exact chain_congr m _ p1 (a :: r1) hc1 (fun x hx =>
            setCell_other m t x _ (fun h => ht1 (h ▸ hx)))
        · intro x hx _ _
          exact setCell_other m t x _ hx
      | cons b r2 =>
        have hna := chain_head_notin m p1 a r1 hc1
        have hnb := chain_head_notin m p2 b r2 hc2
        have hc1' := hc1
        have hc2' := hc2
        rw [chain_cons] at hc1 hc2
        obtain ⟨hp1, ea, hea, hcr1⟩ := hc1
        obtain ⟨hp2, eb, heb, hcr2⟩ := hc2
        subst hp1
        subst hp2
        have hta : t ≠ a := fun h => ht1 (h ▸ List.mem_cons_self a r1)
        have htb : t ≠ b := fun h => ht2 (h ▸ List.mem_cons_self b r2)
        have hab : a ≠ b := fun h =>
          hdisj a (List.mem_cons_self a r1) (h ▸ List.mem_cons_self b r2)
        by_cases hlt : strcmp ea.value eb.value < 0
        · -- the head of the first list is linked after `t`
          have hm1a : setCell m t (some (list_ele_t.mk et.value (some a))) a = some ea := by
            rw [setCell_other _ _ _ _ (Ne.symm hta)]; exact hea
          have hstep : merge_loop1 (k + 1) m (some a) (some b) (some t) hd =
              merge_loop1 k (setCell m t (some (list_ele_t.mk et.value (some a)))) ea.next
                (some b) (some a) hd := by
            simp only [merge_loop1, hea, heb, hlt, if_true, setNext_live m t et (some a) ht,
              getNext_live _ a ea hm1a, getNext_live _ t _ (setCell_same m t _)]
          have hframe : ∀ x, x ≠ t →
              setCell m t (some (list_ele_t.mk et.value (some a))) x = m x :=
            fun x hx => setCell_other m t x _ hx
          have hsv := sameValues_setCell m t et (some a) ht
          obtain ⟨m1, k1, k2, tmp, m2, hl1, hl2, hch, hsame, hfr⟩ :=
            ih r1 (b :: r2) k fuel2 _ ea.next (some b) a ea hd
              (by simp at hn ⊢; omega)
              (chain_congr m _ _ _ hcr1 (fun x hx =>
                hframe x (fun h => ht1 (h ▸ List.mem_cons_of_mem a hx))))
              (chain_congr m _ _ _ hc2' (fun x hx => hframe x (fun h => ht2 (h ▸ hx))))
              (fun x hx => hdisj x (List.mem_cons_of_mem a hx))
              hm1a hna (hdisj a (List.mem_cons_self a r1)) (Or.inr (by simp))
              (by omega) (by omega)
          refine ⟨m1, k1, k2, tmp, m2, hstep ▸ hl1, hl2, ?_,
            sameValues_trans _ _ _ hsv hsame, ?_⟩
          · rw [sameValues_valueAt _ _ hsv] at hch
            rw [mergeL_cons_lt _ a b r1 r2
              (by rw [valueAt_live m a ea hea, valueAt_live m b eb heb]; exact hlt)]
            rw [chain_cons]
            refine ⟨rfl, list_ele_t.mk et.value (some a), ?_, hch⟩
            rw [hfr t hta (fun h => ht1 (List.mem_cons_of_mem a h)) ht2]
            · exact setCell_same m t _
          · intro x hxt hx1 hx2
            rw [hfr x (fun h => hx1 (h ▸ List.mem_cons_self a r1))
              (fun h => hx1 (List.mem_cons_of_mem a h)) hx2]
            exact hframe x hxt
        · -- the head of the second list is linked after `t`
          have hm1b : setCell m t (some (list_ele_t.mk et.value (some b))) b = some eb := by
            rw [setCell_other _ _ _ _ (Ne.symm htb)]; exact heb
          have hstep : merge_loop1 (k + 1) m (some a) (some b) (some t) hd =
              merge_loop1 k (setCell m t (some (list_ele_t.mk et.value (some b)))) (some a)
                eb.next (some b) hd := by
            simp only [merge_loop1, hea, heb, hlt, if_false, setNext_live m t et (some b) ht,
              getNext_live _ b eb hm1b, getNext_live _ t _ (setCell_same m t _)]
          have hframe : ∀ x, x ≠ t →
              setCell m t (some (list_ele_t.mk et.value (some b))) x = m x :=
            fun x hx => setCell_other m t x _ hx
          have hsv := sameValues_setCell m t et (some b) ht
          obtain ⟨m1, k1, k2, tmp, m2, hl1, hl2, hch, hsame, hfr⟩ :=
            ih (a :: r1) r2 k fuel2 _ (some a) eb.next b eb hd
              (by simp at hn ⊢; omega)
              (chain_congr m _ _ _ hc1' (fun x hx => hframe x (fun h => ht1 (h ▸ hx))))
              (chain_congr m _ _ _ hcr2 (fun x hx =>
                hframe x (fun h => ht2 (h ▸ List.mem_cons_of_mem b hx))))
              (fun x hx hx2 => hdisj x hx (List.mem_cons_of_mem b hx2))
              hm1b (fun h => hdisj b h (List.mem_cons_self b r2)) hnb (Or.inl (by simp))
              (by omega) (by omega)
          refine ⟨m1, k1, k2, tmp, m2, hstep ▸ hl1, hl2, ?_,
            sameValues_trans _ _ _ hsv hsame, ?_⟩
          · rw [sameValues_valueAt _ _ hsv] at hch
            rw [mergeL_cons_ge _ a b r1 r2
              (by rw [valueAt_live m a ea hea, valueAt_live m b eb heb]; exact hlt)]
            rw [chain_cons]
            refine ⟨rfl, list_ele_t.mk et.value (some b), ?_, hch⟩
            rw [hfr t htb ht1 (fun h => ht2 (List.mem_cons_of_mem b h))]
            · exact setCell_same m t _
          · intro x hxt hx1 hx2
            rw [hfr x (fun h => hx2 (h ▸ List.mem_cons_self b r2)) hx1
              (fun h => hx2 (List.mem_cons_of_mem b h))]
            exact hframe x hxt

/-- The function `merge` on two disjoint chains: it returns, the chain it
returns is the list-level merge, no string changes, and no cell outside the
two chains changes. -/
theorem merge_spec (m : Heap) (p1 p2 : Ptr) (r1 r2 : List Nat) (fuel : Nat)
    (hc1 : Chain m p1 r1) (hc2 : Chain m p2 r2) (hdisj : ∀ a ∈ r1, a ∉ r2)
    (hf : r1.length + r2.length < fuel) :
    ∃ m' p', merge fuel m p1 p2 = some (m', p') ∧
      Chain m' p' (mergeL (valueAt m) r1 r2) ∧ SameValues m m' ∧
      (∀ x, x ∉ r1 → x ∉ r2 → m' x = m x) := by
  cases r1 with
  | nil =>
    rw [chain_nil] at hc1
    subst hc1
    exact ⟨m, p2, by simp [merge], by rw [mergeL_nil_left]; exact hc2, sameValues_refl m,
      fun _ _ _ => rfl⟩
  | cons a r1 =>
    cases r2 with
    | nil =>
      rw [chain_nil] at hc2
      subst hc2
      have hp := hc1
      rw [chain_cons] at hp
      refine ⟨m, p1, ?_, by rw [mergeL_nil_right]; exact hc1, sameValues_refl m,
        fun _ _ _ => rfl⟩
      rw [hp.1]
      simp [merge]
    | cons b r2 =>
      have hna := chain_head_notin m p1 a r1 hc1
      have hnb := chain_head_notin m p2 b r2 hc2
      have hc1' := hc1
      have hc2' := hc2
      rw [chain_cons] at hc1 hc2
      obtain ⟨hp1, ea, hea, hcr1⟩ := hc1
      obtain ⟨hp2, eb, heb, hcr2⟩ := hc2
      subst hp1
      subst hp2
      cases fuel with
      | zero => omega
      | succ k =>
      by_cases hlt : strcmp ea.value eb.value < 0
      · have hstep : merge_loop1 (k + 1) m (some a) (some b) none none =
            merge_loop1 k m ea.next (some b) (some a) (some a) := by
          simp only [merge_loop1, hea, heb, hlt, if_true]
        obtain ⟨m1, k1, k2, tmp, m2, hl1, hl2, hch, hsame, hfr⟩ :=
          merge_loops (r1.length + (b :: r2).length) r1 (b :: r2) k (k + 1) m ea.next (some b)
            a ea (some a) rfl hcr1 hc2'
            (fun x hx => hdisj x (List.mem_cons_of_mem a hx))
            hea hna (hdisj a (List.mem_cons_self a r1)) (Or.inr (by simp))
            (by simp at hf ⊢; omega) (by simp at hf ⊢; omega)
        refine ⟨m2, some a, ?_, ?_, hsame, ?_⟩
        · simp only [merge, hstep, hl1, hl2]
        · rw [mergeL_cons_lt _ a b r1 r2
            (by rw [valueAt_live m a ea hea, valueAt_live m b eb heb]; exact hlt)]
          exact hch
        · intro x hx1 hx2
          exact hfr x (fun h => hx1 (h ▸ List.mem_cons_self a r1))
            (fun h => hx1 (List.mem_cons_of_mem a h)) hx2
      · have hstep : merge_loop1 (k + 1) m (some a) (some b) none none =
            merge_loop1 k m (some a) eb.next (some b) (some b) := by
          simp only [merge_loop1, hea, heb, hlt, if_false]
        obtain ⟨m1, k1, k2, tmp, m2, hl1, hl2, hch, hsame, hfr⟩ :=
          merge_loops ((a :: r1).length + r2.length) (a :: r1) r2 k (k + 1) m (some a) eb.next
            b eb (some b) rfl hc1' hcr2
            (fun x hx hx2 => hdisj x hx (List.mem_cons_of_mem b hx2))
            heb (fun h => hdisj b h (List.mem_cons_self b r2)) hnb (Or.inl (by simp))
            (by simp at hf ⊢; omega) (by simp at hf ⊢; omega)
        refine ⟨m2, some b, ?_, ?_, hsame, ?_⟩
        · simp only [merge, hstep, hl1, hl2]
        · rw [mergeL_cons_ge _ a b r1 r2
            (by rw [valueAt_live m a ea hea, valueAt_live m b eb heb]; exact hlt)]
          exact hch
        · intro x hx1 hx2
          exact hfr x (fun h => hx2 (h ▸ List.mem_cons_self b r2)) hx1
            (fun h => hx2 (List.mem_cons_of_mem b h))

end LabQueue

namespace LabQueue

/-! ## The list-level sort -/

theorem msortL_short (v : Nat → List Nat) (l : List Nat) (h : l.length < 2) :
    msortL v l = l := by
  rw [msortL]; simp [h]

theorem msortL_long (v : Nat → List Nat) (l : List Nat) (h : 2 ≤ l.length) :
    msortL v l = mergeL v (msortL v (l.take ((l.length + 1) / 2)))
      (msortL v (l.drop ((l.length + 1) / 2))) := by
  rw [msortL]
  have h2 : ¬ l.length < 2 := by omega
  simp [h2]

theorem mergeL_perm (v : Nat → List Nat) (n : Nat) :
    ∀ l1 l2 : List Nat, l1.length + l2.length = n → (mergeL v l1 l2).Perm (l1 ++ l2) := by
  induction n with
  | zero =>
    intro l1 l2 h
    have h1 : l1 = [] := List.length_eq_zero.mp (by omega)
    subst h1
    rw [mergeL_nil_left]
    exact List.Perm.refl _
  | succ n ih =>
    intro l1 l2 h
    cases l1 with
    | nil => rw [mergeL_nil_left]; exact List.Perm.refl _
    | cons a r1 =>
      cases l2 with
      | nil => rw [mergeL_nil_right]; simp
      | cons b r2 =>
        by_cases hlt : strcmp (v a) (v b) < 0
        · rw [mergeL_cons_lt v a b r1 r2 hlt]
          exact List.Perm.cons a (ih r1 (b :: r2) (by simp at h ⊢; omega))
        · rw [mergeL_cons_ge v a b r1 r2 hlt]
          have h1 := ih (a :: r1) r2 (by simp at h ⊢; omega)
          exact (List.Perm.cons b h1).trans (List.perm_middle.symm)

theorem msortL_perm (v : Nat → List Nat) (n : Nat) :
    ∀ l : List Nat, l.length ≤ n → (msortL v l).Perm l := by
  induction n with
  | zero =>
    intro l h
    rw [msortL_short v l (by omega)]
  | succ n ih =>
    intro l h
    by_cases hs : l.length < 2
    · rw [msortL_short v l hs]
    · rw [msortL_long v l (by omega)]
      have h1 := ih (l.take ((l.length + 1) / 2)) (by rw [List.length_take]; omega)
      have h2 := ih (l.drop ((l.length + 1) / 2)) (by rw [List.length_drop]; omega)
      refine (mergeL_perm v _ _ _ rfl).trans ?_
      refine (List.Perm.append h1 h2).trans ?_
      rw [List.take_append_drop]

theorem msortL_perm_self (v : Nat → List Nat) (l : List Nat) : (msortL v l).Perm l :=
  msortL_perm v l.length l (le_refl _)

end LabQueue

namespace LabQueue

/-! ## The slow/fast walk and `mergeSortList` -/

theorem split_loop_spec (fuel : Nat) :
    ∀ (m : Heap) (fast slow : Ptr) (sl fl : List Nat),
      Chain m slow sl → Chain m fast fl → fl.length / 2 < sl.length → fl.length / 2 < fuel →
      split_loop fuel m fast slow = some sl[fl.length / 2]? := by
  induction fuel with
  | zero => intro m fast slow sl fl _ _ _ hf; omega
  | succ k ih =>
    intro m fast slow sl fl hs hfc hlen hf
    cases sl with
    | nil => simp at hlen
    | cons s sl =>
      have hs' := hs
      rw [chain_cons] at hs
      obtain ⟨hps, es, hes, hsr⟩ := hs
      subst hps
      cases fl with
      | nil =>
        rw [chain_nil] at hfc
        subst hfc
        simp [split_loop]
      | cons f fl =>
        rw [chain_cons] at hfc
        obtain ⟨hpf, ef, hef, hfr⟩ := hfc
        subst hpf
        cases fl with
        | nil =>
          rw [chain_nil] at hfr
          simp [split_loop, getNext, hef, hfr]
        | cons f1 fl =>
          rw [chain_cons] at hfr
          obtain ⟨hpf1, ef1, hef1, hfr1⟩ := hfr
          have hidx : (f :: f1 :: fl).length / 2 = fl.length / 2 + 1 := by
            simp only [List.length_cons]; omega
          rw [hidx] at hlen hf ⊢
          have hrec := ih m ef1.next es.next sl fl hsr hfr1
            (by simp only [List.length_cons] at hlen; omega) (by omega)
          simp only [split_loop, getNext, hef, hpf1, hes, hef1, hrec]
          simp

theorem chain_cut (m : Heap) (l1 : List Nat) :
    ∀ (p : Ptr) (l2 : List Nat) (s : Nat) (es : list_ele_t),
      Chain m p (l1 ++ s :: l2) → m s = some es →
      Chain (setCell m s (some (list_ele_t.mk es.value none))) p (l1 ++ [s]) := by
  induction l1 with
  | nil =>
    intro p l2 s es h hes
    rw [List.nil_append, chain_cons] at h ⊢
    exact ⟨h.1, _, setCell_same m s _, by simp [Chain]⟩
  | cons a r ih =>
    intro p l2 s es h hes
    have hn := chain_head_notin m p a (r ++ s :: l2) h
    rw [List.cons_append, chain_cons] at h ⊢
    obtain ⟨hp, ea, hea, hc⟩ := h
    have has : a ≠ s := fun h => hn (h ▸ by simp)
    refine ⟨hp, ea, ?_, ih ea.next l2 s es hc hes⟩
    rw [setCell_other m s a _ has]
    exact hea

theorem mergeSortList_spec (n : Nat) :
    ∀ (l : List Nat) (fuel : Nat) (m : Heap) (p : Ptr),
      l.length ≤ n → Chain m p l → l.length + 2 ≤ fuel →
      ∃ m' p', mergeSortList fuel m p = some (m', p') ∧
        Chain m' p' (msortL (valueAt m) l) ∧ SameValues m m' ∧
        (∀ x, x ∉ l → m' x = m x) := by
  induction n with
  | zero =>
    intro l fuel m p hl hc hf
    have h0 : l = [] := List.length_eq_zero.mp (by omega)
    subst h0
    rw [chain_nil] at hc
    subst hc
    cases fuel with
    | zero => omega
    | succ k =>
      exact ⟨m, none, by simp [mergeSortList], by rw [msortL_short _ _ (by simp)]; simp [Chain],
        sameValues_refl m, fun _ _ => rfl⟩
  | succ n ih =>
    intro l fuel m p hl hc hf
    cases fuel with
    | zero => omega
    | succ k =>
    cases l with
    | nil =>
      rw [chain_nil] at hc
      subst hc
      exact ⟨m, none, by simp [mergeSortList], by rw [msortL_short _ _ (by simp)]; simp [Chain],
        sameValues_refl m, fun _ _ => rfl⟩
    | cons a r =>
      have hnd := chain_nodup m p _ hc
      have hc' := hc
      rw [chain_cons] at hc
      obtain ⟨hp, ea, hea, hcr⟩ := hc
      subst hp
      cases r with
      | nil =>
        rw [chain_nil] at hcr
        refine ⟨m, some a, by simp [mergeSortList, getNext, hea, hcr], ?_, sameValues_refl m,
          fun _ _ => rfl⟩
        rw [msortL_short _ _ (by simp)]
        exact hc'
      | cons b r =>
        have hcr' := hcr
        rw [chain_cons] at hcr
        obtain ⟨hpb, eb, heb, hcb⟩ := hcr
        -- the cut point
        have hlen2 : 2 ≤ (a :: b :: r).length := by simp
        have hsplit := split_loop_spec k m (some b) (some a) (a :: b :: r) (b :: r) hc'
          (hpb ▸ hcr') (by simp only [List.length_cons]; omega)
          (by simp only [List.length_cons] at hf ⊢; omega)
        generalize hL : a :: b :: r = L at hc' hnd hlen2 hsplit hl hf
        have hbl : (b :: r).length = L.length - 1 := by rw [← hL]; simp
        rw [hbl] at hsplit
        have hhalf : (L.length - 1) / 2 + 1 = (L.length + 1) / 2 := by omega
        have hi : (L.length - 1) / 2 < L.length := by omega
        obtain ⟨s, hs⟩ : ∃ s, L[(L.length - 1) / 2]? = some s :=
          ⟨L[(L.length - 1) / 2], List.getElem?_eq_getElem hi⟩
        rw [hs] at hsplit
        -- the two halves
        have htake : L.take ((L.length + 1) / 2) = L.take ((L.length - 1) / 2) ++ [s] := by
          rw [← hhalf, List.take_succ, hs]
          rfl
        have hdecomp : L = L.take ((L.length - 1) / 2) ++ s :: L.drop ((L.length + 1) / 2) := by
          have h1 := (List.take_append_drop ((L.length + 1) / 2) L).symm
          rw [htake] at h1
          simpa using h1
        have hsmem : s ∈ L := List.getElem?_mem hs
        obtain ⟨es, hes⟩ := chain_live m (some a) L hc' s hsmem
        have hc1 : Chain (setCell m s (some (list_ele_t.mk es.value none))) (some a)
            (L.take ((L.length + 1) / 2)) := by
          rw [htake]
          refine chain_cut m _ (some a) (L.drop ((L.length + 1) / 2)) s es ?_ hes
          rw [← hdecomp]
          exact hc'
        have hnd2 : (L.take ((L.length + 1) / 2) ++ L.drop ((L.length + 1) / 2)).Nodup := by
          rw [List.take_append_drop]; exact hnd
        have hdisj : ∀ x ∈ L.take ((L.length + 1) / 2), x ∉ L.drop ((L.length + 1) / 2) :=
          fun x hx hx2 => (List.nodup_append.mp hnd2).2.2 hx hx2
        have hstake : s ∈ L.take ((L.length + 1) / 2) := by rw [htake]; simp
        obtain ⟨fast, hcfast, _, hlast⟩ := chain_append m (some a)
          (L.take ((L.length + 1) / 2)) (L.drop ((L.length + 1) / 2))
          (by rw [List.take_append_drop]; exact hc')
        have hgs : getNext m s = some fast := hlast s (by rw [htake]; simp)
        have hc2 : Chain (setCell m s (some (list_ele_t.mk es.value none))) fast
            (L.drop ((L.length + 1) / 2)) :=
          chain_congr m _ fast _ hcfast (fun x hx =>
            setCell_other m s x _ (fun h => hdisj s hstake (h ▸ hx)))
        have hsv1 := sameValues_setCell m s es none hes
        -- the two recursive calls
        have hlt1 : (L.take ((L.length + 1) / 2)).length ≤ n := by
          rw [List.length_take]; omega
        have hlt2 : (L.drop ((L.length + 1) / 2)).length ≤ n := by
          rw [List.length_drop]; omega
        obtain ⟨m2, q1, hr1, hch1, hsv2, hfr2⟩ := ih _ k _ (some a) hlt1 hc1
          (by rw [List.length_take]; omega)
        have hc2' : Chain m2 fast (L.drop ((L.length + 1) / 2)) :=
          chain_congr _ m2 fast _ hc2 (fun x hx => hfr2 x (fun h => hdisj x h hx))
        obtain ⟨m3, q2, hr2, hch2, hsv3, hfr3⟩ := ih _ k m2 fast hlt2 hc2'
          (by rw [List.length_drop]; omega)
        have hv1 := sameValues_valueAt _ _ hsv1
        have hv2 := sameValues_valueAt _ _ hsv2
        have hv3 := sameValues_valueAt _ _ hsv3
        rw [hv1] at hch1
        rw [hv2, hv1] at hch2
        have hp1 := msortL_perm_self (valueAt m) (L.take ((L.length + 1) / 2))
        have hp2 := msortL_perm_self (valueAt m) (L.drop ((L.length + 1) / 2))
        have hch1' : Chain m3 q1 (msortL (valueAt m) (L.take ((L.length + 1) / 2))) :=
          chain_congr m2 m3 q1 _ hch1 (fun x hx =>
            hfr3 x (hdisj x (hp1.subset hx)))
        have hdisj' : ∀ x ∈ msortL (valueAt m) (L.take ((L.length + 1) / 2)),
            x ∉ msortL (valueAt m) (L.drop ((L.length + 1) / 2)) :=
          fun x hx hx2 => hdisj x (hp1.subset hx) (hp2.subset hx2)
        obtain ⟨m4, q, hmg, hch, hsv4, hfr4⟩ := merge_spec m3 q1 q2 _ _ k hch1' hch2 hdisj'
          (by rw [hp1.length_eq, hp2.length_eq, List.length_take, List.length_drop]; omega)
        refine ⟨m4, q, ?_, ?_, ?_, ?_⟩
        · have hga : getNext m a = some (some b) := by simp [getNext, hea, hpb]
          have hsn : setNext m s none = some (setCell m s (some (list_ele_t.mk es.value none))) :=
            setNext_live m s es none hes
          simp only [mergeSortList, hga, hsplit, hgs, hsn, hr1, hr2, hmg]
        · rw [hv3, hv2, hv1] at hch
          rw [msortL_long _ _ hlen2]
          exact hch
        · exact sameValues_trans _ _ _ hsv1 (sameValues_trans _ _ _ hsv2
            (sameValues_trans _ _ _ hsv3 hsv4))
        · intro x hx
          have hx1 : x ∉ L.take ((L.length + 1) / 2) := fun h => hx (List.mem_of_mem_take h)
          have hx2 : x ∉ L.drop ((L.length + 1) / 2) := fun h => hx (List.mem_of_mem_drop h)
          rw [hfr4 x (fun h => hx1 (hp1.subset h)) (fun h => hx2 (hp2.subset h)),
            hfr3 x hx2, hfr2 x hx1]
          exact setCell_other m s x _ (fun h => hx (h ▸ hsmem))

end LabQueue

namespace LabQueue

/-! ## The order of `strcmp` -/

theorem strcmp_swap (x : List Nat) : ∀ y : List Nat, strcmp y x = - strcmp x y := by
  induction x with
  | nil =>
    intro y
    cases y with
    | nil => simp [strcmp]
    | cons b t => simp [strcmp]
  | cons a s ih =>
    intro y
    cases y with
    | nil => simp [strcmp]
    | cons b t =>
      by_cases hab : a = b
      · subst hab
        by_cases h0 : a = 0
        · simp [strcmp, h0]
        · simp [strcmp, h0, ih t]
      · have hba : ¬ b = a := fun h => hab h.symm
        simp [strcmp, hab, hba]

theorem strLe_total (x y : List Nat) (h : ¬ strcmp x y < 0) : StrLe y x := by
  unfold StrLe
  rw [strcmp_swap x y]
  omega

theorem strLe_nil (z : List Nat) : strcmp [] z ≤ 0 := by
  cases z with
  | nil => simp [strcmp]
  | cons c u => simp [strcmp]

theorem strLe_zero_cons (s z : List Nat) : strcmp (0 :: s) z ≤ 0 := by
  cases z with
  | nil => simp [strcmp]
  | cons c u =>
    by_cases hc : c = 0
    · simp [strcmp, hc]
    · have h0 : ¬ (0 = c) := fun h => hc h.symm
      simp [strcmp, h0]

theorem strLe_trans (x : List Nat) :
    ∀ y z : List Nat, StrLe x y → StrLe y z → StrLe x z := by
  unfold StrLe
  induction x with
  | nil => intro y z _ _; exact strLe_nil z
  | cons a s ih =>
    intro y z hxy hyz
    cases y with
    | nil =>
      have ha : a = 0 := by
        simp only [strcmp] at hxy
        omega
      subst ha
      exact strLe_zero_cons s z
    | cons b t =>
      cases z with
      | nil =>
        have hb : b = 0 := by
          simp only [strcmp] at hyz
          omega
        subst hb
        by_cases ha : a = 0
        · subst ha; simp [strcmp]
        · simp only [strcmp, ha, if_false] at hxy
          omega
      | cons c u =>
        by_cases hab : a = b
        · subst hab
          by_cases hac : a = c
          · subst hac
            by_cases h0 : a = 0
            · simp [strcmp, h0]
            · simp only [strcmp, if_true, h0, if_false] at hxy hyz ⊢
              exact ih t u hxy hyz
          · simp only [strcmp, hac, if_false] at hyz ⊢
            exact hyz
        · by_cases hbc : b = c
          · subst hbc
            simp only [strcmp, hab, if_false] at hxy ⊢
            exact hxy
          · simp only [strcmp, hab, hbc, if_false] at hxy hyz
            have hac : ¬ a = c := by omega
            simp only [strcmp, hac, if_false]
            omega

/-! ## The list-level sort is ordered -/

theorem mergeL_sorted (v : Nat → List Nat) (n : Nat) :
    ∀ l1 l2 : List Nat, l1.length + l2.length = n →
      l1.Pairwise (fun a b => StrLe (v a) (v b)) →
      l2.Pairwise (fun a b => StrLe (v a) (v b)) →
      (mergeL v l1 l2).Pairwise (fun a b => StrLe (v a) (v b)) := by
  induction n with
  | zero =>
    intro l1 l2 h _ h2
    have h1 : l1 = [] := List.length_eq_zero.mp (by omega)
    subst h1
    rw [mergeL_nil_left]
    exact h2
  | succ n ih =>
    intro l1 l2 h hs1 hs2
    cases l1 with
    | nil => rw [mergeL_nil_left]; exact hs2
    | cons a r1 =>
      cases l2 with
      | nil => rw [mergeL_nil_right]; exact hs1
      | cons b r2 =>
        have ha := List.pairwise_cons.mp hs1
        have hb := List.pairwise_cons.mp hs2
        by_cases hlt : strcmp (v a) (v b) < 0
        · rw [mergeL_cons_lt v a b r1 r2 hlt]
          refine List.pairwise_cons.mpr ⟨?_, ih r1 (b :: r2) (by simp at h ⊢; omega) ha.2 hs2⟩
          intro x hx
          have hx' := (mergeL_perm v _ r1 (b :: r2) rfl).subset hx
          rcases List.mem_append.mp hx' with h1 | h2
          · exact ha.1 x h1
          · have hab : StrLe (v a) (v b) := by unfold StrLe; omega
            rcases List.mem_cons.mp h2 with h3 | h3
            · rw [h3]; exact hab
            · exact strLe_trans _ _ _ hab (hb.1 x h3)
        · rw [mergeL_cons_ge v a b r1 r2 hlt]
          refine List.pairwise_cons.mpr ⟨?_, ih (a :: r1) r2 (by simp at h ⊢; omega) hs1 hb.2⟩
          intro x hx
          have hx' := (mergeL_perm v _ (a :: r1) r2 rfl).subset hx
          have hba : StrLe (v b) (v a) := strLe_total _ _ hlt
          rcases List.mem_append.mp hx' with h1 | h2
          · rcases List.mem_cons.mp h1 with h3 | h3
            · rw [h3]; exact hba
            · exact strLe_trans _ _ _ hba (ha.1 x h3)
          · exact hb.1 x h2

theorem msortL_sorted (v : Nat → List Nat) (n : Nat) :
    ∀ l : List Nat, l.length ≤ n → (msortL v l).Pairwise (fun a b => StrLe (v a) (v b)) := by
  induction n with
  | zero =>
    intro l h
    have h0 : l = [] := List.length_eq_zero.mp (by omega)
    subst h0
    rw [msortL_short v [] (by simp)]
    exact List.Pairwise.nil
  | succ n ih =>
    intro l h
    by_cases hs : l.length < 2
    · rw [msortL_short v l hs]
      cases l with
      | nil => exact List.Pairwise.nil
      | cons a r =>
        cases r with
        | nil => exact List.pairwise_singleton _ a
        | cons b r2 => simp only [List.length_cons] at hs; omega
    · rw [msortL_long v l (by omega)]
      exact mergeL_sorted v _ _ _ rfl
        (ih _ (by rw [List.length_take]; omega)) (ih _ (by rw [List.length_drop]; omega))

/-! ## The list-level sort reverses the order of equal strings -/

theorem mergeL_filter (v : Nat → List Nat) (k : List Nat) (n : Nat) :
    ∀ l1 l2 : List Nat, l1.length + l2.length = n →
      l2.Pairwise (fun a b => StrLe (v a) (v b)) →
      (mergeL v l1 l2).filter (fun a => decide (v a = k)) =
        l2.filter (fun a => decide (v a = k)) ++ l1.filter (fun a => decide (v a = k)) := by
  induction n with
  | zero =>
    intro l1 l2 h _
    have h1 : l1 = [] := List.length_eq_zero.mp (by omega)
    subst h1
    rw [mergeL_nil_left]
    simp
  | succ n ih =>
    intro l1 l2 h hs2
    cases l1 with
    | nil => rw [mergeL_nil_left]; simp
    | cons a r1 =>
      cases l2 with
      | nil => rw [mergeL_nil_right]; simp
      | cons b r2 =>
        have hb := List.pairwise_cons.mp hs2
        by_cases hlt : strcmp (v a) (v b) < 0
        · rw [mergeL_cons_lt v a b r1 r2 hlt, List.filter_cons,
            ih r1 (b :: r2) (by simp at h ⊢; omega) hs2]
          by_cases hak : v a = k
          · -- no element of the second list holds `k`: they all compare above `a`
            have hnone : (b :: r2).filter (fun x => decide (v x = k)) = [] := by
              rw [List.filter_eq_nil_iff]
              intro x hx
              have hbx : StrLe (v b) (v x) := by
                rcases List.mem_cons.mp hx with h3 | h3
                · rw [h3]; unfold StrLe
                  have := strcmp_swap (v b) (v b)
                  omega
                · exact hb.1 x h3
              intro hxk
              have hxk' : v x = k := by simpa using hxk
              have hxa : StrLe (v x) (v a) := by
                rw [hxk', ← hak]; unfold StrLe
                have := strcmp_swap (v a) (v a)
                omega
              have hba := strLe_trans _ _ _ hbx hxa
              unfold StrLe at hba
              rw [strcmp_swap (v a) (v b)] at hba
              omega
            rw [hnone]
            simp [hak]
          · simp [hak]
        · rw [mergeL_cons_ge v a b r1 r2 hlt, List.filter_cons,
            ih (a :: r1) r2 (by simp at h ⊢; omega) hb.2]
          by_cases hbk : v b = k
          · simp [hbk]
          · simp [hbk]

theorem msortL_filter (v : Nat → List Nat) (k : List Nat) (n : Nat) :
    ∀ l : List Nat, l.length ≤ n →
      (msortL v l).filter (fun a => decide (v a = k)) =
        (l.filter (fun a => decide (v a = k))).reverse := by
  induction n with
  | zero =>
    intro l h
    have h0 : l = [] := List.length_eq_zero.mp (by omega)
    subst h0
    rw [msortL_short v [] (by simp)]
    simp
  | succ n ih =>
    intro l h
    by_cases hs : l.length < 2
    · rw [msortL_short v l hs]
      cases l with
      | nil => simp
      | cons a r =>
        cases r with
        | nil => by_cases hak : v a = k <;> simp [List.filter_cons, hak]
        | cons b r2 => simp only [List.length_cons] at hs; omega
    · rw [msortL_long v l (by omega)]
      rw [mergeL_filter v k _ _ _ rfl (msortL_sorted v _ _ (le_refl _))]
      rw [ih (l.drop ((l.length + 1) / 2)) (by rw [List.length_drop]; omega),
        ih (l.take ((l.length + 1) / 2)) (by rw [List.length_take]; omega)]
      rw [← List.reverse_append, ← List.filter_append, List.take_append_drop]

end LabQueue

namespace LabQueue

/-! ## The copy into the caller's buffer -/

theorem stores_append (w1 w2 : List (Nat × Nat)) :
    ∀ buf : List Nat, stores buf (w1 ++ w2) =
      match stores buf w1 with
      | none => none
      | some b => stores b w2 := by
  induction w1 with
  | nil => intro buf; simp [stores]
  | cons w ws ih =>
    intro buf
    simp only [List.cons_append, stores]
    cases store buf w with
    | none => rfl
    | some b => exact ih b

theorem store_at (pre : List Nat) (x y : Nat) (post : List Nat) :
    store (pre ++ x :: post) (pre.length, y) = some (pre ++ y :: post) := by
  simp [store]

theorem stores_strncpy (src : List Nat) (n : Nat) :
    ∀ buf : List Nat, n ≤ buf.length →
      stores buf (strncpy_writes src n) =
        some ((List.range n).map (fun i => src.getD i 0) ++ buf.drop n) := by
  induction n with
  | zero => intro buf _; simp [strncpy_writes, stores]
  | succ n ih =>
    intro buf h
    have hw : strncpy_writes src (n + 1) = strncpy_writes src n ++ [(n, src.getD n 0)] := by
      simp [strncpy_writes, List.range_succ]
    rw [hw, stores_append, ih buf (by omega)]
    have hd : buf.drop n = buf[n] :: buf.drop (n + 1) := by
      rw [List.drop_eq_getElem_cons (by omega)]
    have hlen : ((List.range n).map (fun i => src.getD i 0)).length = n := by simp
    simp only [stores]
    rw [hd]
    have hst := store_at ((List.range n).map (fun i => src.getD i 0)) buf[n] (src.getD n 0)
      (buf.drop (n + 1))
    rw [hlen] at hst
    rw [hst]
    simp [List.range_succ]

theorem size_sub_one (c : Nat) (hc1 : 1 ≤ c) (hc2 : c < SIZE_MOD) : size_sub c 1 = c - 1 := by
  unfold size_sub
  have h0 : (0 : Int) ≤ (c : Int) - ((1 : Nat) : Int) := by omega
  have h1 : (c : Int) - ((1 : Nat) : Int) < (SIZE_MOD : Int) := by omega
  rw [Int.emod_eq_of_lt h0 h1]
  omega

theorem stores_last (pre buf : List Nat) (n : Nat) (hn : pre.length = n) (hb : n < buf.length) :
    stores (pre ++ buf.drop n) [(n, 0)] = some (pre ++ 0 :: buf.drop (n + 1)) := by
  have hd : buf.drop n = buf[n] :: buf.drop (n + 1) := by
    rw [List.drop_eq_getElem_cons hb]
  have hst := store_at pre buf[n] 0 (buf.drop (n + 1))
  rw [hn] at hst
  simp only [stores]
  rw [hd, hst]

/-- What `q_remove_head` leaves in a buffer of at least `c` bytes, `c ≥ 1`: the
first `c - 1` bytes of the string, NUL bytes where the string is shorter, a NUL
at index `c - 1`, and the bytes beyond index `c - 1` untouched. -/
theorem stores_remove (v buf : List Nat) (c : Nat) (hc1 : 1 ≤ c) (hc2 : c < SIZE_MOD)
    (hbuf : c ≤ buf.length) :
    stores buf (q_remove_head_writes v c) =
      some ((List.range (c - 1)).map (fun i => v.getD i 0) ++ 0 :: buf.drop c) := by
  have hmod : size_sub c 1 = c - 1 := size_sub_one c hc1 hc2
  have hw : q_remove_head_writes v c = strncpy_writes v (c - 1) ++ [(c - 1, 0)] := by
    unfold q_remove_head_writes
    rw [hmod]
  have hcc : c - 1 + 1 = c := by omega
  rw [hw, stores_append, stores_strncpy v (c - 1) buf (by omega)]
  have hl := stores_last ((List.range (c - 1)).map (fun i => v.getD i 0)) buf (c - 1)
    (by rw [List.length_map, List.length_range]) (by omega)
  rw [hcc] at hl
  exact hl

theorem range_map_getD (v : List Nat) (n : Nat) :
    (List.range n).map (fun i => v.getD i 0) = v.take n ++ List.replicate (n - v.length) 0 := by
  apply List.ext_getElem
  · simp; omega
  · intro i h1 h2
    simp only [List.length_map, List.length_range] at h1
    rw [List.getElem_map, List.getElem_range]
    by_cases hi : i < v.length
    · rw [List.getElem_append_left (by rw [List.length_take]; omega)]
      simp [List.getD_eq_getElem?_getD, List.getElem?_eq_getElem hi]
    · rw [List.getElem_append_right (by rw [List.length_take]; omega)]
      simp [List.getD_eq_getElem?_getD, List.getElem?_eq_none (Nat.le_of_not_lt hi)]

theorem cstring_append_zero (s rest : List Nat) (hs : IsCString s) :
    cstring (s ++ 0 :: rest) = s := by
  unfold cstring
  induction s with
  | nil => simp
  | cons a r ih =>
    have ha : a ≠ 0 := hs a (List.mem_cons_self a r)
    simp only [List.cons_append, List.takeWhile_cons]
    simp only [bne_iff_ne, ne_eq, ha, not_false_eq_true, if_true]
    rw [ih (fun b hb => hs b (List.mem_cons_of_mem a hb))]

/-- The C string left in the buffer is the stored string cut to `c - 1`
bytes. -/
theorem cstring_remove (v rest : List Nat) (c : Nat) (hv : IsCString v) :
    cstring ((List.range (c - 1)).map (fun i => v.getD i 0) ++ 0 :: rest) = v.take (c - 1) := by
  rw [range_map_getD]
  have ht : IsCString (v.take (c - 1)) := fun b hb => hv b (List.mem_of_mem_take hb)
  cases h : c - 1 - v.length with
  | zero =>
    simp only [List.replicate_zero, List.append_nil]
    exact cstring_append_zero _ _ ht
  | succ k =>
    rw [List.replicate_succ, List.append_assoc, List.cons_append]
    exact cstring_append_zero _ _ ht

/-! ## Single calls -/

/-- A call of `q_remove_head` on a queue whose head is live, with a buffer. -/
theorem q_remove_head_live (st : State) (q : queue_t) (a : Nat) (e : list_ele_t)
    (buf : List Nat) (c : Nat) (hq : st.q = some q) (hh : q.head = some a)
    (he : st.mem a = some e) (hc1 : 1 ≤ c) (hc2 : c < SIZE_MOD) (hbuf : c ≤ buf.length) :
    q_remove_head st (some buf) c =
      some (true, State.mk (some (queue_t.mk e.next q.tail (int_wrap (q.size - 1)))) (free st.mem a),
        some ((List.range (c - 1)).map (fun i => e.value.getD i 0) ++ 0 :: buf.drop c)) := by
  simp only [q_remove_head, hq, hh, he, stores_remove e.value buf c hc1 hc2 hbuf]

/-- A call of `q_remove_head` on a queue whose head is live, without a
buffer. -/
theorem q_remove_head_live_null (st : State) (q : queue_t) (a : Nat) (e : list_ele_t)
    (c : Nat) (hq : st.q = some q) (hh : q.head = some a) (he : st.mem a = some e) :
    q_remove_head st none c =
      some (true, State.mk (some (queue_t.mk e.next q.tail (int_wrap (q.size - 1)))) (free st.mem a),
        none) := by
  simp only [q_remove_head, hq, hh, he]

theorem malloc_some (m : Heap) (choice : Option Nat) (a : Nat) (h : malloc m choice = some a) :
    choice = some a ∧ m a = none := by
  unfold malloc at h
  cases choice with
  | none => simp at h
  | some b =>
    by_cases hb : (m b).isNone
    · simp only [hb, if_true] at h
      have hab : b = a := Option.some.inj h
      subst hab
      exact ⟨rfl, Option.isNone_iff_eq_none.mp hb⟩
    · simp [hb] at h

theorem malloc_fresh (m : Heap) (a : Nat) (h : m a = none) : malloc m (some a) = some a := by
  simp [malloc, h]

/-- A call of `q_insert_head` that returns `true`: the address came from
`malloc`, and the new element is linked in front. -/
theorem q_insert_head_true (st st1 : State) (q : queue_t) (s : List Nat) (node : Option Nat)
    (str : Bool) (hq : st.q = some q) (h : q_insert_head st s node str = some (true, st1)) :
    ∃ a, node = some a ∧ st.mem a = none ∧
      st1 = State.mk (some (queue_t.mk (some a)
        (match q.tail with
          | none => some a
          | some t => some t) (int_wrap (q.size + 1))))
        (setCell st.mem a (some (list_ele_t.mk s q.head))) := by
  simp only [q_insert_head, hq] at h
  cases hm : malloc st.mem node with
  | none => simp [hm] at h
  | some a =>
    obtain ⟨hn, hfree⟩ := malloc_some _ _ _ hm
    simp only [hm] at h
    cases str with
    | false => simp at h
    | true =>
      simp only [if_true, Option.some.injEq, Prod.mk.injEq, true_and] at h
      exact ⟨a, hn, hfree, h.symm⟩

theorem free_setCell (m : Heap) (a : Nat) (c : Option list_ele_t) (h : m a = none) :
    free (setCell m a c) a = m := setCell_cancel m a c h

end LabQueue

namespace LabQueue

/-! ## `q_sort` -/

theorem q_sort_walk_spec (l : List Nat) :
    ∀ (fuel : Nat) (m : Heap) (r : Nat), Chain m (some r) (r :: l) → l.length < fuel →
      q_sort_walk fuel m r = (r :: l).getLast? := by
  induction l with
  | nil =>
    intro fuel m r hc hf
    obtain ⟨e, he, hn⟩ := chain_tail m (some r) r [] hc
    rw [chain_nil] at hn
    cases fuel with
    | zero => simp at hf
    | succ k => simp [q_sort_walk, getNext, he, hn]
  | cons b l ih =>
    intro fuel m r hc hf
    obtain ⟨e, he, hn⟩ := chain_tail m (some r) r (b :: l) hc
    have hb := hn
    rw [chain_cons] at hb
    cases fuel with
    | zero => simp at hf
    | succ k =>
      have hrec := ih k m b (hb.1 ▸ hn) (by simp at hf; omega)
      simp only [q_sort_walk, getNext, he, hb.1, hrec]
      simp [List.getLast?_cons_cons]

theorem state_eta (st : State) (q : queue_t) (hq : st.q = some q) :
    st = State.mk (some (queue_t.mk q.head q.tail q.size)) st.mem := by
  cases st with
  | mk sq sm =>
    simp only at hq
    subst hq
    rfl

/-- The function `q_sort` on a present queue whose chain from head is `l`,
where a `size` of 1 is truthful: it returns; the chain from head is then the
list-level sort of `l`; no string and no cell outside `l` changes; `size` is
kept; `tail` is the last element of the chain unless the call returned early
(`size` 1 or empty), in which case nothing changed. -/
theorem q_sort_spec (st : State) (q : queue_t) (l : List Nat) (fuel : Nat)
    (hq : st.q = some q) (hc : Chain st.mem q.head l) (hsz : q.size = 1 → l.length ≤ 1)
    (hf : l.length + 2 ≤ fuel) :
    ∃ m' h' t', q_sort fuel st = some (State.mk (some (queue_t.mk h' t' q.size)) m') ∧
      Chain m' h' (msortL (valueAt st.mem) l) ∧ SameValues st.mem m' ∧
      (∀ x, x ∉ l → m' x = st.mem x) ∧
      (q.size ≠ 1 → l ≠ [] → t' = (msortL (valueAt st.mem) l).getLast?) ∧
      ((q.size = 1 ∨ l = []) → h' = q.head ∧ t' = q.tail ∧ m' = st.mem) := by
  by_cases h1 : q.size = 1
  · refine ⟨st.mem, q.head, q.tail, ?_, ?_, sameValues_refl _, fun _ _ => rfl,
      fun h => absurd h1 h, fun _ => ⟨rfl, rfl, rfl⟩⟩
    · simp only [q_sort, hq, h1, if_true]
      rw [← h1]
      exact congrArg some (state_eta st q hq)
    · rw [msortL_short _ _ (by have := hsz h1; omega)]
      exact hc
  · cases l with
    | nil =>
      rw [chain_nil] at hc
      refine ⟨st.mem, q.head, q.tail, ?_, ?_, sameValues_refl _, fun _ _ => rfl,
        fun _ h => absurd rfl h, fun _ => ⟨rfl, rfl, rfl⟩⟩
      · simp only [q_sort, hq, h1, if_false, hc]
        rw [← hc]
        exact congrArg some (state_eta st q hq)
      · rw [msortL_short _ _ (by simp), hc]
        simp [Chain]
    | cons a r =>
      have hp := hc
      rw [chain_cons] at hp
      obtain ⟨m1, p1, hms, hch, hsv, hfr⟩ :=
        mergeSortList_spec (a :: r).length (a :: r) fuel st.mem q.head (le_refl _) hc hf
      have hperm := msortL_perm_self (valueAt st.mem) (a :: r)
      cases hsorted : msortL (valueAt st.mem) (a :: r) with
      | nil =>
        rw [hsorted] at hperm
        exact absurd (List.Perm.length_eq hperm) (by simp)
      | cons b s =>
        rw [hsorted] at hch hperm
        have hpb := hch
        rw [chain_cons] at hpb
        have hp1 : p1 = some b := hpb.1
        subst hp1
        have hlen : s.length < fuel := by
          have := List.Perm.length_eq hperm
          simp only [List.length_cons] at this hf
          omega
        have hwalk := q_sort_walk_spec s fuel m1 b hch hlen
        cases hlast : (b :: s).getLast? with
        | none => simp at hlast
        | some t =>
          rw [hlast] at hwalk
          refine ⟨m1, some b, some t, ?_, hch, hsv, hfr, fun _ _ => rfl, ?_⟩
          · simp only [q_sort, hq, h1, if_false, hp.1, hwalk]
            rw [← hp.1, hms]
            simp only [hwalk]
          · intro h
            rcases h with h | h
            · exact absurd h h1
            · exact absurd h (by simp)

/-! ## `q_reverse` -/

theorem q_reverse_loop_spec (l : List Nat) :
    ∀ (fuel : Nat) (m : Heap) (iter prev nxt : Ptr) (pl : List Nat),
      Chain m iter l → Chain m prev pl → (∀ a ∈ l, a ∉ pl) → l.length < fuel →
      ∃ m' p', q_reverse_loop fuel m iter prev nxt = some (m', p') ∧
        (l = [] → p' = nxt ∧ m' = m) ∧
        (l ≠ [] → Chain m' p' (l.reverse ++ pl)) ∧
        SameValues m m' ∧ (∀ x, x ∉ l → m' x = m x) := by
  induction l with
  | nil =>
    intro fuel m iter prev nxt pl hc _ _ hf
    rw [chain_nil] at hc
    subst hc
    cases fuel with
    | zero => simp at hf
    | succ k =>
      exact ⟨m, nxt, by simp [q_reverse_loop], fun _ => ⟨rfl, rfl⟩, fun h => absurd rfl h,
        sameValues_refl m, fun _ _ => rfl⟩
  | cons a r ih =>
    intro fuel m iter prev nxt pl hc hpl hdisj hf
    have hna := chain_head_notin m iter a r hc
    rw [chain_cons] at hc
    obtain ⟨hp, ea, hea, hcr⟩ := hc
    subst hp
    cases fuel with
    | zero => simp at hf
    | succ k =>
      have hapl : a ∉ pl := hdisj a (List.mem_cons_self a r)
      have hc1 : Chain (setCell m a (some (list_ele_t.mk ea.value prev))) ea.next r :=
        chain_congr m _ _ _ hcr (fun x hx => setCell_other m a x _ (fun h => hna (h ▸ hx)))
      have hc2 : Chain (setCell m a (some (list_ele_t.mk ea.value prev))) (some a) (a :: pl) := by
        rw [chain_cons]
        refine ⟨rfl, _, setCell_same m a _, ?_⟩
        exact chain_congr m _ _ _ hpl (fun x hx =>
          setCell_other m a x _ (fun h => hapl (h ▸ hx)))
      have hd : ∀ x ∈ r, x ∉ a :: pl := by
        intro x hx hx2
        rcases List.mem_cons.mp hx2 with h | h
        · exact hna (h ▸ hx)
        · exact hdisj x (List.mem_cons_of_mem a hx) h
      obtain ⟨m', p', hl, hnil, hne, hsv, hfr⟩ :=
        ih k _ ea.next (some a) (some a) (a :: pl) hc1 hc2 hd (by simp at hf; omega)
      refine ⟨m', p', ?_, fun h => absurd h (by simp), ?_,
        sameValues_trans _ _ _ (sameValues_setCell m a ea prev hea) hsv, ?_⟩
      · simp only [q_reverse_loop, hea]
        exact hl
      · intro _
        by_cases hr : r = []
        · obtain ⟨hp', hm'⟩ := hnil hr
          subst hr
          rw [hp', hm']
          exact hc2
        · have := hne hr
          simpa using this
      · intro x hx
        rw [hfr x (fun h => hx (List.mem_cons_of_mem a h))]
        exact setCell_other m a x _ (fun h => hx (h ▸ List.mem_cons_self a r))

/-- The function `q_reverse` on a queue that satisfies the data-model
invariants: it returns, the result satisfies them with the reversed chain, no
string and no cell outside the chain changes; with at most one element nothing
changes at all. -/
theorem q_reverse_spec (st : State) (l : List Nat) (fuel : Nat) (hwf : WellFormed st l)
    (hf : l.length < fuel) :
    ∃ st', q_reverse fuel st = some st' ∧ WellFormed st' l.reverse ∧
      SameValues st.mem st'.mem ∧ (∀ x, x ∉ l → st'.mem x = st.mem x) ∧
      (l.length ≤ 1 → st' = st) := by
  obtain ⟨q, hq, hc, hsz, htl⟩ := hwf
  by_cases h1 : q.size = 1
  · have hl1 : l.length = 1 := by omega
    refine ⟨st, by simp [q_reverse, hq, h1], ?_, sameValues_refl _, fun _ _ => rfl,
      fun _ => rfl⟩
    obtain ⟨a, ha⟩ := List.length_eq_one.mp hl1
    subst ha
    exact ⟨q, hq, hc, hsz, htl⟩
  · obtain ⟨m', p', hl, hnil, hne, hsv, hfr⟩ :=
      q_reverse_loop_spec l fuel st.mem q.head none none [] hc (by simp [Chain])
        (fun _ _ h => by simp at h) hf
    refine ⟨State.mk (some (queue_t.mk p' q.head q.size)) m', ?_, ?_, hsv, hfr, ?_⟩
    · simp only [q_reverse, hq, h1, if_false, hl]
    · cases l with
      | nil =>
        obtain ⟨hp', hm'⟩ := hnil rfl
        rw [chain_nil] at hc
        refine ⟨_, rfl, ?_, hsz, ?_⟩
        · simp [Chain, hp']
        · simp [hc]
      | cons a r =>
        have hch := hne (by simp)
        rw [List.append_nil] at hch
        have hp := hc
        rw [chain_cons] at hp
        refine ⟨_, rfl, hch, ?_, ?_⟩
        · simp only [List.length_reverse]; exact hsz
        · simp only [hp.1]
          simp
    · intro hle
      cases l with
      | nil =>
        obtain ⟨hp', hm'⟩ := hnil rfl
        rw [chain_nil] at hc
        rw [hp', hm', state_eta st q hq]
        simp only [List.getLast?_nil] at htl
        rw [hc, htl]
      | cons a r =>
        have : r.length = 0 := by simp only [List.length_cons] at hle; omega
        have hsz' := hsz
        rw [List.length_cons, this] at hsz'
        exact absurd (by simpa using hsz') h1

end LabQueue

namespace LabQueue

/-! ## `q_sort` on a caller's state -/

theorem head_present (st : State) (q : queue_t) (hq : st.q = some q) : st.head = q.head := by
  simp [State.head, hq]

theorem tail_present (st : State) (q : queue_t) (hq : st.q = some q) : st.tail = q.tail := by
  simp [State.tail, hq]

theorem size_present (st : State) (q : queue_t) (hq : st.q = some q) : st.size = q.size := by
  simp [State.size, hq]

theorem q_size_present (st : State) (q : queue_t) (hq : st.q = some q) :
    q_size st = int_wrap q.size := by
  simp [q_size, hq]

/-- The function `q_size` returns the stored `size` as an `int`. -/
theorem q_size_eq (st : State) : q_size st = int_wrap st.size := by
  cases hq : st.q with
  | none => simp [q_size, State.size, hq]; decide
  | some q => simp [q_size, State.size, hq]

theorem q_size_one (st : State) (h : st.size = 1) : q_size st = 1 := by
  rw [q_size_eq, h]; decide

theorem head_absent (st : State) (hq : st.q = none) : st.head = none := by
  simp [State.head, hq]

/-- The function `q_sort` on any state whose chain from head is `l`, where a
`size` field of 1 is truthful: it returns, and the chain from head is then the
list-level sort of `l`. -/
theorem q_sort_chain (st : State) (l : List Nat) (fuel : Nat)
    (hc : Chain st.mem st.head l) (hsz : st.size = 1 → l.length ≤ 1)
    (hf : l.length + 2 ≤ fuel) :
    ∃ st', q_sort fuel st = some st' ∧
      Chain st'.mem st'.head (msortL (valueAt st.mem) l) ∧ SameValues st.mem st'.mem ∧
      q_size st' = q_size st ∧ (∀ x, x ∉ l → st'.mem x = st.mem x) ∧
      (st.q = none → st' = st) ∧
      (st.size ≠ 1 → l ≠ [] → st'.tail = (msortL (valueAt st.mem) l).getLast?) ∧
      ((st.size = 1 ∨ l = []) → st' = st) ∧ st'.size = st.size := by
  cases hq : st.q with
  | none =>
    rw [head_absent st hq] at hc
    refine ⟨st, by simp [q_sort, hq], ?_, sameValues_refl _, rfl, fun _ _ => rfl, fun _ => rfl,
      ?_, fun _ => rfl, rfl⟩
    · have hl : l = [] := by
        cases l with
        | nil => rfl
        | cons a r => simp [Chain] at hc
      subst hl
      rw [msortL_short _ _ (by simp), head_absent st hq]
      simp [Chain]
    · intro _ hne
      cases l with
      | nil => exact absurd rfl hne
      | cons a r => simp [Chain] at hc
  | some q =>
    rw [head_present st q hq] at hc
    rw [size_present st q hq] at hsz
    obtain ⟨m', h', t', hs, hch, hsv, hfr, htl, hearly⟩ := q_sort_spec st q l fuel hq hc hsz hf
    refine ⟨_, hs, hch, hsv, ?_, hfr, fun h => by simp at h, ?_, ?_, ?_⟩
    · simp [q_size, hq]
    · rw [size_present st q hq]
      intro h1 h2
      simp only [State.tail]
      exact htl h1 h2
    · rw [size_present st q hq]
      intro h
      obtain ⟨e1, e2, e3⟩ := hearly h
      rw [e1, e2, e3]
      exact (state_eta st q hq).symm
    · simp [State.size, hq]

/-- The function `q_sort` returns at once when the `size` field is 1. -/
theorem q_sort_size_one (st : State) (fuel : Nat) (h : st.size = 1) :
    q_sort fuel st = some st := by
  cases hq : st.q with
  | none => simp [q_sort, hq]
  | some q =>
    rw [size_present st q hq] at h
    simp [q_sort, hq, h]

/-! ## `q_insert_tail` on a well-formed queue -/

theorem chain_snoc (m : Heap) (l : List Nat) :
    ∀ (p : Ptr) (t a : Nat) (et : list_ele_t) (s : List Nat),
      Chain m p l → l.getLast? = some t → m t = some et → m a = none →
      Chain (setCell (setCell m a (some (list_ele_t.mk s none))) t
        (some (list_ele_t.mk et.value (some a)))) p (l ++ [a]) := by
  induction l with
  | nil => intro p t a et s _ h; simp at h
  | cons b r ih =>
    intro p t a et s hc hlast ht ha
    have hnb := chain_head_notin m p b r hc
    rw [chain_cons] at hc
    obtain ⟨hp, eb, heb, hcr⟩ := hc
    have hta : t ≠ a := fun h => by rw [h, ha] at ht; simp at ht
    have hba : b ≠ a := fun h => by rw [h, ha] at heb; simp at heb
    cases r with
    | nil =>
      simp at hlast
      subst hlast
      rw [chain_nil] at hcr
      rw [heb] at ht
      have hee : eb = et := Option.some.inj ht
      subst hee
      rw [List.cons_append, List.nil_append, chain_cons]
      refine ⟨hp, _, setCell_same _ b _, ?_⟩
      rw [chain_cons]
      refine ⟨rfl, list_ele_t.mk s none, ?_, by simp [Chain]⟩
      rw [setCell_other _ b a _ (Ne.symm hba), setCell_same]
    | cons c r2 =>
      rw [List.getLast?_cons_cons] at hlast
      have htb : t ≠ b := by
        intro h
        have : t ∈ c :: r2 := List.mem_of_getLast?_eq_some hlast
        exact hnb (h ▸ this)
      rw [List.cons_append, chain_cons]
      refine ⟨hp, eb, ?_, ih eb.next t a et s hcr hlast ht ha⟩
      rw [setCell_other _ t b _ (Ne.symm htb), setCell_other _ a b _ hba]
      exact heb

/-- A call of `q_insert_tail` on a present queue whose chain from head is `l`
and whose `tail` is the last element of `l` returns; when it returns `true`
the new element is the last of the chain, `tail` references it and `size` was
incremented as an `int`; when it returns `false` an allocation was refused and
nothing changed. -/
theorem q_insert_tail_linked (st : State) (l : List Nat) (s : List Nat) (node : Option Nat)
    (str : Bool) (hwf : Linked st l) :
    ∃ b st', q_insert_tail st s node str = some (b, st') ∧
      (b = false → st' = st) ∧
      (b = true → ∃ a, node = some a ∧ st.mem a = none ∧ Linked st' (l ++ [a]) ∧
        valueAt st'.mem a = s ∧ (∀ x ∈ l, valueAt st'.mem x = valueAt st.mem x) ∧
        (∀ x, x ≠ a → (st.mem x = none → st'.mem x = none)) ∧
        st'.size = int_wrap (st.size + 1)) ∧
      (b = false → malloc st.mem node = none ∨ str = false) := by
  obtain ⟨q, hq, hc, htl⟩ := hwf
  cases hm : malloc st.mem node with
  | none =>
    exact ⟨false, st, by simp [q_insert_tail, hq, hm], fun _ => rfl, fun h => by simp at h,
      fun _ => Or.inl rfl⟩
  | some a =>
    obtain ⟨hn, hfree⟩ := malloc_some _ _ _ hm
    cases str with
    | false =>
      exact ⟨false, st, by simp [q_insert_tail, hq, hm], fun _ => rfl, fun h => by simp at h,
        fun _ => Or.inr rfl⟩
    | true =>
      have hal : a ∉ l := fun h => by
        obtain ⟨e, he⟩ := chain_live _ _ _ hc a h
        rw [hfree] at he
        simp at he
      cases l with
      | nil =>
        rw [chain_nil] at hc
        refine ⟨true, State.mk (some (queue_t.mk (some a) (some a) (int_wrap (q.size + 1))))
          (setCell st.mem a (some (list_ele_t.mk s none))),
          by simp only [q_insert_tail, hq, hm, if_true, hc], fun h => by simp at h,
          fun _ => ⟨a, hn, hfree, ?_, ?_, fun x hx => by simp at hx, ?_, ?_⟩,
          fun h => by simp at h⟩
        · refine ⟨_, rfl, ?_, ?_⟩
          · rw [List.nil_append, chain_cons]
            exact ⟨rfl, _, setCell_same _ a _, by simp [Chain]⟩
          · simp
        · simp [valueAt, setCell]
        · intro x hx hxn
          simp only []
          rw [setCell_other _ a x _ hx]
          exact hxn
        · simp [State.size, hq]
      | cons h r =>
        have hp := hc
        rw [chain_cons] at hp
        cases hlast : (h :: r).getLast? with
        | none => simp at hlast
        | some t =>
          rw [hlast] at htl
          have htmem : t ∈ h :: r := List.mem_of_getLast?_eq_some hlast
          obtain ⟨et, het⟩ := chain_live _ _ _ hc t htmem
          have hta : t ≠ a := fun h' => hal (h' ▸ htmem)
          have hm1t : setCell st.mem a (some (list_ele_t.mk s none)) t = some et := by
            rw [setCell_other _ a t _ hta]; exact het
          refine ⟨true, State.mk (some (queue_t.mk (some h) (some a) (int_wrap (q.size + 1))))
            (setCell (setCell st.mem a (some (list_ele_t.mk s none))) t
              (some (list_ele_t.mk et.value (some a)))), by
            simp only [q_insert_tail, hq, hm, if_true, hp.1, htl,
              setNext_live _ t et (some a) hm1t], fun h => by simp at h,
            fun _ => ⟨a, hn, hfree, ?_, ?_, ?_, ?_, ?_⟩, fun h => by simp at h⟩
          · refine ⟨_, rfl, ?_, ?_⟩
            · simp only []
              rw [← hp.1]
              exact chain_snoc st.mem (h :: r) q.head t a et s hc hlast het hfree
            · exact (List.getLast?_concat (h :: r)).symm
          · simp only [valueAt]
            rw [setCell_other _ t a _ (Ne.symm hta), setCell_same]
          · intro x hx
            have hxa : x ≠ a := fun h' => hal (h' ▸ hx)
            by_cases hxt : x = t
            · subst hxt
              simp [valueAt, setCell, het]
            · simp [valueAt, setCell, hxt, hxa]
          · intro x hx hxn
            have hxt : x ≠ t := fun h' => by rw [h', het] at hxn; simp at hxn
            simp only []
            rw [setCell_other _ t x _ hxt, setCell_other _ a x _ hx]
            exact hxn
          · simp [State.size, hq]

theorem linked_of_wellFormed (st : State) (l : List Nat) (h : WellFormed st l) : Linked st l := by
  obtain ⟨q, hq, hc, _, htl⟩ := h
  exact ⟨q, hq, hc, htl⟩

end LabQueue

namespace LabQueue

/-! ## Runs of `q_remove_head` and of `q_insert_tail` -/

theorem valueAt_free (m : Heap) (a x : Nat) (h : x ≠ a) : valueAt (free m a) x = valueAt m x := by
  simp [valueAt, free, setCell, h]

/-- What the caller sees of a successful `q_remove_head` with a buffer of at
least `c ≥ 1` bytes: the stored string cut to `c - 1` bytes. -/
theorem seen_remove (v buf : List Nat) (c : Nat) (hv : IsCString v) :
    Ret.seen (Ret.mk true (some ((List.range (c - 1)).map (fun i => v.getD i 0) ++
      0 :: buf.drop c))) = (true, some (v.take (c - 1))) := by
  simp only [Ret.seen, Option.map_some', cstring_remove v (buf.drop c) c hv]

/-- A run of `k` calls of `q_remove_head` on a chain of at least `k`
elements: every call returns `true` and leaves in the buffer the string of the
element then at the head, cut to `c - 1` bytes; the rest of the chain stays. -/
theorem run_remove_heads (k : Nat) :
    ∀ (st : State) (l : List Nat) (fuel : Nat) (buf : List Nat) (c : Nat),
      Chain st.mem st.head l → k ≤ l.length → 1 ≤ c → c < SIZE_MOD → c ≤ buf.length →
      ∃ st', run fuel st (remove_head_calls k buf c) =
          some (st', (l.take k).map (fun a => Ret.mk true
            (some ((List.range (c - 1)).map (fun i => (valueAt st.mem a).getD i 0) ++
              0 :: buf.drop c)))) ∧
        Chain st'.mem st'.head (l.drop k) ∧ q_size st' = int_wrap (st.size - (k : Int)) ∧
        st'.tail = st.tail ∧ (∀ x ∈ l.drop k, valueAt st'.mem x = valueAt st.mem x) := by
  induction k with
  | zero =>
    intro st l fuel buf c hc _ _ _ _
    exact ⟨st, by simp [remove_head_calls, run], by simpa using hc, by simp [q_size_eq], rfl,
      fun _ _ => rfl⟩
  | succ k ih =>
    intro st l fuel buf c hc hk hc1 hc2 hbuf
    cases l with
    | nil => simp at hk
    | cons a r =>
      have hna := chain_head_notin _ _ a r hc
      rw [chain_cons] at hc
      obtain ⟨hh, e, he, hcr⟩ := hc
      cases hq : st.q with
      | none => rw [head_absent st hq] at hh; simp at hh
      | some q =>
        rw [head_present st q hq] at hh
        have hstep := q_remove_head_live st q a e buf c hq hh he hc1 hc2 hbuf
        have hcr' : Chain (free st.mem a) e.next r :=
          chain_congr _ _ _ _ hcr (fun x hx => setCell_other _ a x _ (fun h => hna (h ▸ hx)))
        obtain ⟨st', hrun, hch, hsz, htl, hval⟩ :=
          ih (State.mk (some (queue_t.mk e.next q.tail (int_wrap (q.size - 1)))) (free st.mem a))
            r fuel buf c hcr' (by simp only [List.length_cons] at hk; omega) hc1 hc2 hbuf
        refine ⟨st', ?_, by simpa using hch, ?_, ?_, ?_⟩
        · have hcalls : remove_head_calls (k + 1) buf c =
              Op.remove_head (some buf) c :: remove_head_calls k buf c := by
            simp [remove_head_calls, List.replicate_succ]
          rw [hcalls]
          simp only [run, step, hstep, hrun, List.take_succ_cons, List.map_cons,
            valueAt_live st.mem a e he]
          have hmap : List.map (fun x => Ret.mk true (some ((List.range (c - 1)).map
              (fun i => (valueAt (free st.mem a) x).getD i 0) ++ 0 :: buf.drop c)))
                (List.take k r) =
              List.map (fun x => Ret.mk true (some ((List.range (c - 1)).map
              (fun i => (valueAt st.mem x).getD i 0) ++ 0 :: buf.drop c))) (List.take k r) := by
            apply List.map_congr_left
            intro x hx
            rw [valueAt_free st.mem a x (fun h => hna (h ▸ List.mem_of_mem_take hx))]
          rw [hmap]
        · rw [hsz, size_present st q hq]
          simp only [State.size]
          rw [int_wrap_sub]
          congr 1
          push_cast
          omega
        · rw [htl, tail_present st q hq]
          rfl
        · intro x hx
          have hx' : x ∈ r.drop k := by simpa using hx
          rw [hval x hx', valueAt_free st.mem a x (fun h => hna (h ▸ List.mem_of_mem_drop hx'))]

theorem wellFormed_new (m : Heap) : WellFormed (q_new m true) [] :=
  ⟨queue_t.mk none none 0, rfl, by simp [Chain], rfl, rfl⟩

theorem linked_new (m : Heap) : Linked (q_new m true) [] :=
  ⟨queue_t.mk none none 0, rfl, by simp [Chain], rfl⟩

/-- A run of `q_insert_tail` calls on a present queue whose chain from head
is `l` and whose `tail` is the last element of `l` returns; if every call
returned `true`, the chain was extended by one new element per call, holding
the strings in the order of the calls, and `q_size` then returns the former
`size` plus the number of calls, as an `int`. -/
theorem run_insert_tails (calls : List (List Nat × Option Nat × Bool)) :
    ∀ (st : State) (l : List Nat) (fuel : Nat), Linked st l →
      ∃ st' rets, run fuel st (insert_tail_calls calls) = some (st', rets) ∧
        ((∀ r ∈ rets, r.ok = true) →
          ∃ l2, l2.length = calls.length ∧ Linked st' (l ++ l2) ∧
            values st'.mem (l ++ l2) = values st.mem l ++ calls.map (fun c => c.1) ∧
            q_size st' = int_wrap (st.size + (calls.length : Int))) := by
  induction calls with
  | nil =>
    intro st l fuel hwf
    exact ⟨st, [], by simp [insert_tail_calls, run], fun _ =>
      ⟨[], rfl, by simpa using hwf, by simp, by simp [q_size_eq]⟩⟩
  | cons c rest ih =>
    intro st l fuel hwf
    obtain ⟨b, st1, hins, hfalse, htrue, _⟩ := q_insert_tail_linked st l c.1 c.2.1 c.2.2 hwf
    cases b with
    | false =>
      have hst : st1 = st := hfalse rfl
      subst hst
      obtain ⟨st', rets, hrun, _⟩ := ih st1 l fuel hwf
      refine ⟨st', Ret.mk false none :: rets, ?_, ?_⟩
      · have hrun' : run fuel st1 (List.map (fun c => Op.insert_tail c.1 c.2.1 c.2.2) rest) =
            some (st', rets) := hrun
        simp only [insert_tail_calls, List.map_cons, run, step, hins, hrun']
      · intro hall
        have := hall (Ret.mk false none) (List.mem_cons_self _ _)
        simp at this
    | true =>
      obtain ⟨a, _, _, hwf1, hva, hvl, _, hsz1⟩ := htrue rfl
      obtain ⟨st', rets, hrun, hok⟩ := ih st1 (l ++ [a]) fuel hwf1
      refine ⟨st', Ret.mk true none :: rets, ?_, ?_⟩
      · have hrun' : run fuel st1 (List.map (fun c => Op.insert_tail c.1 c.2.1 c.2.2) rest) =
            some (st', rets) := hrun
        simp only [insert_tail_calls, List.map_cons, run, step, hins, hrun']
      · intro hall
        obtain ⟨l2, hlen, hwf2, hvals, hsz2⟩ :=
          hok (fun r hr => hall r (List.mem_cons_of_mem _ hr))
        refine ⟨a :: l2, by simp [hlen], by simpa using hwf2, ?_, ?_⟩
        · have h1 : values st1.mem (l ++ [a]) = values st.mem l ++ [c.1] := by
            simp only [values, List.map_append, List.map_cons, List.map_nil, hva]
            congr 1
            exact List.map_congr_left hvl
          have h2 : l ++ a :: l2 = l ++ [a] ++ l2 := by simp
          rw [h2, hvals, h1]
          simp
        · rw [hsz2, hsz1, int_wrap_add]
          congr 1
          simp only [List.length_cons]
          push_cast
          omega

/-- A run of `q_insert_tail` calls that offer the fresh addresses `k`, ...,
`k + n - 1` with every allocation granted: every call returns `true`. -/
theorem run_insert_tails_fresh (n : Nat) :
    ∀ (k : Nat) (st : State) (l : List Nat) (fuel : Nat), Linked st l →
      (∀ x, k ≤ x → st.mem x = none) →
      ∃ st' rets, run fuel st (insert_tail_calls
          ((List.range' k n).map (fun i => (([] : List Nat), some i, true)))) = some (st', rets) ∧
        (∀ r ∈ rets, r.ok = true) := by
  induction n with
  | zero =>
    intro k st l fuel _ _
    exact ⟨st, [], by simp [insert_tail_calls, run], fun _ h => by simp at h⟩
  | succ n ih =>
    intro k st l fuel hwf hfree
    obtain ⟨b, st1, hins, _, htrue, hfalse⟩ := q_insert_tail_linked st l [] (some k) true hwf
    cases b with
    | false =>
      rcases hfalse rfl with h | h
      · rw [malloc_fresh _ _ (hfree k (le_refl k))] at h
        simp at h
      · simp at h
    | true =>
      obtain ⟨a, ha, _, hwf1, _, _, hkeep, _⟩ := htrue rfl
      have hak : k = a := Option.some.inj ha
      subst hak
      obtain ⟨st', rets, hrun, hok⟩ := ih (k + 1) st1 (l ++ [k]) fuel hwf1
        (fun x hx => hkeep x (by omega) (hfree x (by omega)))
      refine ⟨st', Ret.mk true none :: rets, ?_, ?_⟩
      · have hrun' : run fuel st1 (List.map (fun c => Op.insert_tail c.1 c.2.1 c.2.2)
            ((List.range' (k + 1) n).map (fun i => (([] : List Nat), some i, true)))) =
            some (st', rets) := hrun
        simp only [insert_tail_calls, List.range'_succ, List.map_cons, run, step, hins, hrun']
      · intro r hr
        rcases List.mem_cons.mp hr with h | h
        · rw [h]
        · exact hok r h

theorem many_calls_length (n : Nat) : (many_calls n).length = n := by
  simp [many_calls]

/-- The run of `n` calls `q_insert_tail(q, "")` on a fresh queue, each granted
at a fresh address: every call returns `true`, and `q_size` then returns `n`
as an `int`. -/
theorem run_many_calls (n fuel : Nat) :
    ∃ st rets, run fuel fresh (insert_tail_calls (many_calls n)) = some (st, rets) ∧
      (∀ r ∈ rets, r.ok = true) ∧ q_size st = int_wrap (n : Int) := by
  obtain ⟨st, rets, hrun, hall⟩ :=
    run_insert_tails_fresh n 0 fresh [] fuel (linked_new emptyHeap) (fun _ _ => rfl)
  obtain ⟨st2, rets2, hrun2, hok⟩ :=
    run_insert_tails (many_calls n) fresh [] fuel (linked_new emptyHeap)
  have hrun1 : run fuel fresh (insert_tail_calls (many_calls n)) = some (st, rets) := hrun
  rw [hrun1] at hrun2
  have heq : (st, rets) = (st2, rets2) := Option.some.inj hrun2
  have h1 : st2 = st := (Prod.mk.inj heq).1.symm
  have h2 : rets2 = rets := (Prod.mk.inj heq).2.symm
  subst h1
  subst h2
  obtain ⟨_, _, _, _, hsz⟩ := hok hall
  refine ⟨st2, rets2, hrun1, hall, ?_⟩
  rw [hsz, many_calls_length]
  have h0 : fresh.size = 0 := rfl
  rw [h0, Int.zero_add]

theorem removed_insert_tail_calls (calls : List (List Nat × Option Nat × Bool)) :
    ∀ rets : List Ret, removed (insert_tail_calls calls) rets = 0 := by
  induction calls with
  | nil => intro rets; simp [insert_tail_calls, removed]
  | cons c rest ih =>
    intro rets
    cases rets with
    | nil => simp [insert_tail_calls, removed]
    | cons r rs =>
      have h := ih rs
      simp only [insert_tail_calls] at h
      simp [insert_tail_calls, removed, h]

end LabQueue

namespace LabQueue

/-! ## The ends of a chain -/

theorem chain_head (m : Heap) (p : Ptr) (l : List Nat) (h : Chain m p l) : p = l.head? := by
  cases l with
  | nil => rw [chain_nil] at h; simp [h]
  | cons a r => rw [chain_cons] at h; simp [h.1]

theorem chain_last_next (m : Heap) (p : Ptr) (l : List Nat) (t : Nat) (h : Chain m p l)
    (ht : l.getLast? = some t) : getNext m t = some none := by
  obtain ⟨p2, hc2, _, hlast⟩ := chain_append m p l [] (by simpa using h)
  rw [chain_nil] at hc2
  rw [hlast t ht, hc2]

end LabQueue

namespace LabQueue

/-! ## Equal strings and sorted sequences -/

theorem strcmp_eq_zero (x : List Nat) :
    ∀ y : List Nat, IsCString x → IsCString y → strcmp x y = 0 → x = y := by
  induction x with
  | nil =>
    intro y _ hy h
    cases y with
    | nil => rfl
    | cons b t =>
      have hb : b ≠ 0 := hy b (List.mem_cons_self b t)
      simp only [strcmp] at h
      omega
  | cons a s ih =>
    intro y hx hy h
    have ha : a ≠ 0 := hx a (List.mem_cons_self a s)
    cases y with
    | nil =>
      simp only [strcmp] at h
      omega
    | cons b t =>
      by_cases hab : a = b
      · subst hab
        simp only [strcmp, if_true, ha, if_false] at h
        rw [ih t (fun c hc => hx c (List.mem_cons_of_mem a hc))
          (fun c hc => hy c (List.mem_cons_of_mem a hc)) h]
      · simp only [strcmp, hab, if_false] at h
        omega

theorem strLe_antisymm (x y : List Nat) (hx : IsCString x) (hy : IsCString y)
    (h1 : StrLe x y) (h2 : StrLe y x) : x = y := by
  unfold StrLe at h1 h2
  rw [strcmp_swap x y] at h2
  exact strcmp_eq_zero x y hx hy (by omega)

/-- Two non-decreasing sequences of C strings with the same members, counted
with multiplicity, are the same sequence. -/
theorem sorted_strings_unique (v1 v2 : List (List Nat)) (hperm : v1.Perm v2)
    (hs1 : v1.Pairwise StrLe) (hs2 : v2.Pairwise StrLe) (hc : ∀ x ∈ v1, IsCString x) :
    v1 = v2 :=
  List.Perm.eq_of_sorted
    (fun a b ha hb hab hba => strLe_antisymm a b (hc a ha) (hc b (hperm.symm.subset hb)) hab hba)
    hs1 hs2 hperm

theorem values_msortL_sorted (m : Heap) (l : List Nat) :
    (values m (msortL (valueAt m) l)).Pairwise StrLe := by
  unfold values
  rw [List.pairwise_map]
  exact msortL_sorted (valueAt m) _ l (le_refl _)

theorem values_msortL_perm (m : Heap) (l : List Nat) :
    (values m (msortL (valueAt m) l)).Perm (values m l) :=
  (msortL_perm_self (valueAt m) l).map _

theorem values_sameValues (m m' : Heap) (l : List Nat) (h : SameValues m m') :
    values m' l = values m l := by
  unfold values
  rw [sameValues_valueAt m m' h]

/-! ## `merge` keeps the order inside each list -/

theorem mergeL_sublist (v : Nat → List Nat) (n : Nat) :
    ∀ l1 l2 : List Nat, l1.length + l2.length = n →
      List.Sublist l1 (mergeL v l1 l2) ∧ List.Sublist l2 (mergeL v l1 l2) := by
  induction n with
  | zero =>
    intro l1 l2 h
    have h1 : l1 = [] := List.length_eq_zero.mp (by omega)
    have h2 : l2 = [] := List.length_eq_zero.mp (by omega)
    subst h1
    subst h2
    rw [mergeL_nil_left]
    exact ⟨List.Sublist.refl _, List.Sublist.refl _⟩
  | succ n ih =>
    intro l1 l2 h
    cases l1 with
    | nil =>
      rw [mergeL_nil_left]
      exact ⟨List.nil_sublist _, List.Sublist.refl _⟩
    | cons a r1 =>
      cases l2 with
      | nil =>
        rw [mergeL_nil_right]
        exact ⟨List.Sublist.refl _, List.nil_sublist _⟩
      | cons b r2 =>
        by_cases hlt : strcmp (v a) (v b) < 0
        · rw [mergeL_cons_lt v a b r1 r2 hlt]
          obtain ⟨h1, h2⟩ := ih r1 (b :: r2) (by simp at h ⊢; omega)
          exact ⟨h1.cons₂ a, h2.cons a⟩
        · rw [mergeL_cons_ge v a b r1 r2 hlt]
          obtain ⟨h1, h2⟩ := ih (a :: r1) r2 (by simp at h ⊢; omega)
          exact ⟨h1.cons b, h2.cons₂ b⟩

/-! ## `q_reverse` on any chain -/

/-- The function `q_reverse` on any state whose chain from head is `l`: it
returns; the chain from head is then `l` reversed, or `l` itself when the
`size` field is 1; no string changes and `size` is kept. -/
theorem q_reverse_chain (st : State) (l : List Nat) (fuel : Nat)
    (hc : Chain st.mem st.head l) (hf : l.length < fuel) :
    ∃ st', q_reverse fuel st = some st' ∧
      Chain st'.mem st'.head (if st.size = 1 then l else l.reverse) ∧
      SameValues st.mem st'.mem ∧ q_size st' = q_size st ∧
      (∀ x, x ∉ l → st'.mem x = st.mem x) ∧ (st.q = none → st' = st) ∧
      st'.size = st.size := by
  cases hq : st.q with
  | none =>
    refine ⟨st, by simp [q_reverse, hq], ?_, sameValues_refl _, rfl, fun _ _ => rfl,
      fun _ => rfl, rfl⟩
    have h0 : st.size = 0 := by simp [State.size, hq]
    rw [head_absent st hq] at hc
    have hl : l = [] := by
      cases l with
      | nil => rfl
      | cons a r => simp [Chain] at hc
    subst hl
    rw [h0, head_absent st hq]
    simp [Chain]
  | some q =>
    rw [head_present st q hq] at hc
    rw [size_present st q hq]
    by_cases h1 : q.size = 1
    · refine ⟨st, by simp [q_reverse, hq, h1], ?_, sameValues_refl _, rfl,
        fun _ _ => rfl, fun h => by simp at h, size_present st q hq⟩
      rw [if_pos h1, head_present st q hq]
      exact hc
    · obtain ⟨m', p', hl, hnil, hne, hsv, hfr⟩ :=
        q_reverse_loop_spec l fuel st.mem q.head none none [] hc (by simp [Chain])
          (fun _ _ h => by simp at h) hf
      refine ⟨State.mk (some (queue_t.mk p' q.head q.size)) m', ?_, ?_, hsv, ?_, hfr,
        fun h => by simp at h, ?_⟩
      · simp only [q_reverse, hq, h1, if_false, hl]
      · rw [if_neg h1]
        simp only [State.head]
        cases l with
        | nil =>
          obtain ⟨hp', _⟩ := hnil rfl
          simp [Chain, hp']
        | cons a r =>
          have hch := hne (by simp)
          rw [List.append_nil] at hch
          exact hch
      · simp [q_size, hq]
      · simp [State.size]

end LabQueue

namespace LabQueue

/-! ## The effect of every call on `size` -/

theorem q_size_wrap (st : State) : q_size st = int_wrap (q_size st) := by
  rw [q_size_eq, int_wrap_idem]

theorem q_insert_head_size (st st1 : State) (s : List Nat) (node : Option Nat) (str b : Bool)
    (h : q_insert_head st s node str = some (b, st1)) :
    q_size st1 = int_wrap (q_size st + (if b then 1 else 0)) := by
  cases hq : st.q with
  | none =>
    simp only [q_insert_head, hq, Option.some.injEq, Prod.mk.injEq] at h
    obtain ⟨hb, hst⟩ := h
    subst hb
    subst hst
    simpa using q_size_wrap st
  | some q =>
    cases hm : malloc st.mem node with
    | none =>
      simp only [q_insert_head, hq, hm, Option.some.injEq, Prod.mk.injEq] at h
      obtain ⟨hb, hst⟩ := h
      subst hb
      subst hst
      simpa using q_size_wrap st
    | some a =>
      cases str with
      | false =>
        simp only [q_insert_head, hq, hm, Bool.false_eq_true, if_false, Option.some.injEq,
          Prod.mk.injEq] at h
        obtain ⟨hb, hst⟩ := h
        subst hb
        subst hst
        simpa using q_size_wrap st
      | true =>
        simp only [q_insert_head, hq, hm, if_true, Option.some.injEq, Prod.mk.injEq] at h
        obtain ⟨hb, hst⟩ := h
        subst hb
        subst hst
        simp [q_size, hq, int_wrap_idem, int_wrap_add, int_wrap_sub]

theorem q_insert_tail_size (st st1 : State) (s : List Nat) (node : Option Nat) (str b : Bool)
    (h : q_insert_tail st s node str = some (b, st1)) :
    q_size st1 = int_wrap (q_size st + (if b then 1 else 0)) := by
  cases hq : st.q with
  | none =>
    simp only [q_insert_tail, hq, Option.some.injEq, Prod.mk.injEq] at h
    obtain ⟨hb, hst⟩ := h
    subst hb
    subst hst
    simpa using q_size_wrap st
  | some q =>
    cases hm : malloc st.mem node with
    | none =>
      simp only [q_insert_tail, hq, hm, Option.some.injEq, Prod.mk.injEq] at h
      obtain ⟨hb, hst⟩ := h
      subst hb
      subst hst
      simpa using q_size_wrap st
    | some a =>
      cases str with
      | false =>
        simp only [q_insert_tail, hq, hm, Bool.false_eq_true, if_false, Option.some.injEq,
          Prod.mk.injEq] at h
        obtain ⟨hb, hst⟩ := h
        subst hb
        subst hst
        simpa using q_size_wrap st
      | true =>
        simp only [q_insert_tail, hq, hm, if_true] at h
        cases hh : q.head with
        | none =>
          simp only [hh, Option.some.injEq, Prod.mk.injEq] at h
          obtain ⟨hb, hst⟩ := h
          subst hb
          subst hst
          simp [q_size, hq, int_wrap_idem, int_wrap_add, int_wrap_sub]
        | some hd =>
          simp only [hh] at h
          cases ht : q.tail with
          | none => simp [ht] at h
          | some t =>
            simp only [ht] at h
            cases hsn : setNext (setCell st.mem a (some (list_ele_t.mk s none))) t (some a) with
            | none => simp [hsn] at h
            | some m2 =>
              simp only [hsn, Option.some.injEq, Prod.mk.injEq] at h
              obtain ⟨hb, hst⟩ := h
              subst hb
              subst hst
              simp [q_size, hq, int_wrap_idem, int_wrap_add, int_wrap_sub]

theorem q_remove_head_size (st st1 : State) (sp sp1 : Option (List Nat)) (c : Nat) (b : Bool)
    (h : q_remove_head st sp c = some (b, st1, sp1)) :
    q_size st1 = int_wrap (q_size st - (if b then 1 else 0)) ∧
      (b = false → st1 = st ∧ sp1 = sp) ∧
      (b = false ↔ st.head = none) := by
  cases hq : st.q with
  | none =>
    simp only [q_remove_head, hq, Option.some.injEq, Prod.mk.injEq] at h
    obtain ⟨hb, hst, hsp⟩ := h
    subst hb
    subst hst
    subst hsp
    simp [State.head, hq]
    exact q_size_wrap st
  | some q =>
    cases hh : q.head with
    | none =>
      simp only [q_remove_head, hq, hh, Option.some.injEq, Prod.mk.injEq] at h
      obtain ⟨hb, hst, hsp⟩ := h
      subst hb
      subst hst
      subst hsp
      simp [State.head, hq, hh]
      exact q_size_wrap st
    | some rh =>
      cases he : st.mem rh with
      | none => simp [q_remove_head, hq, hh, he] at h
      | some e =>
        cases sp with
        | none =>
          simp only [q_remove_head, hq, hh, he, Option.some.injEq, Prod.mk.injEq] at h
          obtain ⟨hb, hst, _⟩ := h
          subst hb
          subst hst
          simp [q_size, hq, State.head, hh, int_wrap_idem, int_wrap_sub]
        | some buf =>
          simp only [q_remove_head, hq, hh, he] at h
          cases hs : stores buf (q_remove_head_writes e.value c) with
          | none => simp [hs] at h
          | some buf1 =>
            simp only [hs, Option.some.injEq, Prod.mk.injEq] at h
            obtain ⟨hb, hst, _⟩ := h
            subst hb
            subst hst
            simp [q_size, hq, State.head, hh, int_wrap_idem, int_wrap_sub]

theorem q_reverse_size (st st1 : State) (fuel : Nat) (h : q_reverse fuel st = some st1) :
    q_size st1 = q_size st := by
  cases hq : st.q with
  | none =>
    simp only [q_reverse, hq, Option.some.injEq] at h
    rw [← h]
  | some q =>
    by_cases h1 : q.size = 1
    · simp only [q_reverse, hq, h1, if_true, Option.some.injEq] at h
      rw [← h]
    · simp only [q_reverse, hq, h1, if_false] at h
      cases hl : q_reverse_loop fuel st.mem q.head none none with
      | none => simp [hl] at h
      | some r =>
        simp only [hl, Option.some.injEq] at h
        rw [← h]
        simp [q_size, hq]

theorem q_sort_size (st st1 : State) (fuel : Nat) (h : q_sort fuel st = some st1) :
    q_size st1 = q_size st := by
  cases hq : st.q with
  | none =>
    simp only [q_sort, hq, Option.some.injEq] at h
    rw [← h]
  | some q =>
    by_cases h1 : q.size = 1
    · simp only [q_sort, hq, h1, if_true, Option.some.injEq] at h
      rw [← h]
    · simp only [q_sort, hq, h1, if_false] at h
      cases hh : q.head with
      | none =>
        simp only [hh, Option.some.injEq] at h
        rw [← h]
      | some hd =>
        simp only [hh] at h
        cases hm : mergeSortList fuel st.mem (some hd) with
        | none => simp [hm] at h
        | some r =>
          obtain ⟨m1, p⟩ := r
          cases p with
          | none => simp [hm] at h
          | some r1 =>
            simp only [hm] at h
            cases hw : q_sort_walk fuel m1 r1 with
            | none => simp [hw] at h
            | some t =>
              simp only [hw, Option.some.injEq] at h
              rw [← h]
              simp [q_size, hq]

/-- A run changes `size` by the number of insertions that returned `true`
less the number of removals that returned `true`, counted as an `int`. -/
theorem run_size (ops : List Op) :
    ∀ (fuel : Nat) (st0 st : State) (rets : List Ret), run fuel st0 ops = some (st, rets) →
      q_size st =
        int_wrap (q_size st0 + (inserted ops rets : Int) - (removed ops rets : Int)) := by
  induction ops with
  | nil =>
    intro fuel st0 st rets h
    simp only [run, Option.some.injEq, Prod.mk.injEq] at h
    obtain ⟨h1, h2⟩ := h
    subst h1
    subst h2
    simpa [inserted, removed] using q_size_wrap st0
  | cons op ops ih =>
    intro fuel st0 st rets h
    simp only [run] at h
    cases hs : step fuel st0 op with
    | none => simp [hs] at h
    | some p =>
      obtain ⟨st1, r⟩ := p
      simp only [hs] at h
      cases hr : run fuel st1 ops with
      | none => simp [hr] at h
      | some p2 =>
        obtain ⟨st2, rs⟩ := p2
        simp only [hr, Option.some.injEq, Prod.mk.injEq] at h
        obtain ⟨h1, h2⟩ := h
        subst h1
        subst h2
        have hrec := ih fuel st1 st2 rs hr
        cases op with
        | insert_head s node str =>
          simp only [step] at hs
          cases hi : q_insert_head st0 s node str with
          | none => simp [hi] at hs
          | some p3 =>
            obtain ⟨b, st3⟩ := p3
            simp only [hi, Option.some.injEq, Prod.mk.injEq] at hs
            obtain ⟨e1, e2⟩ := hs
            subst e1
            subst e2
            have := q_insert_head_size st0 st3 s node str b hi
            rw [hrec, this]
            cases b <;> simp [inserted, removed] <;> (unfold int_wrap; omega)
        | insert_tail s node str =>
          simp only [step] at hs
          cases hi : q_insert_tail st0 s node str with
          | none => simp [hi] at hs
          | some p3 =>
            obtain ⟨b, st3⟩ := p3
            simp only [hi, Option.some.injEq, Prod.mk.injEq] at hs
            obtain ⟨e1, e2⟩ := hs
            subst e1
            subst e2
            have := q_insert_tail_size st0 st3 s node str b hi
            rw [hrec, this]
            cases b <;> simp [inserted, removed] <;> (unfold int_wrap; omega)
        | remove_head sp c =>
          simp only [step] at hs
          cases hi : q_remove_head st0 sp c with
          | none => simp [hi] at hs
          | some p3 =>
            obtain ⟨b, st3, sp3⟩ := p3
            simp only [hi, Option.some.injEq, Prod.mk.injEq] at hs
            obtain ⟨e1, e2⟩ := hs
            subst e1
            subst e2
            have := (q_remove_head_size st0 st3 sp sp3 c b hi).1
            rw [hrec, this]
            cases b <;> simp [inserted, removed] <;> (unfold int_wrap; omega)
        | reverse =>
          simp only [step] at hs
          cases hi : q_reverse fuel st0 with
          | none => simp [hi] at hs
          | some st3 =>
            simp only [hi, Option.some.injEq, Prod.mk.injEq] at hs
            obtain ⟨e1, e2⟩ := hs
            subst e1
            subst e2
            have := q_reverse_size st0 st3 fuel hi
            rw [hrec, this]
            simp [inserted, removed]
        | sort =>
          simp only [step] at hs
          cases hi : q_sort fuel st0 with
          | none => simp [hi] at hs
          | some st3 =>
            simp only [hi, Option.some.injEq, Prod.mk.injEq] at hs
            obtain ⟨e1, e2⟩ := hs
            subst e1
            subst e2
            have := q_sort_size st0 st3 fuel hi
            rw [hrec, this]
            simp [inserted, removed]

end LabQueue

namespace LabQueue

/-! ## The split of `mergeSortList` -/

/-- The function `mergeSortList`, on a head whose `next` is not `NULL`, is the
split followed by the two recursive calls and `merge`. -/
theorem mergeSortList_step (fuel : Nat) (m : Heap) (h f : Nat)
    (hn : getNext m h = some (some f)) :
    mergeSortList (fuel + 1) m (some h) =
      match mergeSortList_split fuel m h f with
      | none => none
      | some (m1, fast) =>
        match mergeSortList fuel m1 (some h) with
        | none => none
        | some (m2, l1) =>
          match mergeSortList fuel m2 fast with
          | none => none
          | some (m3, l2) => merge fuel m3 l1 l2 := by
  simp only [mergeSortList, mergeSortList_split, hn]
  cases hs : split_loop fuel m (some f) (some h) with
  | none => rfl
  | some p =>
    cases p with
    | none => rfl
    | some s =>
      simp only []
      cases hg : getNext m s with
      | none => rfl
      | some fast =>
        cases hsn : setNext m s none with
        | none => rfl
        | some m1 => rfl

/-- The split on a chain of at least two elements: it returns, the first
`(n + 1) / 2` elements hang from the old head, the others from `fast`. -/
theorem mergeSortList_split_spec (m : Heap) (h f : Nat) (r : List Nat) (fuel : Nat)
    (hc : Chain m (some h) (h :: f :: r)) (hf : (h :: f :: r).length ≤ fuel) :
    ∃ m1 fast, mergeSortList_split fuel m h f = some (m1, fast) ∧
      Chain m1 (some h) ((h :: f :: r).take (((h :: f :: r).length + 1) / 2)) ∧
      Chain m1 fast ((h :: f :: r).drop (((h :: f :: r).length + 1) / 2)) ∧
      SameValues m m1 ∧ (∀ x, x ∉ h :: f :: r → m1 x = m x) := by
  have hnd := chain_nodup m (some h) _ hc
  obtain ⟨eh, heh, hcr⟩ := chain_tail m (some h) h (f :: r) hc
  have hpf := hcr
  rw [chain_cons] at hpf
  have hsplit := split_loop_spec fuel m (some f) (some h) (h :: f :: r) (f :: r) hc
    (hpf.1 ▸ hcr) (by simp only [List.length_cons]; omega)
    (by simp only [List.length_cons] at hf ⊢; omega)
  generalize hL : h :: f :: r = L at hc hnd hsplit hf
  have hlen2 : 2 ≤ L.length := by rw [← hL]; simp
  have hbl : (f :: r).length = L.length - 1 := by rw [← hL]; simp
  rw [hbl] at hsplit
  have hhalf : (L.length - 1) / 2 + 1 = (L.length + 1) / 2 := by omega
  have hi : (L.length - 1) / 2 < L.length := by omega
  obtain ⟨s, hs⟩ : ∃ s, L[(L.length - 1) / 2]? = some s :=
    ⟨L[(L.length - 1) / 2], List.getElem?_eq_getElem hi⟩
  rw [hs] at hsplit
  have htake : L.take ((L.length + 1) / 2) = L.take ((L.length - 1) / 2) ++ [s] := by
    rw [← hhalf, List.take_succ, hs]
    rfl
  have hdecomp : L = L.take ((L.length - 1) / 2) ++ s :: L.drop ((L.length + 1) / 2) := by
    have h1 := (List.take_append_drop ((L.length + 1) / 2) L).symm
    rw [htake] at h1
    simpa using h1
  have hsmem : s ∈ L := List.getElem?_mem hs
  obtain ⟨es, hes⟩ := chain_live m (some h) L hc s hsmem
  have hc1 : Chain (setCell m s (some (list_ele_t.mk es.value none))) (some h)
      (L.take ((L.length + 1) / 2)) := by
    rw [htake]
    refine chain_cut m _ (some h) (L.drop ((L.length + 1) / 2)) s es ?_ hes
    rw [← hdecomp]
    exact hc
  have hnd2 : (L.take ((L.length + 1) / 2) ++ L.drop ((L.length + 1) / 2)).Nodup := by
    rw [List.take_append_drop]; exact hnd
  have hdisj : ∀ x ∈ L.take ((L.length + 1) / 2), x ∉ L.drop ((L.length + 1) / 2) :=
    fun x hx hx2 => (List.nodup_append.mp hnd2).2.2 hx hx2
  have hstake : s ∈ L.take ((L.length + 1) / 2) := by rw [htake]; simp
  obtain ⟨fast, hcfast, _, hlast⟩ := chain_append m (some h)
    (L.take ((L.length + 1) / 2)) (L.drop ((L.length + 1) / 2))
    (by rw [List.take_append_drop]; exact hc)
  have hgs : getNext m s = some fast := hlast s (by rw [htake]; simp)
  have hc2 : Chain (setCell m s (some (list_ele_t.mk es.value none))) fast
      (L.drop ((L.length + 1) / 2)) :=
    chain_congr m _ fast _ hcfast (fun x hx =>
      setCell_other m s x _ (fun h' => hdisj s hstake (h' ▸ hx)))
  refine ⟨_, fast, ?_, hc1, hc2, sameValues_setCell m s es none hes, ?_⟩
  · simp only [mergeSortList_split, hsplit, hgs, setNext_live m s es none hes]
  · intro x hx
    exact setCell_other m s x _ (fun h' => hx (h' ▸ hsmem))

end LabQueue

namespace LabQueue

/-! ## Where a run from `q_new` can stop -/

theorem chain_redirect (m : Heap) (l1 : List Nat) :
    ∀ (p : Ptr) (t a : Nat) (l2 : List Nat) (et : list_ele_t) (s : List Nat),
      Chain m p (l1 ++ t :: l2) → m t = some et → m a = none →
      Chain (setCell (setCell m a (some (list_ele_t.mk s none))) t
        (some (list_ele_t.mk et.value (some a)))) p (l1 ++ [t, a]) := by
  induction l1 with
  | nil =>
    intro p t a l2 et s hc ht ha
    have hta : t ≠ a := fun h => by rw [h, ha] at ht; simp at ht
    rw [List.nil_append, chain_cons] at hc
    rw [List.nil_append, chain_cons]
    refine ⟨hc.1, _, setCell_same _ t _, ?_⟩
    rw [chain_cons]
    refine ⟨rfl, list_ele_t.mk s none, ?_, by simp [Chain]⟩
    rw [setCell_other _ t a _ (Ne.symm hta), setCell_same]
  | cons b r ih =>
    intro p t a l2 et s hc ht ha
    have hnb := chain_head_notin m p b (r ++ t :: l2) hc
    rw [List.cons_append, chain_cons] at hc
    obtain ⟨hp, eb, heb, hcr⟩ := hc
    have hbt : b ≠ t := fun h => hnb (h ▸ by simp)
    have hba : b ≠ a := fun h => by rw [h, ha] at heb; simp at heb
    rw [List.cons_append, chain_cons]
    refine ⟨hp, eb, ?_, ih eb.next t a l2 et s hcr ht ha⟩
    rw [setCell_other _ t b _ hbt, setCell_other _ a b _ hba]
    exact heb

theorem q_insert_head_progress (st : State) (l : List Nat) (s : List Nat) (node : Option Nat)
    (str : Bool) (hc : Chain st.mem st.head l) :
    ∃ b st', q_insert_head st s node str = some (b, st') ∧
      ∃ l', Chain st'.mem st'.head l' ∧ l'.length ≤ l.length + 1 := by
  cases hq : st.q with
  | none => exact ⟨false, st, by simp [q_insert_head, hq], l, hc, by omega⟩
  | some q =>
    cases hm : malloc st.mem node with
    | none => exact ⟨false, st, by simp [q_insert_head, hq, hm], l, hc, by omega⟩
    | some a =>
      cases str with
      | false => exact ⟨false, st, by simp [q_insert_head, hq, hm], l, hc, by omega⟩
      | true =>
        obtain ⟨_, hfree⟩ := malloc_some _ _ _ hm
        rw [head_present st q hq] at hc
        have hal : a ∉ l := fun h => by
          obtain ⟨e, he⟩ := chain_live _ _ _ hc a h
          rw [hfree] at he
          simp at he
        refine ⟨true, State.mk (some (queue_t.mk (some a)
          (match q.tail with
            | none => some a
            | some t => some t) (int_wrap (q.size + 1))))
          (setCell st.mem a (some (list_ele_t.mk s q.head))), ?_, a :: l, ?_, by simp⟩
        · simp only [q_insert_head, hq, hm, if_true]
        · simp only [State.head]
          rw [chain_cons]
          refine ⟨rfl, _, setCell_same _ a _, ?_⟩
          exact chain_congr _ _ _ _ hc (fun x hx =>
            setCell_other _ a x _ (fun h => hal (h ▸ hx)))

theorem q_insert_tail_progress (st : State) (l : List Nat) (s : List Nat) (node : Option Nat)
    (str : Bool) (hc : Chain st.mem st.head l) :
    (∃ b st', q_insert_tail st s node str = some (b, st') ∧
      ∃ l', Chain st'.mem st'.head l' ∧ l'.length ≤ l.length + 1) ∨
    (q_insert_tail st s node str = none ∧ st.head ≠ none ∧
      ∀ t e, st.tail = some t → st.mem t ≠ some e) := by
  cases hq : st.q with
  | none => exact Or.inl ⟨false, st, by simp [q_insert_tail, hq], l, hc, by omega⟩
  | some q =>
    cases hm : malloc st.mem node with
    | none => exact Or.inl ⟨false, st, by simp [q_insert_tail, hq, hm], l, hc, by omega⟩
    | some a =>
      cases str with
      | false => exact Or.inl ⟨false, st, by simp [q_insert_tail, hq, hm], l, hc, by omega⟩
      | true =>
        obtain ⟨_, hfree⟩ := malloc_some _ _ _ hm
        rw [head_present st q hq] at hc
        have hal : a ∉ l := fun h => by
          obtain ⟨e, he⟩ := chain_live _ _ _ hc a h
          rw [hfree] at he
          simp at he
        cases hh : q.head with
        | none =>
          refine Or.inl ⟨true, State.mk (some (queue_t.mk (some a) (some a) (int_wrap (q.size + 1))))
            (setCell st.mem a (some (list_ele_t.mk s none))), ?_, [a], ?_, by simp⟩
          · simp only [q_insert_tail, hq, hm, if_true, hh]
          · simp only [State.head]
            rw [chain_cons]
            exact ⟨rfl, _, setCell_same _ a _, by simp [Chain]⟩
        | some hd =>
          cases ht : q.tail with
          | none =>
            refine Or.inr ⟨by simp only [q_insert_tail, hq, hm, if_true, hh, ht], ?_, ?_⟩
            · rw [head_present st q hq, hh]; simp
            · intro t e h
              rw [tail_present st q hq, ht] at h
              simp at h
          | some t =>
            cases hmt : setCell st.mem a (some (list_ele_t.mk s none)) t with
            | none =>
              have hta : t ≠ a := fun h => by rw [h, setCell_same] at hmt; simp at hmt
              rw [setCell_other _ a t _ hta] at hmt
              refine Or.inr ⟨?_, ?_, ?_⟩
              · have hsn : setNext (setCell st.mem a (some (list_ele_t.mk s none))) t (some a) =
                    none := by
                  simp [setNext, setCell_other _ a t _ hta, hmt]
                simp only [q_insert_tail, hq, hm, if_true, hh, ht, hsn]
              · rw [head_present st q hq, hh]; simp
              · intro t' e h
                rw [tail_present st q hq, ht] at h
                have : t = t' := Option.some.inj h
                rw [← this, hmt]
                simp
            | some et =>
              refine Or.inl ⟨true, State.mk (some (queue_t.mk (some hd) (some a) (int_wrap (q.size + 1))))
                (setCell (setCell st.mem a (some (list_ele_t.mk s none))) t
                  (some (list_ele_t.mk et.value (some a)))), ?_, ?_⟩
              · simp only [q_insert_tail, hq, hm, if_true, hh, ht,
                  setNext_live _ t et (some a) hmt]
              · simp only [State.head]
                rw [← hh]
                by_cases htl : t ∈ l
                · obtain ⟨l1, l2, hl⟩ := List.append_of_mem htl
                  have hta : t ≠ a := fun h => hal (h ▸ htl)
                  rw [setCell_other _ a t _ hta] at hmt
                  refine ⟨l1 ++ [t, a], ?_, ?_⟩
                  · exact chain_redirect st.mem l1 q.head t a l2 et s (hl ▸ hc) hmt hfree
                  · rw [hl]
                    simp only [List.length_append, List.length_cons, List.length_nil]
                    omega
                · refine ⟨l, ?_, by omega⟩
                  refine chain_congr _ _ _ _ hc (fun x hx => ?_)
                  have hxt : x ≠ t := fun h => htl (h ▸ hx)
                  have hxa : x ≠ a := fun h => hal (h ▸ hx)
                  rw [setCell_other _ t x _ hxt, setCell_other _ a x _ hxa]

theorem q_remove_head_progress (st : State) (l : List Nat) (sp : Option (List Nat)) (c : Nat)
    (hc : Chain st.mem st.head l) :
    (∃ b st' sp', q_remove_head st sp c = some (b, st', sp') ∧
      ∃ l', Chain st'.mem st'.head l' ∧ l'.length ≤ l.length) ∨
    (q_remove_head st sp c = none ∧
      ∃ buf, sp = some buf ∧ ¬ (1 ≤ c ∧ c < SIZE_MOD ∧ c ≤ buf.length)) := by
  cases hq : st.q with
  | none => exact Or.inl ⟨false, st, sp, by simp [q_remove_head, hq], l, hc, le_refl _⟩
  | some q =>
    cases hh : q.head with
    | none => exact Or.inl ⟨false, st, sp, by simp [q_remove_head, hq, hh], l, hc, le_refl _⟩
    | some a =>
      rw [head_present st q hq, hh] at hc
      cases l with
      | nil => simp [Chain] at hc
      | cons b r =>
        have hnb := chain_head_notin _ _ b r hc
        rw [chain_cons] at hc
        obtain ⟨hp, e, he, hcr⟩ := hc
        have hab : a = b := Option.some.inj hp
        subst hab
        have hcr' : Chain (free st.mem a) e.next r :=
          chain_congr _ _ _ _ hcr (fun x hx => setCell_other _ a x _ (fun h => hnb (h ▸ hx)))
        cases sp with
        | none =>
          exact Or.inl ⟨true, _, none, q_remove_head_live_null st q a e c hq hh he, r, hcr',
            by simp⟩
        | some buf =>
          cases hs : stores buf (q_remove_head_writes e.value c) with
          | none =>
            refine Or.inr ⟨by simp only [q_remove_head, hq, hh, he, hs], buf, rfl, ?_⟩
            intro hgood
            rw [stores_remove e.value buf c hgood.1 hgood.2.1 hgood.2.2] at hs
            simp at hs
          | some buf1 =>
            exact Or.inl ⟨true,
              State.mk (some (queue_t.mk e.next q.tail (int_wrap (q.size - 1)))) (free st.mem a),
              some buf1, by simp only [q_remove_head, hq, hh, he, hs], r, hcr', by simp⟩

theorem q_reverse_progress (st : State) (l : List Nat) (fuel : Nat)
    (hc : Chain st.mem st.head l) (hf : l.length < fuel) :
    ∃ st', q_reverse fuel st = some st' ∧
      ∃ l', Chain st'.mem st'.head l' ∧ l'.length ≤ l.length := by
  obtain ⟨st', hr, hch, _⟩ := q_reverse_chain st l fuel hc hf
  refine ⟨st', hr, _, hch, ?_⟩
  by_cases h : st.size = 1
  · rw [if_pos h]
  · rw [if_neg h, List.length_reverse]

theorem q_sort_progress (st : State) (l : List Nat) (fuel : Nat)
    (hc : Chain st.mem st.head l) (hf : l.length + 2 ≤ fuel) :
    ∃ st', q_sort fuel st = some st' ∧
      ∃ l', Chain st'.mem st'.head l' ∧ l'.length ≤ l.length := by
  by_cases h1 : st.size = 1
  · exact ⟨st, q_sort_size_one st fuel h1, l, hc, le_refl _⟩
  · obtain ⟨st', hs, hch, _⟩ := q_sort_chain st l fuel hc (fun h => absurd h h1) hf
    exact ⟨st', hs, _, hch, by rw [(msortL_perm_self _ l).length_eq]⟩

/-- One call on a state whose chain from head has at most `k` elements, with
fuel for `k` elements: the call returns and leaves a chain of at most `k + 1`
elements, or it is one of the two calls without defined behaviour. -/
theorem step_progress (st : State) (k fuel : Nat) (op : Op)
    (hinv : ∃ l, Chain st.mem st.head l ∧ l.length ≤ k) (hf : k + 2 ≤ fuel) :
    (∃ st' r, step fuel st op = some (st', r) ∧
      ∃ l', Chain st'.mem st'.head l' ∧ l'.length ≤ k + 1) ∨
    (step fuel st op = none ∧ Stuck st op) := by
  obtain ⟨l, hc, hl⟩ := hinv
  cases op with
  | insert_head s node str =>
    obtain ⟨b, st', hi, l', hc', hl'⟩ := q_insert_head_progress st l s node str hc
    exact Or.inl ⟨st', _, by simp only [step, hi]; rfl, l', hc', by omega⟩
  | insert_tail s node str =>
    rcases q_insert_tail_progress st l s node str hc with ⟨b, st', hi, l', hc', hl'⟩ | ⟨hi, h1, h2⟩
    · exact Or.inl ⟨st', _, by simp only [step, hi]; rfl, l', hc', by omega⟩
    · exact Or.inr ⟨by simp only [step, hi], h1, h2⟩
  | remove_head sp c =>
    rcases q_remove_head_progress st l sp c hc with
      ⟨b, st', sp', hi, l', hc', hl'⟩ | ⟨hi, buf, hsp, hbad⟩
    · exact Or.inl ⟨st', _, by simp only [step, hi]; rfl, l', hc', by omega⟩
    · subst hsp
      exact Or.inr ⟨by simp only [step, hi], hbad⟩
  | reverse =>
    obtain ⟨st', hi, l', hc', hl'⟩ := q_reverse_progress st l fuel hc (by omega)
    exact Or.inl ⟨st', _, by simp only [step, hi]; rfl, l', hc', by omega⟩
  | sort =>
    obtain ⟨st', hi, l', hc', hl'⟩ := q_sort_progress st l fuel hc (by omega)
    exact Or.inl ⟨st', _, by simp only [step, hi]; rfl, l', hc', by omega⟩

/-- A run with enough fuel stops before its end only at one of the two calls
without defined behaviour. -/
theorem run_progress (ops : List Op) :
    ∀ (st : State) (k fuel : Nat), (∃ l, Chain st.mem st.head l ∧ l.length ≤ k) →
      k + ops.length + 2 ≤ fuel → run fuel st ops = none →
      ∃ pre op post stk retsk, ops = pre ++ op :: post ∧
        run fuel st pre = some (stk, retsk) ∧ step fuel stk op = none ∧ Stuck stk op := by
  induction ops with
  | nil =>
    intro st k fuel _ _ h
    simp [run] at h
  | cons op rest ih =>
    intro st k fuel hinv hf h
    simp only [List.length_cons] at hf
    rcases step_progress st k fuel op hinv (by omega) with ⟨st', r, hs, hinv'⟩ | ⟨hs, hstuck⟩
    · have hrest : run fuel st' rest = none := by
        simp only [run, hs] at h
        cases hr : run fuel st' rest with
        | none => rfl
        | some p => simp [hr] at h
      obtain ⟨pre, op', post, stk, retsk, hops, hpre, hst, hstuck⟩ :=
        ih st' (k + 1) fuel hinv' (by omega) hrest
      refine ⟨op :: pre, op', post, stk, r :: retsk, by rw [hops]; rfl, ?_, hst, hstuck⟩
      simp only [run, hs, hpre]
    · exact ⟨[], op, rest, st, [], rfl, by simp [run], hs, hstuck⟩

end LabQueue

namespace LabQueue

/-! ## The claims on `q_sort` -/

/-- C1, counterexample: the header `mis_sized` has the chain "b", "a" from
head, a finite acyclic chain of two elements, under a `size` field of 1.
`q_sort` tests `q->size == 1` and returns at once, whatever the fuel: the
state is unchanged and the strings read from head are still "b", "a", where
"b" is above its successor "a" by `strcmp`. -/
theorem q_sort_skips_size_one :
    Chain mis_sized.mem mis_sized.head [1, 2] ∧
    (∀ fuel, q_sort fuel mis_sized = some mis_sized) ∧
    values mis_sized.mem [1, 2] = [[98], [97]] ∧ 0 < strcmp [98] [97] ∧
    ¬ (values mis_sized.mem [1, 2]).Chain' StrLe :=
  ⟨elements_chain _ _ _ 3 (by decide), fun _ => rfl, by decide, by decide,
    fun h => absurd (List.chain'_pair.mp (show List.Chain' StrLe [[98], [97]] from h))
      (show ¬ strcmp [98] [97] ≤ 0 by decide)⟩

/-- C1, amended: on every queue whose elements form a finite acyclic chain
from head and whose `size` is 1 only when that chain has at most one element,
`q_sort` returns, and the strings read from head along the next-links are
then non-decreasing by `strcmp`: every string is at most its successor, and
at most every later string.  Consequently `k` successive `q_remove_head`
calls after it, with a buffer larger than every string, all return `true` and
yield the first `k` strings of that non-decreasing sequence. -/
theorem q_sort_sorted (st : State) (l : List Nat) (fuel : Nat)
    (hc : Chain st.mem st.head l) (hsz : q_size st = 1 → l.length ≤ 1)
    (hf : l.length + 2 ≤ fuel) :
    ∃ st' l', q_sort fuel st = some st' ∧ Chain st'.mem st'.head l' ∧
      (values st'.mem l').Chain' StrLe ∧ (values st'.mem l').Pairwise StrLe ∧
      ∀ (k : Nat) (buf : List Nat) (c : Nat), k ≤ l'.length → 1 ≤ c → c < SIZE_MOD →
        c ≤ buf.length → (∀ v ∈ values st'.mem l', IsCString v ∧ v.length < c) →
        ∃ st'' rets, run fuel st' (remove_head_calls k buf c) = some (st'', rets) ∧
          rets.map Ret.seen = ((values st'.mem l').take k).map (fun v => (true, some v)) ∧
          ((values st'.mem l').take k).Pairwise StrLe := by
  obtain ⟨st', hs, hch, hsv, _, _, _, _, _⟩ := q_sort_chain st l fuel hc (fun h => hsz (q_size_one st h)) hf
  have hv := sameValues_valueAt _ _ hsv
  have hsorted : (values st'.mem (msortL (valueAt st.mem) l)).Pairwise StrLe := by
    unfold values
    rw [List.pairwise_map, hv]
    exact msortL_sorted (valueAt st.mem) _ l (le_refl _)
  refine ⟨st', msortL (valueAt st.mem) l, hs, hch, hsorted.chain', hsorted, ?_⟩
  intro k buf c hk hc1 hc2 hbuf hvals
  obtain ⟨st'', hrun, _, _, _, _⟩ :=
    run_remove_heads k st' (msortL (valueAt st.mem) l) fuel buf c hch hk hc1 hc2 hbuf
  refine ⟨st'', _, hrun, ?_, hsorted.sublist (List.take_sublist _ _)⟩
  unfold values
  rw [← List.map_take, List.map_map, List.map_map]
  apply List.map_congr_left
  intro a ha
  have hmem : valueAt st'.mem a ∈ values st'.mem (msortL (valueAt st.mem) l) :=
    List.mem_map_of_mem _ (List.mem_of_mem_take ha)
  obtain ⟨hcs, hlen⟩ := hvals _ hmem
  simp only [Function.comp]
  rw [seen_remove _ buf c hcs, List.take_of_length_le (by omega)]

/-- C1, witness: the queue banana, apple, cherry is a chain of three elements
with `size` 3; the theorem applies to it, and the scenario of the spec runs to
the strings apple, banana, cherry. -/
theorem q_sort_sorted_witness :
    Chain fruit.mem fruit.head [1, 2, 3] ∧ (q_size fruit = 1 → [1, 2, 3].length ≤ 1) ∧
    [1, 2, 3].length + 2 ≤ 5 ∧
    (∃ st' l', q_sort 5 fruit = some st' ∧ Chain st'.mem st'.head l' ∧
      (values st'.mem l').Chain' StrLe ∧ (values st'.mem l').Pairwise StrLe ∧
      ∀ (k : Nat) (buf : List Nat) (c : Nat), k ≤ l'.length → 1 ≤ c → c < SIZE_MOD →
        c ≤ buf.length → (∀ v ∈ values st'.mem l', IsCString v ∧ v.length < c) →
        ∃ st'' rets, run 5 st' (remove_head_calls k buf c) = some (st'', rets) ∧
          rets.map Ret.seen = ((values st'.mem l').take k).map (fun v => (true, some v)) ∧
          ((values st'.mem l').take k).Pairwise StrLe) ∧
    (run 5 fresh fruit_calls).map (fun r => (r.2.drop 4).map Ret.seen) =
      some [(true, some apple), (true, some banana), (true, some cherry)] :=
  ⟨elements_chain _ _ _ 4 (by decide), by decide, by decide,
    q_sort_sorted fruit [1, 2, 3] 5 (elements_chain _ _ _ 4 (by decide)) (by decide)
      (by decide), by decide⟩

/-- C2: on every queue whose elements form a finite acyclic chain from head,
`q_sort` returns, and the elements then reachable from head are a permutation
of those reachable before: the same addresses, each once, each with the string
it had; no cell of the heap is created or destroyed, and `size` is
unchanged. -/
theorem q_sort_perm (st : State) (l : List Nat) (fuel : Nat)
    (hc : Chain st.mem st.head l) (hf : l.length + 2 ≤ fuel) :
    ∃ st' l', q_sort fuel st = some st' ∧ Chain st'.mem st'.head l' ∧
      l'.Perm l ∧ l'.Nodup ∧ (∀ a ∈ l, valueAt st'.mem a = valueAt st.mem a) ∧
      (values st'.mem l').Perm (values st.mem l) ∧ SameValues st.mem st'.mem ∧
      q_size st' = q_size st := by
  by_cases h1 : st.size = 1
  · exact ⟨st, l, q_sort_size_one st fuel h1, hc, List.Perm.refl l, chain_nodup _ _ _ hc,
      fun _ _ => rfl, List.Perm.refl _, sameValues_refl _, rfl⟩
  · obtain ⟨st', hs, hch, hsv, hsize, _, _, _, _⟩ :=
      q_sort_chain st l fuel hc (fun h => absurd h h1) hf
    have hv := sameValues_valueAt _ _ hsv
    have hperm := msortL_perm_self (valueAt st.mem) l
    refine ⟨st', _, hs, hch, hperm, chain_nodup _ _ _ hch, fun a _ => by rw [hv], ?_, hsv,
      hsize⟩
    unfold values
    rw [hv]
    exact hperm.map _

/-- C2, witness: the theorem at the queue banana, apple, cherry. -/
theorem q_sort_perm_witness :
    Chain fruit.mem fruit.head [1, 2, 3] ∧ [1, 2, 3].length + 2 ≤ 5 ∧
    (∃ st' l', q_sort 5 fruit = some st' ∧ Chain st'.mem st'.head l' ∧
      l'.Perm [1, 2, 3] ∧ l'.Nodup ∧ (∀ a ∈ [1, 2, 3], valueAt st'.mem a = valueAt fruit.mem a) ∧
      (values st'.mem l').Perm (values fruit.mem [1, 2, 3]) ∧ SameValues fruit.mem st'.mem ∧
      q_size st' = q_size fruit) ∧
    (q_sort 5 fruit).map (fun s => (elements 4 s.mem s.head, q_size s)) =
      some (some [2, 1, 3], 3) :=
  ⟨elements_chain _ _ _ 4 (by decide), by decide,
    q_sort_perm fruit [1, 2, 3] 5 (elements_chain _ _ _ 4 (by decide)) (by decide), by decide⟩

/-- C3, counterexample: in the queue `twins`, which two `q_insert_tail` calls
build from a fresh queue, the element at address 1 precedes the element at
address 2 and both hold the same string; after `q_sort` the element at 2
precedes the element at 1.  And `merge` of the one-element lists
at 1 and at 2, whose heads compare equal, returns the element of the second
list first. -/
theorem q_sort_not_stable :
    elements 3 twins.mem twins.head = some [1, 2] ∧
    valueAt twins.mem 1 = valueAt twins.mem 2 ∧
    (q_sort 4 twins).map (fun s => elements 3 s.mem s.head) = some (some [2, 1]) ∧
    (run 4 fresh twins_calls).map (fun r => elements 3 r.1.mem r.1.head) =
      some (some [1, 2]) ∧
    (run 4 fresh (twins_calls ++ [Op.sort])).map (fun r => elements 3 r.1.mem r.1.head) =
      some (some [2, 1]) ∧
    strcmp (valueAt twins_apart 1) (valueAt twins_apart 2) = 0 ∧
    (merge 3 twins_apart (some 1) (some 2)).map (fun r => (r.2, elements 3 r.1 r.2)) =
      some (some 2, some [2, 1]) := by
  decide

/-- C3, amended: `q_sort` reverses the relative order of elements that hold
equal strings: on every queue whose elements form a finite acyclic chain from
head (a `size` of 1 being truthful), if `a` precedes `b` before `q_sort` and
both hold the same string, then `b` precedes `a` after it.  In `merge`, when
the heads of the two lists compare equal, the element of the second list is
taken first, the merge going on with the whole first list and the rest of the
second. -/
theorem q_sort_reverses_equal (st : State) (l : List Nat) (fuel : Nat)
    (hc : Chain st.mem st.head l) (hsz : q_size st = 1 → l.length ≤ 1)
    (hf : l.length + 2 ≤ fuel) :
    (∃ st' l', q_sort fuel st = some st' ∧ Chain st'.mem st'.head l' ∧
      ∀ a b, valueAt st.mem a = valueAt st.mem b → List.Sublist [a, b] l →
        List.Sublist [b, a] l' ∧ valueAt st'.mem a = valueAt st'.mem b) ∧
    (∀ (m : Heap) (a b : Nat) (r1 r2 : List Nat) (fuel2 : Nat),
      Chain m (some a) (a :: r1) → Chain m (some b) (b :: r2) →
      (∀ x ∈ a :: r1, x ∉ b :: r2) → strcmp (valueAt m a) (valueAt m b) = 0 →
      (a :: r1).length + (b :: r2).length < fuel2 →
      ∃ m', merge fuel2 m (some a) (some b) = some (m', some b) ∧
        Chain m' (some b) (b :: mergeL (valueAt m) (a :: r1) r2) ∧ SameValues m m') := by
  constructor
  · obtain ⟨st', hs, hch, hsv, _, _, _, _, _⟩ := q_sort_chain st l fuel hc (fun h => hsz (q_size_one st h)) hf
    have hv := sameValues_valueAt _ _ hsv
    refine ⟨st', _, hs, hch, ?_⟩
    intro a b hab hsub
    refine ⟨?_, by rw [hv]; exact hab⟩
    have hf1 := msortL_filter (valueAt st.mem) (valueAt st.mem a) l.length l (le_refl _)
    have h1 : List.Sublist ([a, b].filter (fun x => decide (valueAt st.mem x = valueAt st.mem a)))
        (l.filter (fun x => decide (valueAt st.mem x = valueAt st.mem a))) := hsub.filter _
    have h2 : [a, b].filter (fun x => decide (valueAt st.mem x = valueAt st.mem a)) = [a, b] := by
      simp [List.filter_cons, hab]
    rw [h2] at h1
    have h3 := List.reverse_sublist.mpr h1
    rw [← hf1] at h3
    exact h3.trans (List.filter_sublist _)
  · intro m a b r1 r2 fuel2 hc1 hc2 hdisj heq hfuel
    obtain ⟨m', p', hm, hch, hsv, _⟩ := merge_spec m (some a) (some b) _ _ fuel2 hc1 hc2 hdisj hfuel
    rw [mergeL_cons_ge _ a b r1 r2 (by omega)] at hch
    have hp := hch
    rw [chain_cons] at hp
    rw [hp.1] at hm hch
    exact ⟨m', hm, hch, hsv⟩

/-- C3, witness: the amended theorem at the queue `twins`, where the element
at 1 precedes the element at 2 and both hold the same string. -/
theorem q_sort_reverses_equal_witness :
    Chain twins.mem twins.head [1, 2] ∧ (q_size twins = 1 → [1, 2].length ≤ 1) ∧
    [1, 2].length + 2 ≤ 4 ∧
    ((∃ st' l', q_sort 4 twins = some st' ∧ Chain st'.mem st'.head l' ∧
      ∀ a b, valueAt twins.mem a = valueAt twins.mem b → List.Sublist [a, b] [1, 2] →
        List.Sublist [b, a] l' ∧ valueAt st'.mem a = valueAt st'.mem b) ∧
    (∀ (m : Heap) (a b : Nat) (r1 r2 : List Nat) (fuel2 : Nat),
      Chain m (some a) (a :: r1) → Chain m (some b) (b :: r2) →
      (∀ x ∈ a :: r1, x ∉ b :: r2) → strcmp (valueAt m a) (valueAt m b) = 0 →
      (a :: r1).length + (b :: r2).length < fuel2 →
      ∃ m', merge fuel2 m (some a) (some b) = some (m', some b) ∧
        Chain m' (some b) (b :: mergeL (valueAt m) (a :: r1) r2) ∧ SameValues m m')) :=
  ⟨elements_chain _ _ _ 3 (by decide), by decide, by decide,
    q_sort_reverses_equal twins [1, 2] 4 (elements_chain _ _ _ 3 (by decide)) (by decide)
      (by decide)⟩

end LabQueue

namespace LabQueue

/-! ## The claims on the size, on removal and on insertion -/

/-- C4, the code at a failing run: with every allocation succeeding, the run
`reuse_calls` from a fresh queue ends with `size` 3, which `q_size` returns,
while the walk from head meets the two elements at 1 and 3 only; the element
"b" at 2 is lost because `tail` still held the address freed by
`q_remove_head` when `malloc` handed it out again.  With fresh addresses
only (`stale_calls`) the last `q_insert_tail` writes through the freed
address, which has no defined behaviour. -/
theorem size_differs_from_chain :
    (run 1 fresh reuse_calls).map
        (fun r => (r.2.map Ret.ok, q_size r.1, elements 5 r.1.mem r.1.head)) =
      some ([true, true, true, true, true], 3, some [1, 3]) ∧
    (run 1 fresh stale_calls).isNone = true ∧
    (run 1 fresh (stale_calls.take 3)).map (fun r => (r.1.q, r.1.mem 1)) =
      some (some (queue_t.mk (some 2) (some 1) 1), none) := by
  decide

/-- C5, the code at a failing input: the queue `single` satisfies the
data-model invariants with its one element at address 1; `q_remove_head`
returns `true`, sets head to `NULL` and size to 0 and frees the element, but
`tail` still holds the freed address 1. -/
theorem q_remove_head_keeps_tail :
    WellFormed single [1] ∧
    (q_remove_head single none 0).map (fun r => (r.1, r.2.1.q, r.2.1.mem 1)) =
      some (true, some (queue_t.mk none (some 1) 0), none) :=
  ⟨⟨_, rfl, elements_chain _ _ _ 2 (by decide), by decide, by decide⟩, by decide⟩

/-- C6, the code at a failing input: a fresh queue receives "a" at address 1
and is emptied again by `q_remove_head`; the next `q_insert_head`, of "b" at
address 2, returns `true` and leaves size 1 and head at the new element 2, but
`tail` at the freed address 1.  On the fresh queue itself the same call leaves
head and tail at the new element. -/
theorem q_insert_head_after_emptying :
    (run 1 fresh refill_calls).map
        (fun r => (r.2.map Ret.ok, r.1.q, r.1.mem 1, r.1.mem 2)) =
      some ([true, true, true], some (queue_t.mk (some 2) (some 1) 1), none,
        some (list_ele_t.mk [98] none)) ∧
    (q_insert_head fresh [98] (some 2) true).map (fun r => (r.1, r.2.q, r.2.mem 2)) =
      some (true, some (queue_t.mk (some 2) (some 2) 1), some (list_ele_t.mk [98] none)) := by
  decide

/-- C7, counterexample: 2147483648 calls `q_insert_tail(q, "")` on a fresh
queue, each granted at a fresh address, all return `true`; the `int` that
`q_size` then returns is -2147483648, which is not the number of strings
inserted. -/
theorem insert_tail_size_wraps :
    ∃ st rets, run 1 fresh (insert_tail_calls (many_calls 2147483648)) = some (st, rets) ∧
      (∀ r ∈ rets, r.ok = true) ∧ q_size st = -2147483648 ∧
      q_size st ≠ ((many_calls 2147483648).length : Int) := by
  obtain ⟨st, rets, hrun, hall, hsz⟩ := run_many_calls 2147483648 1
  have hw : int_wrap ((2147483648 : Nat) : Int) = -2147483648 := by decide
  rw [hw] at hsz
  refine ⟨st, rets, hrun, hall, hsz, ?_⟩
  rw [hsz, many_calls_length]
  decide

/-- C7, amended: from a fresh queue, a run of `q_insert_tail` calls returns;
if every call returned `true`, `size` is the number of strings when that
number is at most 2147483647, and in general that number reduced to the range
of `int`; and then `k` successive `q_remove_head` calls, `k` at most the
number of strings, with a buffer larger than every string, all return `true`
and yield the first `k` strings in the order of their insertion. -/
theorem insert_tail_fifo (calls : List (List Nat × Option Nat × Bool)) (m0 : Heap)
    (fuel : Nat) :
    ∃ st rets, run fuel (q_new m0 true) (insert_tail_calls calls) = some (st, rets) ∧
      ((∀ r ∈ rets, r.ok = true) →
        (calls.length ≤ 2147483647 → q_size st = (calls.length : Int)) ∧
        q_size st = int_wrap (calls.length : Int) ∧
        ∀ (k : Nat) (buf : List Nat) (c : Nat), k ≤ calls.length → 1 ≤ c → c < SIZE_MOD →
          c ≤ buf.length → (∀ s ∈ calls.map (fun x => x.1), IsCString s ∧ s.length < c) →
          ∃ st' rets', run fuel st (remove_head_calls k buf c) = some (st', rets') ∧
            rets'.map Ret.seen =
              ((calls.map (fun x => x.1)).take k).map (fun s => (true, some s))) := by
  obtain ⟨st, rets, hrun, hok⟩ :=
    run_insert_tails calls (q_new m0 true) [] fuel (linked_new m0)
  refine ⟨st, rets, hrun, ?_⟩
  intro hall
  obtain ⟨l2, hlen, hwf, hvals, hsz⟩ := hok hall
  obtain ⟨q, hq, hch, _⟩ := hwf
  rw [List.nil_append] at hch hvals
  have hvals' : values st.mem l2 = calls.map (fun x => x.1) := by
    rw [hvals]; simp [values]
  have h0 : (q_new m0 true).size = 0 := rfl
  rw [h0, Int.zero_add] at hsz
  refine ⟨fun hle => by rw [hsz]; exact int_wrap_small _ (by omega) (by omega), hsz, ?_⟩
  intro k buf c hk hc1 hc2 hbuf hstr
  rw [← head_present st q hq] at hch
  obtain ⟨st', hrm, _, _, _, _⟩ :=
    run_remove_heads k st l2 fuel buf c hch (by omega) hc1 hc2 hbuf
  refine ⟨st', _, hrm, ?_⟩
  rw [← hvals']
  unfold values
  rw [← List.map_take, List.map_map, List.map_map]
  apply List.map_congr_left
  intro a ha
  have hmem : valueAt st.mem a ∈ calls.map (fun x => x.1) := by
    rw [← hvals']
    exact List.mem_map_of_mem _ (List.mem_of_mem_take ha)
  obtain ⟨hcs, hl⟩ := hstr _ hmem
  simp only [Function.comp]
  rw [seen_remove _ buf c hcs, List.take_of_length_le (by omega)]

/-- C7, witness: the scenario of the spec.  "a", "b", "c" inserted at the
tail of a fresh queue give the queue `abc` of size 3, every call returning
`true`; two removals with a buffer of 2 bytes yield "a" then "b". -/
theorem insert_tail_fifo_witness :
    (run 1 fresh (insert_tail_calls abc_calls)).map (fun r => (r.2.map Ret.ok, q_size r.1)) =
      some ([true, true, true], 3) ∧
    (run 1 fresh (insert_tail_calls abc_calls ++ remove_head_calls 2 [0, 0] 2)).map
        (fun r => (r.2.drop 3).map Ret.seen) =
      some [(true, some [97]), (true, some [98])] ∧
    ∃ st rets, run 1 fresh (insert_tail_calls abc_calls) = some (st, rets) ∧
      ((∀ r ∈ rets, r.ok = true) →
        (abc_calls.length ≤ 2147483647 → q_size st = (abc_calls.length : Int)) ∧
        q_size st = int_wrap (abc_calls.length : Int) ∧
        ∀ (k : Nat) (buf : List Nat) (c : Nat), k ≤ abc_calls.length → 1 ≤ c → c < SIZE_MOD →
          c ≤ buf.length → (∀ s ∈ abc_calls.map (fun x => x.1), IsCString s ∧ s.length < c) →
          ∃ st' rets', run 1 st (remove_head_calls k buf c) = some (st', rets') ∧
            rets'.map Ret.seen =
              ((abc_calls.map (fun x => x.1)).take k).map (fun s => (true, some s))) :=
  ⟨by decide, by decide, insert_tail_fifo abc_calls emptyHeap 1⟩

/-- C8: on every present queue, in any state, if `q_insert_head(q, s)` returns
`true` then an immediately following `q_remove_head` with a buffer of capacity
above the length of `s` returns `true` and leaves exactly `s` in the buffer;
`size`, `head`, the whole heap of elements, and so the sequence of elements
reachable from head, are as before the insertion. -/
theorem insert_head_remove_head (st st1 : State) (s : List Nat) (node : Option Nat)
    (str : Bool) (buf : List Nat) (c : Nat)
    (hins : q_insert_head st s node str = some (true, st1)) (hs : IsCString s)
    (hc : s.length < c) (hc2 : c < SIZE_MOD) (hbuf : c ≤ buf.length) :
    ∃ st2 buf', q_remove_head st1 (some buf) c = some (true, st2, some buf') ∧
      cstring buf' = s ∧ q_size st2 = q_size st ∧ st2.head = st.head ∧ st2.mem = st.mem ∧
      ∀ fuel, elements fuel st2.mem st2.head = elements fuel st.mem st.head := by
  cases hq : st.q with
  | none => simp [q_insert_head, hq] at hins
  | some q =>
    obtain ⟨a, _, hfree, hst1⟩ := q_insert_head_true st st1 q s node str hq hins
    subst hst1
    have hrm := q_remove_head_live
      (State.mk (some (queue_t.mk (some a)
        (match q.tail with
          | none => some a
          | some t => some t) (int_wrap (q.size + 1))))
        (setCell st.mem a (some (list_ele_t.mk s q.head))))
      (queue_t.mk (some a)
        (match q.tail with
          | none => some a
          | some t => some t) (int_wrap (q.size + 1)))
      a (list_ele_t.mk s q.head) buf c rfl rfl
      (setCell_same st.mem a _) (by omega) hc2 hbuf
    have hmem : free (setCell st.mem a (some (list_ele_t.mk s q.head))) a = st.mem :=
      free_setCell st.mem a _ hfree
    refine ⟨_, _, hrm, ?_, ?_, ?_, hmem, ?_⟩
    · rw [cstring_remove s (buf.drop c) c hs, List.take_of_length_le (by omega)]
    · simp only [q_size, hq]
      rw [int_wrap_idem, int_wrap_sub]
      congr 1
      omega
    · simp [State.head, hq]
    · intro fuel
      simp only [State.head, hq]
      rw [hmem]

/-- C8, witness: "hello" is inserted at the head of the queue `abc` at the
fresh address 7 and removed at once with a buffer of 6 bytes. -/
theorem insert_head_remove_head_witness :
    q_insert_head abc hello (some 7) true =
      some (true, State.mk (some (queue_t.mk (some 7) (some 3) 4))
        (setCell abc.mem 7 (some (list_ele_t.mk hello (some 1))))) ∧
    IsCString hello ∧ hello.length < 6 ∧ 6 < SIZE_MOD ∧ 6 ≤ (List.replicate 6 9).length ∧
    ∃ st2 buf', q_remove_head (State.mk (some (queue_t.mk (some 7) (some 3) 4))
        (setCell abc.mem 7 (some (list_ele_t.mk hello (some 1))))) (some (List.replicate 6 9)) 6 =
        some (true, st2, some buf') ∧
      cstring buf' = hello ∧ q_size st2 = q_size abc ∧ st2.head = abc.head ∧
      st2.mem = abc.mem ∧
      ∀ fuel, elements fuel st2.mem st2.head = elements fuel abc.mem abc.head :=
  ⟨rfl, by decide, by decide, by decide, by decide,
    insert_head_remove_head abc _ hello (some 7) true (List.replicate 6 9) 6 rfl (by decide)
      (by decide) (by decide) (by decide)⟩

/-- C9: on every queue whose head is an element holding the C string `v`, and
for every provided buffer of capacity `c ≥ 1`, `q_remove_head` returns `true`,
also when `v` is longer than `c - 1`, and the C string then held in the buffer
is exactly the first `min (length v) (c - 1)` bytes of `v`. -/
theorem q_remove_head_truncates (st : State) (q : queue_t) (a : Nat) (e : list_ele_t)
    (buf : List Nat) (c : Nat) (hq : st.q = some q) (hh : q.head = some a)
    (he : st.mem a = some e) (hv : IsCString e.value) (hc1 : 1 ≤ c) (hc2 : c < SIZE_MOD)
    (hbuf : c ≤ buf.length) :
    ∃ st' buf', q_remove_head st (some buf) c = some (true, st', some buf') ∧
      cstring buf' = e.value.take (min e.value.length (c - 1)) := by
  refine ⟨_, _, q_remove_head_live st q a e buf c hq hh he hc1 hc2 hbuf, ?_⟩
  rw [cstring_remove e.value (buf.drop c) c hv]
  by_cases hl : e.value.length ≤ c - 1
  · rw [Nat.min_eq_left hl, List.take_of_length_le hl, List.take_of_length_le (le_refl _)]
  · rw [Nat.min_eq_right (by omega)]

/-- C9, witness: the scenario of the spec.  The queue `single` holds "hello";
`q_remove_head` with a buffer of capacity 3 returns `true` and leaves "he". -/
theorem q_remove_head_truncates_witness :
    single.q = some (queue_t.mk (some 1) (some 1) 1) ∧
    single.mem 1 = some (list_ele_t.mk hello none) ∧ IsCString hello ∧ 1 ≤ 3 ∧ 3 < SIZE_MOD ∧
    3 ≤ [9, 9, 9].length ∧
    (∃ st' buf', q_remove_head single (some [9, 9, 9]) 3 = some (true, st', some buf') ∧
      cstring buf' = hello.take (min hello.length (3 - 1))) ∧
    (q_remove_head single (some [9, 9, 9]) 3).map (fun r => (r.1, r.2.2.map cstring)) =
      some (true, some [104, 101]) :=
  ⟨rfl, rfl, by decide, by decide, by decide, by decide,
    q_remove_head_truncates single (queue_t.mk (some 1) (some 1) 1) 1
      (list_ele_t.mk hello none) [9, 9, 9] 3 rfl rfl rfl (by decide) (by decide) (by decide)
      (by decide), by decide⟩

end LabQueue

namespace LabQueue

/-! ## The claim on `q_reverse` -/

/-- C10: on every queue that satisfies the data-model invariants with the
element sequence `l`, `q_reverse` returns; the sequence reachable from head is
then `l` reversed, head references the former tail element, tail references
the former head element and its next-link is `NULL`, `size` and every string
are unchanged, and the invariants hold again; with no or one element nothing
changes.  On an absent queue nothing changes either. -/
theorem q_reverse_reverses (st : State) (l : List Nat) (fuel : Nat) (hwf : WellFormed st l)
    (hf : l.length < fuel) :
    (∃ st', q_reverse fuel st = some st' ∧ Chain st'.mem st'.head l.reverse ∧
      st'.head = st.tail ∧ st'.tail = st.head ∧
      (∀ t, st'.tail = some t → getNext st'.mem t = some none) ∧
      q_size st' = q_size st ∧ (∀ a, valueAt st'.mem a = valueAt st.mem a) ∧
      SameValues st.mem st'.mem ∧ WellFormed st' l.reverse ∧ (l.length ≤ 1 → st' = st)) ∧
    (∀ m : Heap, q_reverse fuel (State.mk none m) = some (State.mk none m)) := by
  constructor
  · obtain ⟨st', hrev, hwf', hsv, _, hsmall⟩ := q_reverse_spec st l fuel hwf hf
    obtain ⟨q, hq, hc, hsz, htl⟩ := hwf
    obtain ⟨q', hq', hc', hsz', htl'⟩ := hwf'
    have hh : st.head = l.head? := by rw [head_present st q hq]; exact chain_head _ _ _ hc
    have hh' : st'.head = l.reverse.head? := by
      rw [head_present st' q' hq']; exact chain_head _ _ _ hc'
    have ht' : st'.tail = l.reverse.getLast? := by rw [tail_present st' q' hq']; exact htl'
    refine ⟨st', hrev, by rw [head_present st' q' hq']; exact hc', ?_, ?_, ?_, ?_, ?_, hsv,
      ⟨q', hq', hc', hsz', htl'⟩, hsmall⟩
    · rw [hh', tail_present st q hq, htl, List.head?_reverse]
    · rw [ht', hh, List.getLast?_reverse]
    · intro t ht
      rw [ht'] at ht
      exact chain_last_next _ _ _ t hc' ht
    · rw [q_size_present st' q' hq', q_size_present st q hq, hsz', hsz, List.length_reverse]
    · intro a
      rw [sameValues_valueAt _ _ hsv]
  · intro m
    simp [q_reverse]

/-- C10, witness: the queue `abc` satisfies the invariants with the elements
1, 2, 3; `q_reverse` leaves head at 3, tail at 1, size 3 and the sequence
3, 2, 1. -/
theorem q_reverse_reverses_witness :
    WellFormed abc [1, 2, 3] ∧ [1, 2, 3].length < 4 ∧
    ((∃ st', q_reverse 4 abc = some st' ∧ Chain st'.mem st'.head [1, 2, 3].reverse ∧
      st'.head = abc.tail ∧ st'.tail = abc.head ∧
      (∀ t, st'.tail = some t → getNext st'.mem t = some none) ∧
      q_size st' = q_size abc ∧ (∀ a, valueAt st'.mem a = valueAt abc.mem a) ∧
      SameValues abc.mem st'.mem ∧ WellFormed st' [1, 2, 3].reverse ∧
      ([1, 2, 3].length ≤ 1 → st' = abc)) ∧
    (∀ m : Heap, q_reverse 4 (State.mk none m) = some (State.mk none m))) ∧
    (q_reverse 4 abc).map (fun s => (s.q, elements 4 s.mem s.head, values s.mem [3, 2, 1])) =
      some (some (queue_t.mk (some 3) (some 1) 3), some [3, 2, 1], [[99], [98], [97]]) :=
  ⟨⟨_, rfl, elements_chain _ _ _ 4 (by decide), by decide, by decide⟩, by decide,
    q_reverse_reverses abc [1, 2, 3] 4
      ⟨_, rfl, elements_chain _ _ _ 4 (by decide), by decide, by decide⟩ (by decide),
    by decide⟩

end LabQueue

namespace LabQueue

/-! ## The algebraic claims on `q_reverse` and `q_sort` -/

/-- C11: on every queue whose elements form a finite acyclic chain from head,
the empty and the one-element queue and the absent queue included, two calls
of `q_reverse` return and give back the original order: the sequence of
elements reachable from head after the second call is the sequence before the
first, with the same strings, head and `size`. -/
theorem q_reverse_twice (st : State) (l : List Nat) (fuel : Nat)
    (hc : Chain st.mem st.head l) (hf : l.length < fuel) :
    ∃ st1 st2, q_reverse fuel st = some st1 ∧ q_reverse fuel st1 = some st2 ∧
      Chain st2.mem st2.head l ∧
      elements fuel st2.mem st2.head = elements fuel st.mem st.head ∧
      values st2.mem l = values st.mem l ∧ st2.head = st.head ∧ q_size st2 = q_size st := by
  obtain ⟨st1, hr1, hc1, hsv1, hsz1, _, _, hraw1⟩ := q_reverse_chain st l fuel hc hf
  have hlen : (if st.size = 1 then l else l.reverse).length < fuel := by
    by_cases h : st.size = 1
    · rw [if_pos h]; exact hf
    · rw [if_neg h, List.length_reverse]; exact hf
  obtain ⟨st2, hr2, hc2, hsv2, hsz2, _, _⟩ := q_reverse_chain st1 _ fuel hc1 hlen
  have hc2' : Chain st2.mem st2.head l := by
    rw [hraw1] at hc2
    by_cases h : st.size = 1
    · simpa [h] using hc2
    · simpa [h] using hc2
  refine ⟨st1, st2, hr1, hr2, hc2', ?_, ?_, ?_, by rw [hsz2, hsz1]⟩
  · rw [chain_elements _ _ _ hc2' fuel hf, chain_elements _ _ _ hc fuel hf]
  · rw [values_sameValues _ _ l hsv2, values_sameValues _ _ l hsv1]
  · rw [chain_head _ _ _ hc2', chain_head _ _ _ hc]

/-- C11, witness: the queue `abc`; the first `q_reverse` gives the sequence
3, 2, 1 and the second gives 1, 2, 3 back, with head 1, tail 3 and size 3. -/
theorem q_reverse_twice_witness :
    Chain abc.mem abc.head [1, 2, 3] ∧ [1, 2, 3].length < 4 ∧
    (∃ st1 st2, q_reverse 4 abc = some st1 ∧ q_reverse 4 st1 = some st2 ∧
      Chain st2.mem st2.head [1, 2, 3] ∧
      elements 4 st2.mem st2.head = elements 4 abc.mem abc.head ∧
      values st2.mem [1, 2, 3] = values abc.mem [1, 2, 3] ∧ st2.head = abc.head ∧
      q_size st2 = q_size abc) ∧
    (run 4 abc [Op.reverse]).map (fun r => elements 4 r.1.mem r.1.head) =
      some (some [3, 2, 1]) ∧
    (run 4 abc [Op.reverse, Op.reverse]).map
        (fun r => (r.1.q, elements 4 r.1.mem r.1.head, values r.1.mem [1, 2, 3])) =
      some (some (queue_t.mk (some 1) (some 3) 3), some [1, 2, 3], [[97], [98], [99]]) :=
  ⟨elements_chain _ _ _ 4 (by decide), by decide,
    q_reverse_twice abc [1, 2, 3] 4 (elements_chain _ _ _ 4 (by decide)) (by decide),
    by decide, by decide⟩

/-- C12: on every queue whose elements form a finite acyclic chain from head
and hold C strings, two calls of `q_sort` return, and the sequence of strings
reachable from head after the second call is the sequence after the first;
`size` is the same as well. -/
theorem q_sort_idempotent (st : State) (l : List Nat) (fuel : Nat)
    (hc : Chain st.mem st.head l) (hv : ∀ a ∈ l, IsCString (valueAt st.mem a))
    (hf : l.length + 2 ≤ fuel) :
    ∃ st1 st2 l1 l2, q_sort fuel st = some st1 ∧ q_sort fuel st1 = some st2 ∧
      Chain st1.mem st1.head l1 ∧ Chain st2.mem st2.head l2 ∧
      values st2.mem l2 = values st1.mem l1 ∧ q_size st2 = q_size st1 := by
  by_cases h1 : st.size = 1
  · have hs := q_sort_size_one st fuel h1
    exact ⟨st, st, l, l, hs, hs, hc, hc, rfl, rfl⟩
  · obtain ⟨st1, hs1, hc1, hsv1, hsz1, _, _, _, _, hraw1⟩ :=
      q_sort_chain st l fuel hc (fun h => absurd h h1) hf
    have hp1 := msortL_perm_self (valueAt st.mem) l
    have h1' : ¬ st1.size = 1 := by rw [hraw1]; exact h1
    obtain ⟨st2, hs2, hc2, hsv2, hsz2, _, _, _, _⟩ :=
      q_sort_chain st1 _ fuel hc1 (fun h => absurd h h1') (by rw [hp1.length_eq]; exact hf)
    refine ⟨st1, st2, _, _, hs1, hs2, hc1, hc2, ?_, hsz2⟩
    rw [values_sameValues _ _ _ hsv2]
    have hv1 := sameValues_valueAt _ _ hsv1
    refine sorted_strings_unique _ _ (values_msortL_perm st1.mem _) (values_msortL_sorted st1.mem _)
      ?_ ?_
    · rw [values_sameValues _ _ _ hsv1]
      exact values_msortL_sorted st.mem l
    · intro x hx
      have hx' := (values_msortL_perm st1.mem _).subset hx
      unfold values at hx'
      obtain ⟨a, ha, hax⟩ := List.mem_map.mp hx'
      rw [← hax, hv1]
      exact hv a (hp1.subset ha)

/-- C12, witness: the queue banana, apple, cherry; one `q_sort` and two
`q_sort` calls both leave apple, banana, cherry and size 3. -/
theorem q_sort_idempotent_witness :
    Chain fruit.mem fruit.head [1, 2, 3] ∧ (∀ a ∈ [1, 2, 3], IsCString (valueAt fruit.mem a)) ∧
    [1, 2, 3].length + 2 ≤ 5 ∧
    (∃ st1 st2 l1 l2, q_sort 5 fruit = some st1 ∧ q_sort 5 st1 = some st2 ∧
      Chain st1.mem st1.head l1 ∧ Chain st2.mem st2.head l2 ∧
      values st2.mem l2 = values st1.mem l1 ∧ q_size st2 = q_size st1) ∧
    (run 5 fruit [Op.sort]).map
        (fun r => ((elements 4 r.1.mem r.1.head).map (values r.1.mem), q_size r.1)) =
      some (some [apple, banana, cherry], 3) ∧
    (run 5 fruit [Op.sort, Op.sort]).map
        (fun r => ((elements 4 r.1.mem r.1.head).map (values r.1.mem), q_size r.1)) =
      some (some [apple, banana, cherry], 3) :=
  ⟨elements_chain _ _ _ 4 (by decide), by decide, by decide,
    q_sort_idempotent fruit [1, 2, 3] 5 (elements_chain _ _ _ 4 (by decide)) (by decide)
      (by decide), by decide, by decide⟩

/-- C20, counterexample: the header `mis_sized`, with the chain "b", "a" under
a `size` field of 1, and the queue `ab`, with the chain "a", "b" and `size`
2, hold the same multiset of strings.  `q_sort` returns at once on the first
and leaves "b", "a"; on the second it leaves "a", "b". -/
theorem q_sort_differs_at_size_one :
    Chain mis_sized.mem mis_sized.head [1, 2] ∧ Chain ab.mem ab.head [1, 2] ∧
    (values mis_sized.mem [1, 2]).Perm (values ab.mem [1, 2]) ∧
    (∀ fuel, q_sort fuel mis_sized = some mis_sized) ∧
    (q_sort 4 mis_sized).map (fun s => (elements 3 s.mem s.head).map (values s.mem)) =
      some (some [[98], [97]]) ∧
    (q_sort 4 ab).map (fun s => (elements 3 s.mem s.head).map (values s.mem)) =
      some (some [[97], [98]]) :=
  ⟨elements_chain _ _ _ 3 (by decide), elements_chain _ _ _ 3 (by decide), by decide,
    fun _ => rfl, by decide, by decide⟩

/-- C20, amended: for every two queues whose elements form finite acyclic
chains from head, each with a `size` that is 1 only when its chain has at
most one element, and which hold the same multiset of C strings, in any
order, `q_sort` returns on both and leaves them with the identical sequence of
strings from head to tail. -/
theorem q_sort_depends_on_multiset (sa sb : State) (la lb : List Nat) (fuel : Nat)
    (hca : Chain sa.mem sa.head la) (hcb : Chain sb.mem sb.head lb)
    (hperm : (values sa.mem la).Perm (values sb.mem lb))
    (hv : ∀ x ∈ values sa.mem la, IsCString x)
    (hsa : q_size sa = 1 → la.length ≤ 1) (hsb : q_size sb = 1 → lb.length ≤ 1)
    (hfa : la.length + 2 ≤ fuel) (hfb : lb.length + 2 ≤ fuel) :
    ∃ sa' sb' la' lb', q_sort fuel sa = some sa' ∧ q_sort fuel sb = some sb' ∧
      Chain sa'.mem sa'.head la' ∧ Chain sb'.mem sb'.head lb' ∧
      values sa'.mem la' = values sb'.mem lb' ∧ (values sa'.mem la').Pairwise StrLe := by
  obtain ⟨sa', hsa', hca', hsva, _, _, _, _, _⟩ := q_sort_chain sa la fuel hca
    (fun h => hsa (q_size_one sa h)) hfa
  obtain ⟨sb', hsb', hcb', hsvb, _, _, _, _, _⟩ := q_sort_chain sb lb fuel hcb
    (fun h => hsb (q_size_one sb h)) hfb
  have hsorted_a : (values sa'.mem (msortL (valueAt sa.mem) la)).Pairwise StrLe := by
    rw [values_sameValues _ _ _ hsva]
    exact values_msortL_sorted sa.mem la
  refine ⟨sa', sb', _, _, hsa', hsb', hca', hcb', ?_, hsorted_a⟩
  rw [values_sameValues _ _ _ hsva, values_sameValues _ _ _ hsvb]
  refine sorted_strings_unique _ _ ?_ (values_msortL_sorted sa.mem la)
    (values_msortL_sorted sb.mem lb) ?_
  · exact ((values_msortL_perm sa.mem la).trans hperm).trans (values_msortL_perm sb.mem lb).symm
  · intro x hx
    exact hv x ((values_msortL_perm sa.mem la).subset hx)

/-- C20, witness: the queue `abc` and the queue `cba`, which is what
`q_reverse` makes of `abc`; `q_sort` leaves both with "a", "b", "c". -/
theorem q_sort_depends_on_multiset_witness :
    Chain abc.mem abc.head [1, 2, 3] ∧ Chain cba.mem cba.head [3, 2, 1] ∧
    (values abc.mem [1, 2, 3]).Perm (values cba.mem [3, 2, 1]) ∧
    (∀ x ∈ values abc.mem [1, 2, 3], IsCString x) ∧
    (q_size abc = 1 → [1, 2, 3].length ≤ 1) ∧ (q_size cba = 1 → [3, 2, 1].length ≤ 1) ∧
    [1, 2, 3].length + 2 ≤ 5 ∧ [3, 2, 1].length + 2 ≤ 5 ∧
    (∃ sa' sb' la' lb', q_sort 5 abc = some sa' ∧ q_sort 5 cba = some sb' ∧
      Chain sa'.mem sa'.head la' ∧ Chain sb'.mem sb'.head lb' ∧
      values sa'.mem la' = values sb'.mem lb' ∧ (values sa'.mem la').Pairwise StrLe) ∧
    (q_reverse 4 abc).map (fun s => (s.q, [1, 2, 3].map s.mem)) =
      some (cba.q, [1, 2, 3].map cba.mem) ∧
    (q_sort 5 abc).map (fun s => (elements 4 s.mem s.head).map (values s.mem)) =
      some (some [[97], [98], [99]]) ∧
    (q_sort 5 cba).map (fun s => (elements 4 s.mem s.head).map (values s.mem)) =
      some (some [[97], [98], [99]]) :=
  ⟨elements_chain _ _ _ 4 (by decide), elements_chain _ _ _ 4 (by decide), by decide,
    by decide, by decide, by decide, by decide, by decide,
    q_sort_depends_on_multiset abc cba [1, 2, 3] [3, 2, 1] 5
      (elements_chain _ _ _ 4 (by decide)) (elements_chain _ _ _ 4 (by decide)) (by decide)
      (by decide) (by decide) (by decide) (by decide) (by decide),
    by decide, by decide, by decide⟩

end LabQueue

namespace LabQueue

/-! ## The claims on failure and on the size count -/

/-- C13, the code at a failing input: the run `refill_calls` from a fresh
queue, every call of which returns `true`, leaves the state `stale`: the queue
is present, "b" at address 2 is its only element, and `tail` holds the address
1 that `q_remove_head` freed.  `malloc` grants the fresh address 3 and the
string allocation succeeds, yet `q_insert_tail` does not return `true`: it
writes `q->tail->next` through the freed address and has no result.
`q_insert_head` in the same state returns `true`. -/
theorem q_insert_tail_through_freed_tail :
    (run 1 fresh refill_calls).map (fun r => (r.2.map Ret.ok, r.1.q, [1, 2, 3].map r.1.mem)) =
      some ([true, true, true], stale.q, [1, 2, 3].map stale.mem) ∧
    stale.q = some (queue_t.mk (some 2) (some 1) 1) ∧ stale.mem 1 = none ∧
    malloc stale.mem (some 3) = some 3 ∧
    (q_insert_tail stale [99] (some 3) true).isNone = true ∧
    (run 1 fresh (refill_calls ++ [Op.insert_tail [99] (some 3) true])).isNone = true ∧
    (q_insert_head stale [99] (some 3) true).map (fun r => (r.1, r.2.q)) =
      some (true, some (queue_t.mk (some 3) (some 1) 2)) := by
  decide

/-- Failed insertions are atomic: in every state, if the queue is absent, or
the allocation of the element fails, or it succeeds and the allocation of the
string fails, then `q_insert_head` and `q_insert_tail` return `false` and
leave the whole state, header and heap, exactly as it was.  When the queue is
present and both allocations succeed, `q_insert_head` returns `true`, and so
does `q_insert_tail` wherever its write `q->tail->next` is defined: on an
empty queue, and on a queue whose tail is a live element; in no state does it
return `false` then. -/
theorem insert_failure_atomic (st : State) (s : List Nat) (node : Option Nat) (str : Bool) :
    ((st.q = none ∨ malloc st.mem node = none ∨ str = false) →
      q_insert_head st s node str = some (false, st) ∧
      q_insert_tail st s node str = some (false, st)) ∧
    (st.q ≠ none → malloc st.mem node ≠ none → str = true →
      (∃ st', q_insert_head st s node str = some (true, st')) ∧
      ((st.head = none ∨ ∃ t e, st.tail = some t ∧ st.mem t = some e) →
        ∃ st', q_insert_tail st s node str = some (true, st')) ∧
      (∀ b st', q_insert_tail st s node str = some (b, st') → b = true)) := by
  constructor
  · intro h
    cases hq : st.q with
    | none => simp [q_insert_head, q_insert_tail, hq]
    | some q =>
      cases hm : malloc st.mem node with
      | none => simp [q_insert_head, q_insert_tail, hq, hm]
      | some a =>
        cases str with
        | false => simp [q_insert_head, q_insert_tail, hq, hm]
        | true =>
          rcases h with h | h | h
          · rw [hq] at h; simp at h
          · rw [hm] at h; simp at h
          · simp at h
  · intro hq hm hstr
    subst hstr
    cases hq' : st.q with
    | none => exact absurd hq' hq
    | some q =>
      cases hm' : malloc st.mem node with
      | none => exact absurd hm' hm
      | some a =>
        obtain ⟨_, hfree⟩ := malloc_some _ _ _ hm'
        refine ⟨⟨_, by simp only [q_insert_head, hq', hm', if_true]; rfl⟩, ?_, ?_⟩
        rotate_left
        · intro b st' hb
          simp only [q_insert_tail, hq', hm', if_true] at hb
          cases hh : q.head with
          | none =>
            simp only [hh, Option.some.injEq, Prod.mk.injEq] at hb
            exact hb.1.symm
          | some hd =>
            simp only [hh] at hb
            cases ht : q.tail with
            | none => simp [ht] at hb
            | some t =>
              simp only [ht] at hb
              cases hsn : setNext (setCell st.mem a (some (list_ele_t.mk s none))) t (some a) with
              | none => simp [hsn] at hb
              | some m2 =>
                simp only [hsn, Option.some.injEq, Prod.mk.injEq] at hb
                exact hb.1.symm
        intro htail
        cases hh : q.head with
        | none => exact ⟨_, by simp only [q_insert_tail, hq', hm', if_true, hh]; rfl⟩
        | some hd =>
          rcases htail with h0 | ⟨t, e, ht, he⟩
          · rw [head_present st q hq', hh] at h0
            simp at h0
          · rw [tail_present st q hq'] at ht
            have hta : t ≠ a := fun h => by rw [h, hfree] at he; simp at he
            have hm1t : setCell st.mem a (some (list_ele_t.mk s none)) t = some e := by
              rw [setCell_other _ a t _ hta]; exact he
            exact ⟨_, by
              simp only [q_insert_tail, hq', hm', if_true, hh, ht,
                setNext_live _ t e (some a) hm1t]
              rfl⟩

/-- On the queue `abc`, an insertion of "hello" fails when `malloc` refuses
the element and when it refuses the string, leaving header and heap as they
were; with both allocations granted both insertions return `true`. -/
theorem insert_failure_atomic_abc :
    (abc.q = none ∨ malloc abc.mem none = none ∨ true = false) ∧
    (q_insert_head abc hello none true = some (false, abc) ∧
      q_insert_tail abc hello none true = some (false, abc)) ∧
    (abc.q = none ∨ malloc abc.mem (some 7) = none ∨ false = false) ∧
    (q_insert_head abc hello (some 7) false = some (false, abc) ∧
      q_insert_tail abc hello (some 7) false = some (false, abc)) ∧
    abc.q ≠ none ∧ malloc abc.mem (some 7) ≠ none ∧
    (abc.head = none ∨ ∃ t e, abc.tail = some t ∧ abc.mem t = some e) ∧
    (∃ st', q_insert_head abc hello (some 7) true = some (true, st')) ∧
    (∃ st', q_insert_tail abc hello (some 7) true = some (true, st')) :=
  ⟨Or.inr (Or.inl rfl),
    (insert_failure_atomic abc hello none true).1 (Or.inr (Or.inl rfl)),
    Or.inr (Or.inr rfl),
    (insert_failure_atomic abc hello (some 7) false).1 (Or.inr (Or.inr rfl)),
    by decide, by decide, Or.inr ⟨3, _, rfl, rfl⟩,
    ((insert_failure_atomic abc hello (some 7) true).2 (by decide) (by decide) rfl).1,
    ((insert_failure_atomic abc hello (some 7) true).2 (by decide) (by decide) rfl).2.1
      (Or.inr ⟨3, _, rfl, rfl⟩)⟩

/-- C14, the code at a failing run: after the run `reuse_calls` from a fresh
queue, every call of which returns `true`, two `q_remove_head` calls return
`true` and a third returns `false` and leaves its buffer untouched: head is
`NULL` then, the queue is present, and `q_size` reports 1, not 0. -/
theorem q_remove_head_false_at_size_one :
    (run 1 fresh drain_calls).map
        (fun r => (r.2.map Ret.ok, (r.2.map Ret.buf).getLast?, r.1.q, q_size r.1)) =
      some ([true, true, true, true, true, true, true, false], some (some [7, 7]),
        some (queue_t.mk none (some 3) 1), 1) := by
  decide

/-- C15, counterexample: from `q_new`, 2147483648 calls `q_insert_tail(q, "")`,
each granted at a fresh address, all return `true`, and no `q_remove_head` is
called; the `int` that `q_size` then returns is -2147483648, not the number of
insertions that returned `true` less the number of removals that did. -/
theorem size_count_wraps :
    (insert_tail_calls (many_calls 2147483648)).length + 2 ≤ 2147483650 ∧
    ∃ st rets, run 2147483650 (q_new emptyHeap true)
        (insert_tail_calls (many_calls 2147483648)) = some (st, rets) ∧
      (∀ r ∈ rets, r.ok = true) ∧ q_size st = -2147483648 ∧
      q_size st ≠ (inserted (insert_tail_calls (many_calls 2147483648)) rets : Int) -
        (removed (insert_tail_calls (many_calls 2147483648)) rets : Int) := by
  constructor
  · rw [insert_tail_calls, List.length_map, many_calls_length]
  · obtain ⟨st, rets, hrun, hall, hsz⟩ := run_many_calls 2147483648 2147483650
    have hw : int_wrap ((2147483648 : Nat) : Int) = -2147483648 := by decide
    rw [hw] at hsz
    refine ⟨st, rets, hrun, hall, hsz, ?_⟩
    rw [hsz, removed_insert_tail_calls]
    omega

/-- C15, amended: from `q_new`, whatever its allocation gave, for every
sequence of calls of the five operations with any allocation outcomes: when
the run reaches its end, the value `q_size` returns is the number of
insertions that returned `true` less the number of `q_remove_head` calls that
returned `true`, reduced to the range of `int`, and so that difference itself
whenever it lies in the range of `int`; with fuel for the length of the
sequence the run reaches its end unless it meets a call without defined
behaviour, a `q_insert_tail` through a `tail` that is not a live element or a
`q_remove_head` with a buffer too small for its `bufsize`; and `q_size`
returns 0 for every absent queue. -/
theorem size_counts_calls (ops : List Op) (fuel : Nat) (m0 : Heap) (ok : Bool)
    (hf : ops.length + 2 ≤ fuel) :
    (∀ st rets, run fuel (q_new m0 ok) ops = some (st, rets) →
      q_size st = int_wrap ((inserted ops rets : Int) - (removed ops rets : Int)) ∧
      (-2147483648 ≤ (inserted ops rets : Int) - (removed ops rets : Int) →
        (inserted ops rets : Int) - (removed ops rets : Int) ≤ 2147483647 →
        q_size st = (inserted ops rets : Int) - (removed ops rets : Int))) ∧
    (run fuel (q_new m0 ok) ops = none →
      ∃ pre op post stk retsk, ops = pre ++ op :: post ∧
        run fuel (q_new m0 ok) pre = some (stk, retsk) ∧ step fuel stk op = none ∧
        Stuck stk op) ∧
    (∀ s : State, s.q = none → q_size s = 0) := by
  have h0 : q_size (q_new m0 ok) = 0 := by
    cases ok
    · simp [q_new, q_size]
    · exact int_wrap_zero
  refine ⟨?_, ?_, ?_⟩
  · intro st rets hrun
    have h := run_size ops fuel (q_new m0 ok) st rets hrun
    rw [h0, Int.zero_add] at h
    exact ⟨h, fun h1 h2 => by rw [h]; exact int_wrap_small _ h1 h2⟩
  · intro hnone
    have hinv : ∃ l, Chain (q_new m0 ok).mem (q_new m0 ok).head l ∧ l.length ≤ 0 := by
      refine ⟨[], ?_, le_refl _⟩
      cases ok <;> simp [q_new, State.head, Chain]
    exact run_progress ops (q_new m0 ok) 0 fuel hinv (by omega) hnone
  · intro s hs
    simp [q_size, hs]

/-- C15, witness: the run `mixed_calls` from a fresh queue reaches its end;
two of its four insertions and two of its three removals returned `true`, and
`q_size` returns 0. -/
theorem size_counts_calls_witness :
    mixed_calls.length + 2 ≤ 11 ∧
    ∃ st rets, run 11 (q_new emptyHeap true) mixed_calls = some (st, rets) ∧
      (q_size st = int_wrap ((inserted mixed_calls rets : Int) - (removed mixed_calls rets : Int)) ∧
        (-2147483648 ≤ (inserted mixed_calls rets : Int) - (removed mixed_calls rets : Int) →
          (inserted mixed_calls rets : Int) - (removed mixed_calls rets : Int) ≤ 2147483647 →
          q_size st = (inserted mixed_calls rets : Int) - (removed mixed_calls rets : Int))) ∧
      rets.map Ret.ok = [true, false, true, false, true, true, true, true, false] ∧
      inserted mixed_calls rets = 2 ∧ removed mixed_calls rets = 2 ∧ q_size st = 0 := by
  have hd : (run 11 (q_new emptyHeap true) mixed_calls).map
      (fun r => (r.2.map Ret.ok, inserted mixed_calls r.2, removed mixed_calls r.2, q_size r.1)) =
      some ([true, false, true, false, true, true, true, true, false], 2, 2, 0) := by
    decide
  refine ⟨by decide, ?_⟩
  cases h : run 11 (q_new emptyHeap true) mixed_calls with
  | none =>
    rw [h] at hd
    simp at hd
  | some p =>
    rw [h] at hd
    simp only [Option.map_some', Option.some.injEq, Prod.mk.injEq] at hd
    obtain ⟨h1, h2, h3, h4⟩ := hd
    exact ⟨p.1, p.2, rfl,
      (size_counts_calls mixed_calls 11 emptyHeap true (by decide)).1 p.1 p.2 h, h1, h2, h3, h4⟩

end LabQueue

namespace LabQueue

/-! ## The claims on the tail after sorting, on the split, on `merge` and on the buffer -/

/-- C16, counterexample: `q_sort` goes by the `size` field, not by the number
of elements reachable from head.  The run `loop_calls` from a fresh queue,
every call of which returns `true`, leaves the one element at address 2
reachable from head under `size` 2 and `tail` 1; `q_sort` then sets `tail` to
2, so it changes a one-element queue.  The header `mis_sized` has the chain
1, 2 of two elements under `size` 1 and `tail` 1; `q_sort` returns at once,
and `tail` still references the first element, whose next-link is not
`NULL`, not the last one. -/
theorem q_sort_tail_goes_by_size :
    (run 4 fresh loop_calls).map
        (fun r => (r.2.map Ret.ok, r.1.q, elements 3 r.1.mem r.1.head)) =
      some ([true, true, true, true], some (queue_t.mk (some 2) (some 1) 2), some [2]) ∧
    (run 4 fresh (loop_calls ++ [Op.sort])).map
        (fun r => (r.2.map Ret.ok, r.1.q, elements 3 r.1.mem r.1.head)) =
      some ([true, true, true, true, true], some (queue_t.mk (some 2) (some 2) 2), some [2]) ∧
    Chain mis_sized.mem mis_sized.head [1, 2] ∧
    (∀ fuel, q_sort fuel mis_sized = some mis_sized) ∧
    mis_sized.tail = some 1 ∧ [1, 2].getLast? = some 2 ∧
    getNext mis_sized.mem 1 = some (some 2) :=
  ⟨by decide, by decide, elements_chain _ _ _ 3 (by decide), fun _ => rfl, by decide,
    by decide, by decide⟩

/-- C16, amended: on every queue whose elements form a finite acyclic chain
from head, whatever `tail` references before the call: with at least two
elements and a `size` field other than 1, `q_sort` returns and `tail` then
references the last element reachable from head, whose next-link is `NULL`;
on an absent queue, on an empty queue and on a one-element queue whose `size`
field is 1, `q_sort` changes nothing. -/
theorem q_sort_tail (st : State) (l : List Nat) (fuel : Nat)
    (hc : Chain st.mem st.head l) (hf : l.length + 2 ≤ fuel) :
    (2 ≤ l.length → st.size ≠ 1 →
      ∃ st' l' t, q_sort fuel st = some st' ∧ Chain st'.mem st'.head l' ∧
        l'.getLast? = some t ∧ st'.tail = some t ∧ getNext st'.mem t = some none) ∧
    ((st.q = none ∨ l = [] ∨ (l.length = 1 ∧ st.size = 1)) → q_sort fuel st = some st) := by
  constructor
  · intro h2 h1
    obtain ⟨st', hs, hch, _, _, _, _, htl, _⟩ :=
      q_sort_chain st l fuel hc (fun h => absurd h h1) hf
    have hne : l ≠ [] := fun h => by rw [h] at h2; simp at h2
    have htail := htl h1 hne
    cases hlast : (msortL (valueAt st.mem) l).getLast? with
    | none =>
      have hnil := List.getLast?_eq_none_iff.mp hlast
      have := (msortL_perm_self (valueAt st.mem) l).length_eq
      rw [hnil] at this
      exact absurd (List.length_eq_zero.mp this.symm) hne
    | some t =>
      rw [hlast] at htail
      exact ⟨st', _, t, hs, hch, hlast, htail, chain_last_next _ _ _ t hch hlast⟩
  · intro h
    rcases h with h | h | ⟨hl, h1⟩
    · obtain ⟨st', hs, _, _, _, _, habs, _, _⟩ :=
        q_sort_chain st l fuel hc (fun _ => by
          have : st.head = none := head_absent st h
          rw [this] at hc
          cases l with
          | nil => simp
          | cons a r => simp [Chain] at hc) hf
      rw [hs, habs h]
    · obtain ⟨st', hs, _, _, _, _, _, _, hearly, _⟩ :=
        q_sort_chain st l fuel hc (fun _ => by rw [h]; simp) hf
      rw [hs, hearly (Or.inr h)]
    · exact q_sort_size_one st fuel h1

/-- C16, witness: the queue banana, apple, cherry with `tail` set to the
first element instead of the last; after `q_sort` the chain is 2, 1, 3 and
`tail` is 3, whose next-link is `NULL`.  On the queue `single` nothing
changes. -/
theorem q_sort_tail_witness :
    Chain (State.mk (some (queue_t.mk (some 1) (some 1) 3)) fruit.mem).mem
      (State.mk (some (queue_t.mk (some 1) (some 1) 3)) fruit.mem).head [1, 2, 3] ∧
    [1, 2, 3].length + 2 ≤ 5 ∧ 2 ≤ [1, 2, 3].length ∧
    (State.mk (some (queue_t.mk (some 1) (some 1) 3)) fruit.mem).size ≠ 1 ∧
    (∃ st' l' t, q_sort 5 (State.mk (some (queue_t.mk (some 1) (some 1) 3)) fruit.mem) = some st' ∧
      Chain st'.mem st'.head l' ∧ l'.getLast? = some t ∧ st'.tail = some t ∧
      getNext st'.mem t = some none) ∧
    (q_sort 5 (State.mk (some (queue_t.mk (some 1) (some 1) 3)) fruit.mem)).map
        (fun s => (s.q, elements 4 s.mem s.head, getNext s.mem 3)) =
      some (some (queue_t.mk (some 2) (some 3) 3), some [2, 1, 3], some none) ∧
    q_sort 5 single = some single :=
  ⟨elements_chain _ _ _ 4 (by decide), by decide, by decide, by decide,
    (q_sort_tail (State.mk (some (queue_t.mk (some 1) (some 1) 3)) fruit.mem) [1, 2, 3] 5
      (elements_chain _ _ _ 4 (by decide)) (by decide)).1 (by decide) (by decide),
    by decide,
    (q_sort_tail single [1] 5 (elements_chain _ _ _ 4 (by decide)) (by decide)).2
      (Or.inr (Or.inr ⟨rfl, rfl⟩))⟩

/-- C17: on every acyclic list of `n ≥ 2` elements the slow/fast walk of
`mergeSortList` returns and severs the list into a first half, the first
`(n + 1) / 2` elements in their order, still hanging from the head, and a
second half, the other `n / 2` elements in their order, hanging from `fast`;
both halves are non-empty and shorter than `n`.  `mergeSortList` is this
split followed by its two recursive calls and `merge`, and it returns on every
finite acyclic list. -/
theorem mergeSortList_split_halves (m : Heap) (h f : Nat) (r : List Nat) (fuel : Nat)
    (hc : Chain m (some h) (h :: f :: r)) (hf : (h :: f :: r).length ≤ fuel) :
    (∃ m1 fast, mergeSortList_split fuel m h f = some (m1, fast) ∧
      Chain m1 (some h) ((h :: f :: r).take (((h :: f :: r).length + 1) / 2)) ∧
      Chain m1 fast ((h :: f :: r).drop (((h :: f :: r).length + 1) / 2)) ∧
      SameValues m m1 ∧
      ((h :: f :: r).take (((h :: f :: r).length + 1) / 2)).length =
        ((h :: f :: r).length + 1) / 2 ∧
      ((h :: f :: r).drop (((h :: f :: r).length + 1) / 2)).length = (h :: f :: r).length / 2 ∧
      0 < ((h :: f :: r).length + 1) / 2 ∧ ((h :: f :: r).length + 1) / 2 < (h :: f :: r).length ∧
      0 < (h :: f :: r).length / 2 ∧ (h :: f :: r).length / 2 < (h :: f :: r).length) ∧
    (∀ k : Nat, mergeSortList (k + 1) m (some h) =
      match mergeSortList_split k m h f with
      | none => none
      | some (m1, fast) =>
        match mergeSortList k m1 (some h) with
        | none => none
        | some (m2, l1) =>
          match mergeSortList k m2 fast with
          | none => none
          | some (m3, l2) => merge k m3 l1 l2) ∧
    (∀ (m0 : Heap) (p : Ptr) (l : List Nat) (k : Nat), Chain m0 p l → l.length + 2 ≤ k →
      ∃ res, mergeSortList k m0 p = some res) := by
  refine ⟨?_, ?_, ?_⟩
  · obtain ⟨m1, fast, hs, hc1, hc2, hsv, _⟩ := mergeSortList_split_spec m h f r fuel hc hf
    refine ⟨m1, fast, hs, hc1, hc2, hsv, ?_, ?_, ?_, ?_, ?_, ?_⟩
    · rw [List.length_take]; simp only [List.length_cons]; omega
    · rw [List.length_drop]; simp only [List.length_cons]; omega
    · simp only [List.length_cons]; omega
    · simp only [List.length_cons]; omega
    · simp only [List.length_cons]; omega
    · simp only [List.length_cons]; omega
  · intro k
    obtain ⟨eh, heh, hcr⟩ := chain_tail m (some h) h (f :: r) hc
    rw [chain_cons] at hcr
    exact mergeSortList_step k m h f (by rw [getNext_live m h eh heh, hcr.1])
  · intro m0 p l k hcl hk
    obtain ⟨m', p', hres, _⟩ := mergeSortList_spec l.length l k m0 p (le_refl _) hcl hk
    exact ⟨_, hres⟩

/-- C17, witness: the list "a", "b", "c" at addresses 1, 2, 3 is severed into
1, 2 and 3. -/
theorem mergeSortList_split_halves_witness :
    Chain abc.mem (some 1) [1, 2, 3] ∧ [1, 2, 3].length ≤ 3 ∧
    (mergeSortList_split 3 abc.mem 1 2).map
        (fun r => (r.2, elements 4 r.1 (some 1), elements 4 r.1 r.2)) =
      some (some 3, some [1, 2], some [3]) ∧
    (∃ m1 fast, mergeSortList_split 3 abc.mem 1 2 = some (m1, fast) ∧
      Chain m1 (some 1) ([1, 2, 3].take (([1, 2, 3].length + 1) / 2)) ∧
      Chain m1 fast ([1, 2, 3].drop (([1, 2, 3].length + 1) / 2)) ∧
      SameValues abc.mem m1 ∧
      ([1, 2, 3].take (([1, 2, 3].length + 1) / 2)).length = ([1, 2, 3].length + 1) / 2 ∧
      ([1, 2, 3].drop (([1, 2, 3].length + 1) / 2)).length = [1, 2, 3].length / 2 ∧
      0 < ([1, 2, 3].length + 1) / 2 ∧ ([1, 2, 3].length + 1) / 2 < [1, 2, 3].length ∧
      0 < [1, 2, 3].length / 2 ∧ [1, 2, 3].length / 2 < [1, 2, 3].length) :=
  ⟨elements_chain _ _ _ 4 (by decide), by decide, by decide,
    (mergeSortList_split_halves abc.mem 1 2 [3] 3 (elements_chain _ _ _ 4 (by decide))
      (by decide)).1⟩

/-- C18: for all acyclic disjoint lists, either possibly empty, `merge`
returns a `NULL`-terminated list that holds exactly the elements of the two
lists, each once, with the strings they had, in which the elements of the
first list keep their relative order and so do the elements of the second;
if both lists are non-decreasing by `strcmp`, so is the result. -/
theorem merge_interleaves (m : Heap) (p1 p2 : Ptr) (r1 r2 : List Nat) (fuel : Nat)
    (hc1 : Chain m p1 r1) (hc2 : Chain m p2 r2) (hdisj : ∀ a ∈ r1, a ∉ r2)
    (hf : r1.length + r2.length < fuel) :
    ∃ m' p' l', merge fuel m p1 p2 = some (m', p') ∧ Chain m' p' l' ∧
      l'.Perm (r1 ++ r2) ∧ l'.Nodup ∧ List.Sublist r1 l' ∧ List.Sublist r2 l' ∧
      SameValues m m' ∧
      ((values m r1).Pairwise StrLe → (values m r2).Pairwise StrLe →
        (values m' l').Pairwise StrLe) := by
  obtain ⟨m', p', hm, hch, hsv, _⟩ := merge_spec m p1 p2 r1 r2 fuel hc1 hc2 hdisj hf
  obtain ⟨hs1, hs2⟩ := mergeL_sublist (valueAt m) _ r1 r2 rfl
  refine ⟨m', p', _, hm, hch, mergeL_perm (valueAt m) _ r1 r2 rfl, chain_nodup _ _ _ hch, hs1,
    hs2, hsv, ?_⟩
  intro h1 h2
  unfold values at h1 h2 ⊢
  rw [List.pairwise_map] at h1 h2 ⊢
  rw [sameValues_valueAt _ _ hsv]
  exact mergeL_sorted (valueAt m) _ r1 r2 rfl h1 h2

/-- C18, witness: the sorted lists "a", "c" at 1, 2 and "b", "d" at 3, 4 are
merged into 1, 3, 2, 4, that is "a", "b", "c", "d". -/
theorem merge_interleaves_witness :
    Chain ladders (some 1) [1, 2] ∧ Chain ladders (some 3) [3, 4] ∧
    (∀ a ∈ [1, 2], a ∉ [3, 4]) ∧ [1, 2].length + [3, 4].length < 5 ∧
    (∃ m' p' l', merge 5 ladders (some 1) (some 3) = some (m', p') ∧ Chain m' p' l' ∧
      l'.Perm ([1, 2] ++ [3, 4]) ∧ l'.Nodup ∧ List.Sublist [1, 2] l' ∧ List.Sublist [3, 4] l' ∧
      SameValues ladders m' ∧
      ((values ladders [1, 2]).Pairwise StrLe → (values ladders [3, 4]).Pairwise StrLe →
        (values m' l').Pairwise StrLe)) ∧
    (merge 5 ladders (some 1) (some 3)).map
        (fun r => (r.2, elements 5 r.1 r.2, (elements 5 r.1 r.2).map (values r.1))) =
      some (some 1, some [1, 3, 2, 4], some [[97], [98], [99], [100]]) :=
  ⟨elements_chain _ _ _ 3 (by decide), elements_chain _ _ _ 3 (by decide), by decide, by decide,
    merge_interleaves ladders (some 1) (some 3) [1, 2] [3, 4] 5
      (elements_chain _ _ _ 3 (by decide)) (elements_chain _ _ _ 3 (by decide)) (by decide)
      (by decide), by decide⟩

/-- C19: on every queue whose head is an element holding the string `v`, for
every provided buffer of capacity `c ≥ 1`: every index `q_remove_head` writes
is below `c`, the last write is the NUL at index `c - 1` (which is
`bufsize - 1` in `size_t`), the call returns `true`, and afterwards the
buffer's first `c` bytes are the first `min (length v) (c - 1)` bytes of `v`
followed by NUL bytes in every remaining position; bytes beyond the capacity
are untouched. -/
theorem q_remove_head_bounds (st : State) (q : queue_t) (a : Nat) (e : list_ele_t)
    (buf : List Nat) (c : Nat) (hq : st.q = some q) (hh : q.head = some a)
    (he : st.mem a = some e) (hc1 : 1 ≤ c) (hc2 : c < SIZE_MOD) (hbuf : c ≤ buf.length) :
    (∀ w ∈ q_remove_head_writes e.value c, w.1 < c) ∧
    (q_remove_head_writes e.value c).getLast? = some (c - 1, 0) ∧ size_sub c 1 = c - 1 ∧
    ∃ st' buf', q_remove_head st (some buf) c = some (true, st', some buf') ∧
      buf'.length = buf.length ∧
      buf'.take c = e.value.take (min e.value.length (c - 1)) ++
        List.replicate (c - min e.value.length (c - 1)) 0 ∧
      buf'.drop c = buf.drop c := by
  have hsub := size_sub_one c hc1 hc2
  have hw : q_remove_head_writes e.value c = strncpy_writes e.value (c - 1) ++ [(c - 1, 0)] := by
    unfold q_remove_head_writes
    rw [hsub]
  refine ⟨?_, ?_, hsub, _, _, q_remove_head_live st q a e buf c hq hh he hc1 hc2 hbuf, ?_, ?_, ?_⟩
  · intro w hwm
    rw [hw] at hwm
    rcases List.mem_append.mp hwm with h1 | h1
    · unfold strncpy_writes at h1
      obtain ⟨i, hi, hiw⟩ := List.mem_map.mp h1
      rw [← hiw]
      have := List.mem_range.mp hi
      simp only []
      omega
    · simp only [List.mem_singleton] at h1
      rw [h1]
      simp only []
      omega
  · rw [hw, List.getLast?_concat]
  · simp only [List.length_append, List.length_map, List.length_range, List.length_cons,
      List.length_drop]
    omega
  · have hlen : ((List.range (c - 1)).map (fun i => e.value.getD i 0) ++ [0]).length = c := by
      simp only [List.length_append, List.length_map, List.length_range,
        List.length_singleton]
      omega
    have happ : (List.range (c - 1)).map (fun i => e.value.getD i 0) ++ 0 :: buf.drop c =
        ((List.range (c - 1)).map (fun i => e.value.getD i 0) ++ [0]) ++ buf.drop c := by
      simp
    rw [happ, List.take_left' hlen, range_map_getD]
    by_cases hl : e.value.length ≤ c - 1
    · rw [Nat.min_eq_left hl, List.take_of_length_le hl, List.take_of_length_le (le_refl _),
        List.append_assoc]
      congr 1
      have : c - e.value.length = (c - 1 - e.value.length) + 1 := by omega
      rw [this, List.replicate_succ']
    · rw [Nat.min_eq_right (by omega)]
      have h0 : c - 1 - e.value.length = 0 := by omega
      have h1 : c - (c - 1) = 1 := by omega
      rw [h0, h1]
      simp
  · have hlen : ((List.range (c - 1)).map (fun i => e.value.getD i 0) ++ [0]).length = c := by
      simp only [List.length_append, List.length_map, List.length_range,
        List.length_singleton]
      omega
    have happ : (List.range (c - 1)).map (fun i => e.value.getD i 0) ++ 0 :: buf.drop c =
        ((List.range (c - 1)).map (fun i => e.value.getD i 0) ++ [0]) ++ buf.drop c := by
      simp
    rw [happ, List.drop_left' hlen]

/-- C19, witness: "hello" with a buffer of capacity 3 is written at the
indices 0, 1, 2 and leaves the bytes h, e, NUL; "hello" with a buffer of
capacity 8 leaves hello and three NUL bytes. -/
theorem q_remove_head_bounds_witness :
    single.q = some (queue_t.mk (some 1) (some 1) 1) ∧
    single.mem 1 = some (list_ele_t.mk hello none) ∧ 1 ≤ 3 ∧ 3 < SIZE_MOD ∧
    3 ≤ [9, 9, 9].length ∧
    ((∀ w ∈ q_remove_head_writes hello 3, w.1 < 3) ∧
      (q_remove_head_writes hello 3).getLast? = some (3 - 1, 0) ∧ size_sub 3 1 = 3 - 1 ∧
      ∃ st' buf', q_remove_head single (some [9, 9, 9]) 3 = some (true, st', some buf') ∧
        buf'.length = [9, 9, 9].length ∧
        buf'.take 3 = hello.take (min hello.length (3 - 1)) ++
          List.replicate (3 - min hello.length (3 - 1)) 0 ∧
        buf'.drop 3 = [9, 9, 9].drop 3) ∧
    q_remove_head_writes hello 3 = [(0, 104), (1, 101), (2, 0)] ∧
    (q_remove_head single (some [9, 9, 9]) 3).map (fun r => (r.1, r.2.2)) =
      some (true, some [104, 101, 0]) ∧
    (q_remove_head single (some (List.replicate 8 9)) 8).map (fun r => (r.1, r.2.2)) =
      some (true, some [104, 101, 108, 108, 111, 0, 0, 0]) :=
  ⟨rfl, rfl, by decide, by decide, by decide,
    q_remove_head_bounds single (queue_t.mk (some 1) (some 1) 1) 1 (list_ele_t.mk hello none)
      [9, 9, 9] 3 rfl rfl rfl (by decide) (by decide) (by decide),
    by decide, by decide, by decide⟩

end LabQueue
